import Mathlib

/-!
# Grappa RDMA aggregator: packed message lists, enqueue and flush

A shallow embedding of `system/RDMAAggregator.hpp`.

* A `MessageBase *` is modelled by its `intptr_t` value (`Ptr := Int`, `nullptr = 0`);
  the records themselves live in `memory : Ptr → MessageBase`.
* `MessageList` and `PrefetchEntry` are the 64-bit unions of the source: the model keeps
  the raw word (its bit pattern, as a natural number) and derives the bit-fields from it,
  the 16-bit field in the low bits and the signed 48-bit pointer in the high bits.
* `send_rdma` is declared but not defined in the header: a call is recorded in the
  trace `send_rdma_calls`.
* The statistics counters are natural numbers.
* Execution is sequential (one cooperative task at a time), so every call runs to
  completion before the next one starts.  The compare-and-swap loops are modelled with
  fuel; they are shown to finish in their first iteration.
* Producers on other threads are modelled only where the counters of `enqueue` are
  concerned (`enqueue_among`): a list of words stored in the destination's word between
  the read of the word and the compare-and-swap.
* `aggregate_to_buffer` is declared but not defined in the header; `send_immediate` runs
  on a model of it that follows the specification.

Two small functions of other files are embedded as well: the scan of
`Verificator::get_edge_weight` (`applications/demos/graph/verificator.hpp`) and
`RMA::to_global` (`system/RMA.cpp`).
-/

namespace Grappa

/-- Index of a core (`typedef Node Core`). -/
abbrev Core := Nat

/-- A `MessageBase *`, as the integer `reinterpret_cast< intptr_t >` gives; `nullptr` is 0. -/
abbrev Ptr := Int

/-- The constant `prefetch_dist`. -/
def prefetch_dist : Nat := 5

/-- Modelled from the spec: the message record `MessageBase`, whose declaration
(`MessageBase.hpp`) is not among the sources.  It has the fields the aggregator reads and
writes: the destination core, the link slot `next_`, the prefetch slot `prefetch_`, and
`serialized_size`, the value the virtual `serialized_size()` returns. -/
structure MessageBase where
  destination_ : Core
  serialized_size : Nat
  next_ : Ptr
  prefetch_ : Ptr
deriving DecidableEq, Repr

/-! ## Bit-fields of the packed 64-bit word -/

/-- The 16-bit field in the low bits of a word. -/
def low16 (raw : Nat) : Nat := raw % 65536

/-- The 48 bits above the 16-bit field. -/
def high48 (raw : Nat) : Nat := raw / 65536 % 281474976710656

/-- Reading a signed 48-bit field: sign extension to `intptr_t`. -/
def signed48 (bits : Nat) : Int :=
  if bits < 140737488355328 then (bits : Int) else (bits : Int) - 281474976710656

/-- Assigning `v` to the 16-bit field: `v` is truncated, the pointer bits are kept. -/
def with_low16 (raw v : Nat) : Nat := high48 raw * 65536 + v % 65536

/-- Assigning `p` to the signed 48-bit field: `p` is truncated, the low 16 bits are kept. -/
def with_pointer48 (raw : Nat) (p : Int) : Nat :=
  (p % 281474976710656).toNat * 65536 + low16 raw

/-- The union `MessageList`: `raw_` is the whole word. -/
structure MessageList where
  raw_ : Nat
deriving DecidableEq, Repr

/-- The union `PrefetchEntry`: `raw_` is the whole word. -/
structure PrefetchEntry where
  raw_ : Nat
deriving DecidableEq, Repr

/-- Bit-field `unsigned count_ : 16`. -/
def MessageList.count_ (ml : MessageList) : Nat := low16 ml.raw_

/-- Bit-field `intptr_t pointer_ : 48`. -/
def MessageList.pointer_ (ml : MessageList) : Int := signed48 (high48 ml.raw_)

/-- The assignment `ml.count_ = v`. -/
def MessageList.assign_count_ (ml : MessageList) (v : Nat) : MessageList :=
  ⟨with_low16 ml.raw_ v⟩

/-- Template `get_pointer` at `MessageList`. -/
def MessageList.get_pointer (ml : MessageList) : Ptr := ml.pointer_

/-- Template `set_pointer` at `MessageList`: `ml->pointer_ = reinterpret_cast< intptr_t >( m )`. -/
def MessageList.set_pointer (ml : MessageList) (m : Ptr) : MessageList :=
  ⟨with_pointer48 ml.raw_ m⟩

/-- Bit-field `unsigned size_ : 16`. -/
def PrefetchEntry.size_ (pe : PrefetchEntry) : Nat := low16 pe.raw_

/-- Bit-field `intptr_t pointer_ : 48`. -/
def PrefetchEntry.pointer_ (pe : PrefetchEntry) : Int := signed48 (high48 pe.raw_)

/-- The assignment `pe.size_ = v`. -/
def PrefetchEntry.assign_size_ (pe : PrefetchEntry) (v : Nat) : PrefetchEntry :=
  ⟨with_low16 pe.raw_ v⟩

/-- Template `get_pointer` at `PrefetchEntry`. -/
def PrefetchEntry.get_pointer (pe : PrefetchEntry) : Ptr := pe.pointer_

/-- Template `set_pointer` at `PrefetchEntry`. -/
def PrefetchEntry.set_pointer (pe : PrefetchEntry) (m : Ptr) : PrefetchEntry :=
  ⟨with_pointer48 pe.raw_ m⟩

/-- The index `i % prefetch_dist` into `prefetch_queue_`. -/
def ring_slot (i : Nat) : Fin 5 := ⟨i % 5, Nat.mod_lt i (by decide)⟩

/-- The part of `CoreData` the enqueue and flush paths use. -/
structure CoreData where
  messages_ : MessageList
  prefetch_queue_ : Fin 5 → PrefetchEntry

/-- The value-initialised `CoreData()`: all bits zero. -/
def CoreData.zero : CoreData := ⟨⟨0⟩, fun _ => ⟨0⟩⟩

/-- The aggregator `global_rdma_aggregator` with the globals its methods touch:
the flag `FLAGS_target_size` (an `int64_t`), the memory holding the message records, the
trace of the calls to `send_rdma` (core and list, oldest first), and the statistics
declared with `GRAPPA_DECLARE_STAT`, as natural numbers. -/
structure RDMAAggregator where
  FLAGS_target_size : Int
  cores_ : List CoreData
  memory : Ptr → MessageBase
  send_rdma_calls : List (Core × MessageList)
  app_messages_enqueue : Nat
  app_messages_enqueue_cas : Nat
  app_messages_immediate : Nat
  rdma_capacity_flushes : Nat
  rdma_requested_flushes : Nat

/-- A freshly constructed aggregator: `n` zeroed `CoreData`, zeroed counters, nothing sent. -/
def RDMAAggregator.fresh (target_size : Int) (n : Nat) (mem : Ptr → MessageBase) :
    RDMAAggregator :=
  { FLAGS_target_size := target_size
    cores_ := List.replicate n CoreData.zero
    memory := mem
    send_rdma_calls := []
    app_messages_enqueue := 0
    app_messages_enqueue_cas := 0
    app_messages_immediate := 0
    rdma_capacity_flushes := 0
    rdma_requested_flushes := 0 }

/-- Modelled from the spec: `send_rdma( core, ml )` is declared in the header and defined
in a file that is not among the sources (the send path of the specification).  The model
records the call, its core and its list, at the end of the trace. -/
def send_rdma (s : RDMAAggregator) (core : Core) (ml : MessageList) : RDMAAggregator :=
  { s with send_rdma_calls := s.send_rdma_calls ++ [(core, ml)] }

/-- The builtin `__sync_bool_compare_and_swap` on one cell: success flag and new contents. -/
def compare_and_swap (cell expected desired : Nat) : Bool × Nat :=
  if cell = expected then (true, desired) else (false, cell)

/-- The unsigned 64-bit value a `size_t` or a converted `int64_t` holds. -/
def to_size_t (x : Int) : Nat := (x % 18446744073709551616).toNat

/-- The locals of `enqueue` that are live after its loop. -/
structure EnqueueLocals where
  old_ml : MessageList
  new_ml : MessageList
  swap_ml : MessageList
  count : Nat
  size : Nat
  spawn_send : Bool

/-- The `do ... while( !__sync_bool_compare_and_swap( ... ) )` loop of `enqueue`.
One unit of fuel is one iteration. -/
def enqueue_loop : Nat → RDMAAggregator → Ptr → Core → MessageList →
    Option (RDMAAggregator × EnqueueLocals)
  | 0, _, _, _, _ => none
  | fuel + 1, s, m, core, new_ml =>
    match s.cores_[core]? with
    | none => none
    | some dest =>
      -- read previous value
      let old_ml := dest.messages_
      -- add previous count/estimated size
      let count := 1 + old_ml.count_
      let size0 := (s.memory m).serialized_size % 18446744073709551616
      let size :=
        if count > 1 then
          (size0 + (dest.prefetch_queue_ (ring_slot old_ml.count_)).size_) % 18446744073709551616
        else size0
      let new_ml := new_ml.assign_count_ count
      -- append previous list to current message
      let mem1 : Ptr → MessageBase :=
        Function.update s.memory m { s.memory m with next_ := old_ml.get_pointer }
      -- set prefetch to the oldest pointer we remember
      let mem2 : Ptr → MessageBase :=
        Function.update mem1 m
          { mem1 m with prefetch_ := (dest.prefetch_queue_ (ring_slot count)).get_pointer }
      let spawn_send : Bool := decide (size > to_size_t s.FLAGS_target_size)
      let swap_ml : MessageList := if spawn_send then ⟨0⟩ else new_ml
      -- now try to insert current message (and count attempt)
      let cas := compare_and_swap dest.messages_.raw_ old_ml.raw_ swap_ml.raw_
      let s1 : RDMAAggregator :=
        { s with
          memory := mem2
          app_messages_enqueue_cas := s.app_messages_enqueue_cas + 1
          cores_ := s.cores_.set core { dest with messages_ := ⟨cas.2⟩ } }
      if cas.1 then
        some (s1, ⟨old_ml, new_ml, swap_ml, count, size, spawn_send⟩)
      else
        enqueue_loop fuel s1 m core new_ml

/-- The method `enqueue( m )`.  `none`: the destination is outside `cores_`, or the loop
ran out of fuel. -/
def enqueue (fuel : Nat) (s : RDMAAggregator) (m : Ptr) : Option RDMAAggregator :=
  let s0 : RDMAAggregator := { s with app_messages_enqueue := s.app_messages_enqueue + 1 }
  -- get destination pointer
  let core := (s0.memory m).destination_
  -- prepare to stitch in message (both fields of new_ml are assigned before it is used)
  let new_ml := MessageList.set_pointer ⟨0⟩ m
  match enqueue_loop fuel s0 m core new_ml with
  | none => none
  | some (s1, loc) =>
    if loc.spawn_send = false then
      match s1.cores_[core]? with
      | none => none
      | some dest =>
        -- now fill in prefetch pointer and size
        let slot := ring_slot loc.count
        let e1 := (dest.prefetch_queue_ slot).assign_size_ loc.size
        let e2 := e1.set_pointer m
        some { s1 with
               cores_ := s1.cores_.set core
                 { dest with prefetch_queue_ := Function.update dest.prefetch_queue_ slot e2 } }
    else
      some (send_rdma { s1 with rdma_capacity_flushes := s1.rdma_capacity_flushes + 1 }
        core loc.new_ml)

/-- The method `grab_messages( c )`: the loop swaps the word of `c` with 0 and the old
word is returned. -/
def grab_messages : Nat → RDMAAggregator → Core → Option (RDMAAggregator × MessageList)
  | 0, _, _ => none
  | fuel + 1, s, c =>
    match s.cores_[c]? with
    | none => none
    | some dest =>
      let old_ml := dest.messages_
      let new_ml : MessageList := ⟨0⟩
      let cas := compare_and_swap dest.messages_.raw_ old_ml.raw_ new_ml.raw_
      let s1 : RDMAAggregator :=
        { s with cores_ := s.cores_.set c { dest with messages_ := ⟨cas.2⟩ } }
      if cas.1 then some (s1, old_ml) else grab_messages fuel s1 c

/-- The method `flush_one( c )`, with the value it returns. -/
def flush_one (fuel : Nat) (s : RDMAAggregator) (c : Core) : Option (RDMAAggregator × Bool) :=
  match s.cores_[c]? with
  | none => none
  | some dest =>
    if dest.messages_.raw_ ≠ 0 then
      match grab_messages fuel s c with
      | none => none
      | some (s1, ml) => some (send_rdma s1 c ml, true)
    else
      some (s, false)

/-- The method `flush( c )`. -/
def flush (fuel : Nat) (s : RDMAAggregator) (c : Core) : Option RDMAAggregator :=
  let s0 : RDMAAggregator := { s with rdma_requested_flushes := s.rdma_requested_flushes + 1 }
  (flush_one fuel s0 c).map Prod.fst

/-! ## Sequences of calls -/

/-- One call on the aggregator. -/
inductive Call where
  | enqueue (m : Ptr)
  | grab_messages (c : Core)
  | flush_one (c : Core)
  | flush (c : Core)
deriving DecidableEq, Repr

/-- Run one call and keep the state it leaves. -/
def Call.exec (fuel : Nat) (s : RDMAAggregator) : Call → Option RDMAAggregator
  | Call.enqueue m => Grappa.enqueue fuel s m
  | Call.grab_messages c => (Grappa.grab_messages fuel s c).map Prod.fst
  | Call.flush_one c => (Grappa.flush_one fuel s c).map Prod.fst
  | Call.flush c => Grappa.flush fuel s c

/-- Run a sequence of calls, one after the other. -/
def run (fuel : Nat) : RDMAAggregator → List Call → Option RDMAAggregator
  | s, [] => some s
  | s, c :: cs =>
    match c.exec fuel s with
    | none => none
    | some s1 => run fuel s1 cs

/-- The messages a sequence of calls enqueues, in order. -/
def enqueued : List Call → List Ptr
  | [] => []
  | Call.enqueue m :: cs => m :: enqueued cs
  | _ :: cs => enqueued cs

/-- A pointer value the signed 48-bit field holds without loss. -/
def Canonical48 (p : Ptr) : Prop := -140737488355328 ≤ p ∧ p < 140737488355328

instance (p : Ptr) : Decidable (Canonical48 p) := by
  unfold Canonical48; exact inferInstance

/-- What a call needs to be well defined on a table of `n` cores: an enqueued message is
not null, its pointer fits the signed 48-bit field, and its destination is in the table; a
core that is grabbed or flushed is in the table. -/
def Call.ok (n : Nat) (mem : Ptr → MessageBase) : Call → Prop
  | Call.enqueue m => m ≠ 0 ∧ Canonical48 m ∧ (mem m).destination_ < n
  | Call.grab_messages c => c < n
  | Call.flush_one c => c < n
  | Call.flush c => c < n

instance Call.ok.decidable (n : Nat) (mem : Ptr → MessageBase) :
    (c : Call) → Decidable (Call.ok n mem c)
  | Call.enqueue m => by unfold Call.ok; exact inferInstance
  | Call.grab_messages c => by unfold Call.ok; exact inferInstance
  | Call.flush_one c => by unfold Call.ok; exact inferInstance
  | Call.flush c => by unfold Call.ok; exact inferInstance

/-- The call is not a bare `grab_messages`. -/
def Call.keeps (c : Call) : Prop :=
  match c with
  | Call.grab_messages _ => False
  | _ => True

instance Call.keeps.decidable : (c : Call) → Decidable (Call.keeps c)
  | Call.enqueue _ => by unfold Call.keeps; exact inferInstance
  | Call.grab_messages _ => by unfold Call.keeps; exact inferInstance
  | Call.flush_one _ => by unfold Call.keeps; exact inferInstance
  | Call.flush _ => by unfold Call.keeps; exact inferInstance

/-! ## Chains of messages and the bookkeeping of a destination -/

/-- The list `l` is the chain of messages reached from `p` by following `next_` up to the
null pointer. -/
def IsChain (mem : Ptr → MessageBase) : Ptr → List Ptr → Prop
  | p, [] => p = 0
  | p, q :: l => p ≠ 0 ∧ p = q ∧ IsChain mem (mem q).next_ l

instance IsChain.decidable (mem : Ptr → MessageBase) :
    (p : Ptr) → (l : List Ptr) → Decidable (IsChain mem p l)
  | p, [] => by unfold IsChain; exact inferInstance
  | p, q :: l => by
    unfold IsChain
    have := IsChain.decidable mem (mem q).next_ l
    exact inferInstance

/-- The sum of the serialized sizes of the messages of `l`. -/
def sum_sizes (mem : Ptr → MessageBase) (l : List Ptr) : Nat :=
  (l.map fun p => (mem p).serialized_size).sum

/-- Bookkeeping of one destination under a size budget `T`: the count field is the length
of the resident chain `l`, the sizes of the chain sum to at most `T`, every message has at
least one byte, and the ring entry indexed by the count holds the sum. -/
def Sized (T : Nat) (mem : Ptr → MessageBase) (cd : CoreData) (l : List Ptr) : Prop :=
  cd.messages_.count_ = l.length
  ∧ sum_sizes mem l ≤ T
  ∧ (∀ p ∈ l, 1 ≤ (mem p).serialized_size)
  ∧ (l ≠ [] → (cd.prefetch_queue_ (ring_slot l.length)).size_ = sum_sizes mem l)

/-- Bookkeeping of one destination while the count does not wrap: the count field is the
length of the resident chain `l` and the ring entry indexed by the count holds the sum of
the sizes of the chain modulo `2^16`.  Sizes are read in `mem0`. -/
def Tracked (mem0 : Ptr → MessageBase) (cd : CoreData) (l : List Ptr) : Prop :=
  cd.messages_.count_ = l.length
  ∧ (l ≠ [] → (cd.prefetch_queue_ (ring_slot l.length)).size_ = sum_sizes mem0 l % 65536)

/-- No enqueue of the messages `ms`, in this order, exceeds the budget `T` when `acc` bytes
are resident before the first: each time the size of the message plus the stored
16-bit sum is at most `T`. -/
def Quiet (mem0 : Ptr → MessageBase) (T : Nat) : Nat → List Ptr → Prop
  | _, [] => True
  | acc, m :: ms =>
    (mem0 m).serialized_size + acc % 65536 ≤ T
    ∧ Quiet mem0 T (acc + (mem0 m).serialized_size) ms

/-- The invariant of the aggregator, relative to ghost lists: `R` holds the resident chain
of every core, `S` the chain of every list passed to `send_rdma`, `G` the messages taken
by bare `grab_messages` calls, and `E` the messages enqueued so far.  `P` switches the
size bookkeeping on. -/
structure Inv (P : Prop) (mem0 : Ptr → MessageBase) (T : Int) (s : RDMAAggregator)
    (R S : List (List Ptr)) (G E : List Ptr) : Prop where
  target : s.FLAGS_target_size = T
  frame : ∀ p, (s.memory p).destination_ = (mem0 p).destination_
    ∧ (s.memory p).serialized_size = (mem0 p).serialized_size
  resident : List.Forall₂ (fun cd l => IsChain s.memory cd.messages_.pointer_ l) s.cores_ R
  sent : List.Forall₂ (fun (call : Core × MessageList) l => IsChain s.memory call.2.pointer_ l)
    s.send_rdma_calls S
  perm : (G ++ (S.flatten ++ R.flatten)).Perm E
  sized : P → List.Forall₂ (Sized (to_size_t T) s.memory) s.cores_ R

/-! ## What one call computes: closed forms of the results -/

/-- The word `new_ml` of `enqueue( m )` when the destination holds `old`. -/
def stitched_word (old : MessageList) (m : Ptr) : MessageList :=
  (MessageList.set_pointer ⟨0⟩ m).assign_count_ (1 + old.count_)

/-- The local `size` of `enqueue( m )` when the destination is `dest`. -/
def estimated_size (mem : Ptr → MessageBase) (dest : CoreData) (m : Ptr) : Nat :=
  if 1 + dest.messages_.count_ > 1 then
    ((mem m).serialized_size % 18446744073709551616
      + (dest.prefetch_queue_ (ring_slot dest.messages_.count_)).size_) % 18446744073709551616
  else (mem m).serialized_size % 18446744073709551616

/-- The memory after `enqueue( m )` has written `m->next_` and `m->prefetch_`. -/
def linked_memory (mem : Ptr → MessageBase) (dest : CoreData) (m : Ptr) : Ptr → MessageBase :=
  Function.update mem m
    { mem m with
      next_ := dest.messages_.get_pointer
      prefetch_ := (dest.prefetch_queue_ (ring_slot (1 + dest.messages_.count_))).get_pointer }

/-- The ring entry `enqueue( m )` stores when it does not flush. -/
def stored_entry (mem : Ptr → MessageBase) (dest : CoreData) (m : Ptr) : PrefetchEntry :=
  ((dest.prefetch_queue_ (ring_slot (1 + dest.messages_.count_))).assign_size_
    (estimated_size mem dest m)).set_pointer m

/-- The state `enqueue( m )` leaves when it stitches `m` in. -/
def stitched_state (s : RDMAAggregator) (dest : CoreData) (m : Ptr) : RDMAAggregator :=
  { s with
    app_messages_enqueue := s.app_messages_enqueue + 1
    app_messages_enqueue_cas := s.app_messages_enqueue_cas + 1
    memory := linked_memory s.memory dest m
    cores_ := s.cores_.set (s.memory m).destination_
      { messages_ := stitched_word dest.messages_ m
        prefetch_queue_ := Function.update dest.prefetch_queue_
          (ring_slot (1 + dest.messages_.count_)) (stored_entry s.memory dest m) } }

/-- The state `enqueue( m )` leaves when it flushes. -/
def flushed_state (s : RDMAAggregator) (dest : CoreData) (m : Ptr) : RDMAAggregator :=
  { s with
    app_messages_enqueue := s.app_messages_enqueue + 1
    app_messages_enqueue_cas := s.app_messages_enqueue_cas + 1
    memory := linked_memory s.memory dest m
    cores_ := s.cores_.set (s.memory m).destination_ { dest with messages_ := ⟨0⟩ }
    rdma_capacity_flushes := s.rdma_capacity_flushes + 1
    send_rdma_calls :=
      s.send_rdma_calls ++ [((s.memory m).destination_, stitched_word dest.messages_ m)] }

/-- The state after the word of core `c` has been swapped with 0. -/
def grabbed_state (s : RDMAAggregator) (c : Core) (dest : CoreData) : RDMAAggregator :=
  { s with cores_ := s.cores_.set c { dest with messages_ := ⟨0⟩ } }

/-! ## Example inputs -/

/-- A memory in which every message record has destination `d` and serialized size `sz`,
and is not linked yet. -/
def uniform_memory (d : Core) (sz : Nat) : Ptr → MessageBase := fun _ => ⟨d, sz, 0, 0⟩

/-- Addresses of `n` distinct messages: `64, 128, ..., 64 * n`. -/
def message_addresses (n : Nat) : List Ptr :=
  (List.range n).map (fun (i : Nat) => 64 * (Int.ofNat i + 1))

/-- The calls `enqueue( 64 ), enqueue( 128 ), ..., enqueue( 64 * n )`. -/
def enqueue_calls (n : Nat) : List Call := (message_addresses n).map Call.enqueue

/-- A sequence of calls used as an example: 25 messages are enqueued, with a `flush` of
their destination after the 5th and a `flush` of another core at the end. -/
def flushed_calls : List Call :=
  (message_addresses 5).map Call.enqueue ++ Call.flush 1
    :: ((message_addresses 25).drop 5).map Call.enqueue ++ [Call.flush 0]

/-- A sequence of calls used as an example: 25 messages are enqueued, with a `flush`, a
`grab_messages` and a `flush_one` in between. -/
def mixed_calls : List Call :=
  (message_addresses 5).map Call.enqueue ++ Call.flush 1
    :: ((message_addresses 12).drop 5).map Call.enqueue ++ Call.grab_messages 1
    :: Call.flush_one 0
    :: ((message_addresses 25).drop 12).map Call.enqueue

/-- A memory in which the message at address 128 claims a serialized size of `2^64 - 1`
and every other message has one byte. -/
def giant_memory : Ptr → MessageBase :=
  fun p => if p = 128 then ⟨0, 18446744073709551615, 0, 0⟩ else ⟨0, 1, 0, 0⟩

/-- A memory in which the message at address `4194304 = 64 * 65536` has serialized size 0
and every other message has one byte. -/
def thin_memory : Ptr → MessageBase :=
  fun p => if p = 4194304 then ⟨0, 0, 0, 0⟩ else ⟨0, 1, 0, 0⟩

/-- The call is an `enqueue` or a `flush`. -/
def Call.plain (c : Call) : Prop :=
  match c with
  | Call.enqueue _ => True
  | Call.flush _ => True
  | _ => False

instance Call.plain.decidable : (c : Call) → Decidable (Call.plain c)
  | Call.enqueue _ => by unfold Call.plain; exact inferInstance
  | Call.grab_messages _ => by unfold Call.plain; exact inferInstance
  | Call.flush_one _ => by unfold Call.plain; exact inferInstance
  | Call.flush _ => by unfold Call.plain; exact inferInstance

/-- Whether the call is a `flush` of a core whose word is 0 in state `s`: 1 if so. -/
def idle_flush (s : RDMAAggregator) : Call → Nat
  | Call.flush k =>
    match s.cores_[k]? with
    | some dest => if dest.messages_.raw_ = 0 then 1 else 0
    | none => 0
  | _ => 0

/-- The number of `flush` calls of the sequence that find the word of their core 0. -/
def idle_flushes (fuel : Nat) : RDMAAggregator → List Call → Nat
  | _, [] => 0
  | s, c :: cs =>
    idle_flush s c +
      match c.exec fuel s with
      | some s1 => idle_flushes fuel s1 cs
      | none => 0

/-! ## Producers that interfere, and the immediate send -/

/-- The `do ... while( !__sync_bool_compare_and_swap( ... ) )` loop of `enqueue` while other
producers run: in each iteration the first word of `others`, if there is one, is what
another producer has stored in the destination's word between this producer's read of the
word and its compare-and-swap.  The third component of the result is the number of
compare-and-swap attempts made. -/
def enqueue_loop_among : Nat → RDMAAggregator → Ptr → Core → MessageList → List MessageList →
    Option (RDMAAggregator × EnqueueLocals × Nat)
  | 0, _, _, _, _, _ => none
  | fuel + 1, s, m, core, new_ml, others =>
    match s.cores_[core]? with
    | none => none
    | some dest =>
      -- read previous value
      let old_ml := dest.messages_
      -- add previous count/estimated size
      let count := 1 + old_ml.count_
      let size0 := (s.memory m).serialized_size % 18446744073709551616
      let size :=
        if count > 1 then
          (size0 + (dest.prefetch_queue_ (ring_slot old_ml.count_)).size_) % 18446744073709551616
        else size0
      let new_ml := new_ml.assign_count_ count
      -- append previous list to current message
      let mem1 : Ptr → MessageBase :=
        Function.update s.memory m { s.memory m with next_ := old_ml.get_pointer }
      -- set prefetch to the oldest pointer we remember
      let mem2 : Ptr → MessageBase :=
        Function.update mem1 m
          { mem1 m with prefetch_ := (dest.prefetch_queue_ (ring_slot count)).get_pointer }
      let spawn_send : Bool := decide (size > to_size_t s.FLAGS_target_size)
      let swap_ml : MessageList := if spawn_send then ⟨0⟩ else new_ml
      -- what the word holds when the compare-and-swap runs
      let cell : MessageList := others.headD dest.messages_
      -- now try to insert current message (and count attempt)
      let cas := compare_and_swap cell.raw_ old_ml.raw_ swap_ml.raw_
      let s1 : RDMAAggregator :=
        { s with
          memory := mem2
          app_messages_enqueue_cas := s.app_messages_enqueue_cas + 1
          cores_ := s.cores_.set core { dest with messages_ := ⟨cas.2⟩ } }
      if cas.1 then
        some (s1, ⟨old_ml, new_ml, swap_ml, count, size, spawn_send⟩, 1)
      else
        (enqueue_loop_among fuel s1 m core new_ml others.tail).map
          (fun r => (r.1, r.2.1, r.2.2 + 1))

/-- The method `enqueue( m )` while other producers run (see `enqueue_loop_among`), with
the number of compare-and-swap attempts it made. -/
def enqueue_among (fuel : Nat) (s : RDMAAggregator) (m : Ptr) (others : List MessageList) :
    Option (RDMAAggregator × Nat) :=
  let s0 : RDMAAggregator := { s with app_messages_enqueue := s.app_messages_enqueue + 1 }
  -- get destination pointer
  let core := (s0.memory m).destination_
  -- prepare to stitch in message
  let new_ml := MessageList.set_pointer ⟨0⟩ m
  match enqueue_loop_among fuel s0 m core new_ml others with
  | none => none
  | some (s1, loc, attempts) =>
    if loc.spawn_send = false then
      match s1.cores_[core]? with
      | none => none
      | some dest =>
        -- now fill in prefetch pointer and size
        let slot := ring_slot loc.count
        let e1 := (dest.prefetch_queue_ slot).assign_size_ loc.size
        let e2 := e1.set_pointer m
        some ({ s1 with
                cores_ := s1.cores_.set core
                  { dest with prefetch_queue_ := Function.update dest.prefetch_queue_ slot e2 } },
              attempts)
    else
      some (send_rdma { s1 with rdma_capacity_flushes := s1.rdma_capacity_flushes + 1 }
        core loc.new_ml, attempts)

/-- The aggregator together with the transport it drives on the immediate path: the
messages serialized for immediate sends, in order, and the medium active-message requests
issued, each with its destination and its number of bytes. -/
structure Machine where
  aggregator : RDMAAggregator
  serialized : List Ptr
  am_requests : List (Core × Nat)

/-- A freshly constructed aggregator that has sent nothing. -/
def Machine.fresh (target_size : Int) (n : Nat) (mem : Ptr → MessageBase) : Machine :=
  ⟨RDMAAggregator.fresh target_size n mem, [], []⟩

/-- Modelled from the spec: the serializer `aggregate_to_buffer( buffer, message_ptr, max )`,
which the source only declares.  It walks the list from `*message_ptr` forward; a record
whose serialized bytes would take the cursor past `buffer + max` stops the walk before
anything of it is written.  The arguments `cursor` and the first component of the result
are offsets from `buffer`; the second component is what `*message_ptr` is left as (the
first message not serialized, or null); the third lists the messages serialized. -/
def aggregate_to_buffer : Nat → (Ptr → MessageBase) → Nat → Ptr → Nat →
    Option (Nat × Ptr × List Ptr)
  | 0, _, _, _, _ => none
  | fuel + 1, mem, cursor, message, max =>
    if message = 0 then some (cursor, message, [])
    else if cursor + (mem message).serialized_size > max then some (cursor, message, [])
    else
      match aggregate_to_buffer fuel mem (cursor + (mem message).serialized_size)
          (mem message).next_ max with
      | none => none
      | some (cursor1, rest, written) => some (cursor1, rest, message :: written)

/-- The `while( tmp != nullptr )` loop of `send_immediate`.  A failing `DCHECK_EQ` is
`none`. -/
def send_immediate_loop : Nat → Machine → Ptr → Nat → Ptr → Option Machine
  | 0, _, _, _, _ => none
  | fuel + 1, t, m, size, tmp =>
    if tmp ≠ 0 then
      match aggregate_to_buffer (fuel + 1) t.aggregator.memory 0 tmp size with
      | none => none
      | some (cursor, tmp1, written) =>
        if cursor = size then
          -- send
          send_immediate_loop fuel
            { t with
              serialized := t.serialized ++ written
              am_requests := t.am_requests ++ [((t.aggregator.memory m).destination_, size)] }
            m size tmp1
        else none
    else some t

/-- The method `send_immediate( m )`. -/
def send_immediate (fuel : Nat) (t : Machine) (m : Ptr) : Option Machine :=
  let t0 : Machine :=
    { t with aggregator :=
        { t.aggregator with app_messages_immediate := t.aggregator.app_messages_immediate + 1 } }
  -- create temporary buffer
  let size := (t0.aggregator.memory m).serialized_size % 18446744073709551616
  -- serialize to buffer
  send_immediate_loop fuel t0 m size m

/-- One call of a producer: `enqueue( m )` with the words other producers store
meanwhile, `flush( c )`, or `send_immediate( m )`. -/
inductive Op where
  | enqueue (m : Ptr) (others : List MessageList)
  | flush (c : Core)
  | send_immediate (m : Ptr)

/-- Run one call and keep the state it leaves. -/
def Op.exec (fuel : Nat) (t : Machine) : Op → Option Machine
  | Op.enqueue m others =>
    (enqueue_among fuel t.aggregator m others).map (fun r => { t with aggregator := r.1 })
  | Op.flush c => (Grappa.flush fuel t.aggregator c).map (fun a => { t with aggregator := a })
  | Op.send_immediate m => Grappa.send_immediate fuel t m

/-- What a call needs to be well defined on a table of `n` cores when the messages `ms`
are enqueued around it: the destination of an enqueued message and a flushed core are in
the table; a message sent immediately is not null, is not linked to another message, has a
size a `size_t` holds, and is not one of `ms`. -/
def Op.ok (n : Nat) (mem : Ptr → MessageBase) (ms : List Ptr) : Op → Prop
  | Op.enqueue m _ => (mem m).destination_ < n
  | Op.flush c => c < n
  | Op.send_immediate m =>
    m ≠ 0 ∧ (mem m).next_ = 0 ∧ (mem m).serialized_size < 18446744073709551616 ∧ m ∉ ms

instance Op.ok.decidable (n : Nat) (mem : Ptr → MessageBase) (ms : List Ptr) :
    (op : Op) → Decidable (Op.ok n mem ms op)
  | Op.enqueue _ _ => by unfold Op.ok; exact inferInstance
  | Op.flush _ => by unfold Op.ok; exact inferInstance
  | Op.send_immediate _ => by unfold Op.ok; exact inferInstance

/-- Modelled from the spec: the vertex record of `graph/Graph.hpp`, which is not among
the sources, with the fields `get_edge_weight` reads: the number `nadj` of neighbours, the
adjacency array `local_adj` and the array `weights`.  The arrays are lists, so that a read
at an index outside them is told apart from a read inside. -/
structure Vertex (W : Type) where
  nadj : Int
  local_adj : List Int
  weights : List W

/-- How the scan of `get_edge_weight` ends: with `return v->weights[k]`, with the final
`return 0.0`, with a read of `local_adj[k]` or `weights[k]` outside the array (undefined
behaviour in the source), or with the fuel of the model used up. -/
inductive ScanEnd (W : Type) where
  | returned (w : W)
  | fell_through
  | out_of_bounds (k : Nat)
  | out_of_fuel
deriving DecidableEq, Repr

/-- The loop `for (int k = 0; v.nadj; k++)` of the function object in `get_edge_weight`,
from index `k` on, and the `return 0.0` after it: the indices at which `local_adj` is read,
in order, and how the scan ends.  One unit of fuel is one iteration. -/
def get_edge_weight_from {W : Type} (v : Vertex W) (j : Int) : Nat → Nat → List Nat × ScanEnd W
  | 0, _ => ([], ScanEnd.out_of_fuel)
  | fuel + 1, k =>
    if v.nadj ≠ 0 then
      match v.local_adj[k]? with
      | none => ([k], ScanEnd.out_of_bounds k)
      | some a =>
        if a = j then
          match v.weights[k]? with
          | none => ([k], ScanEnd.out_of_bounds k)
          | some w => ([k], ScanEnd.returned w)
        else
          ((k :: (get_edge_weight_from v j fuel (k + 1)).1),
            (get_edge_weight_from v j fuel (k + 1)).2)
    else
      -- we can not reach this, possibly better to throw exception
      ([], ScanEnd.fell_through)

/-- The function object `get_edge_weight( g, i, j )` runs on the vertex `v = g->vs[i]`. -/
def get_edge_weight {W : Type} (fuel : Nat) (v : Vertex W) (j : Int) : List Nat × ScanEnd W :=
  get_edge_weight_from v j fuel 0

/-- A vertex whose arrays hold exactly `nadj` entries. -/
def Vertex.wf {W : Type} (v : Vertex W) : Prop :=
  v.nadj = Int.ofNat v.local_adj.length ∧ v.weights.length = v.local_adj.length

/-- A vertex with the two neighbours 3 and 4, at weights 10 and 20. -/
def two_neighbours : Vertex Int := ⟨2, [3, 4], [10, 20]⟩

/-- A vertex without neighbours. -/
def no_neighbours : Vertex Int := ⟨0, [], []⟩

/-! ## Translation of local addresses for one-sided operations -/

/-- Modelled from the spec: a registered region, the value type of `address_maps_[core]`
(declared in `RMA.hpp`, which is not among the sources), with the two fields `to_global`
reads: the base address on the owning core and the window handle. -/
structure RMAWindow where
  base_ : Int
  window_ : Nat
deriving DecidableEq, Repr

/-- The three arguments `to_global` passes to the constructor of `RMAAddress`. -/
structure RMAAddress where
  base_ : Int
  window_ : Nat
  offset_ : Int
deriving DecidableEq, Repr

/-- The two `CHECK`s of `to_global`. -/
inductive Abort where
  | no_mapping
  | offset_overflow
deriving DecidableEq, Repr

/-- Modelled from the spec: the object `RMA` as far as `to_global` uses it.
`get_enclosing core local_int` is the result of the method of that name, which `RMA.hpp`
defines: the entry `(start address, region)` of `address_maps_[core]` that contains the
address, or `none` for `address_maps_[core].end()`.  `aint_max` is
`std::numeric_limits<MPI_Aint>::max()`. -/
structure RMA where
  get_enclosing : Core → Int → Option (Int × RMAWindow)
  aint_max : Int

/-- The value an `intptr_t` holds after an arithmetic operation with the exact result
`x`. -/
def to_intptr (x : Int) : Int :=
  (x + 9223372036854775808) % 18446744073709551616 - 9223372036854775808

/-- The specialization `RMA::to_global<void>( core, local )`; `local` is given as
`reinterpret_cast< intptr_t >( local )`. -/
def to_global_void (r : RMA) (core : Core) (local_int : Int) : Except Abort RMAAddress :=
  match r.get_enclosing core local_int with
  | none => Except.error Abort.no_mapping
  | some it =>
    let byte_offset := to_intptr (local_int - it.1)
    if byte_offset < r.aint_max then
      Except.ok ⟨it.2.base_, it.2.window_, byte_offset⟩
    else Except.error Abort.offset_overflow

/-- The specialization `RMA::to_global<const void>( core, local )`. -/
def to_global_const_void (r : RMA) (core : Core) (local_int : Int) :
    Except Abort RMAAddress :=
  match r.get_enclosing core local_int with
  | none => Except.error Abort.no_mapping
  | some it =>
    let byte_offset := to_intptr (local_int - it.1)
    if byte_offset < r.aint_max then
      Except.ok ⟨it.2.base_, it.2.window_, byte_offset⟩
    else Except.error Abort.offset_overflow

/-- An example: core 0 has one region, which starts at address 4096, is 8192 bytes long,
and has base 65536 and window 3; `MPI_Aint` has 64 bits. -/
def one_region : RMA :=
  { get_enclosing := fun core a =>
      if core = 0 ∧ 4096 ≤ a ∧ a < 12288 then some (4096, ⟨65536, 3⟩) else none
    aint_max := 9223372036854775807 }

/-- An example: on core 0 every address from 0 on is in one region, which starts at
address 0; `MPI_Aint` has 64 bits. -/
def whole_space : RMA :=
  { get_enclosing := fun core a => if core = 0 ∧ 0 ≤ a then some (0, ⟨0, 1⟩) else none
    aint_max := 9223372036854775807 }

/-! ## Consecutive enqueues, step by step -/

/-- Consecutive calls `enqueue( m )` for the messages `ms`, in order: for every call the
locals it has computed when its loop ends, and the state the call leaves. -/
def enqueue_steps (fuel : Nat) :
    RDMAAggregator → List Ptr → Option (List (EnqueueLocals × RDMAAggregator))
  | _, [] => some []
  | s, m :: ms =>
    match enqueue_loop fuel { s with app_messages_enqueue := s.app_messages_enqueue + 1 } m
        (s.memory m).destination_ (MessageList.set_pointer ⟨0⟩ m) with
    | none => none
    | some (_, loc) =>
      match enqueue fuel s m with
      | none => none
      | some s1 => (enqueue_steps fuel s1 ms).map (fun tr => (loc, s1) :: tr)

/-- The message reached from `p` by following `next_` exactly `k` times. -/
def follow (mem : Ptr → MessageBase) : Nat → Ptr → Ptr
  | 0, p => p
  | k + 1, p => follow mem k (mem p).next_

/-- What the prefetch ring of a destination remembers when `l` is the list of the messages
enqueued since the destination was last empty, newest first: the count field is the
length of `l` modulo `2^16`, and for `i < 5` below the count field the slot indexed by
the count field minus `i` holds the pointer of `l[i]`. -/
def Remembered (cd : CoreData) (l : List Ptr) : Prop :=
  cd.messages_.count_ = l.length % 65536
  ∧ ∀ i : Nat, i < 5 → i < cd.messages_.count_ →
      l[i]? = some (cd.prefetch_queue_ (ring_slot (cd.messages_.count_ - i))).pointer_

/-! ## Bit-field lemmas -/

theorem low16_with_low16 (raw v : Nat) : low16 (with_low16 raw v) = v % 65536 := by
  unfold low16 with_low16; omega

theorem high48_with_low16 (raw v : Nat) : high48 (with_low16 raw v) = high48 raw := by
  unfold high48 with_low16 high48; omega

theorem low16_with_pointer48 (raw : Nat) (p : Int) :
    low16 (with_pointer48 raw p) = low16 raw := by
  unfold low16 with_pointer48 low16; omega

theorem high48_with_pointer48 (raw : Nat) (p : Int) :
    high48 (with_pointer48 raw p) = (p % 281474976710656).toNat := by
  unfold high48 with_pointer48 low16; omega

theorem signed48_of_canonical (p : Int) (h : Canonical48 p) :
    signed48 (p % 281474976710656).toNat = p := by
  have h1 : -140737488355328 ≤ p := h.1
  have h2 : p < 140737488355328 := h.2
  unfold signed48
  split <;> omega

theorem low16_lt (raw : Nat) : low16 raw < 65536 := by
  unfold low16; omega

/-! ## What one call of `enqueue` computes -/

theorem getElem?_set_self_of_some {α : Type} (l : List α) (i : Nat) (a b : α)
    (h : l[i]? = some a) : (l.set i b)[i]? = some b := by
  have hi : i < l.length := by
    by_contra hc
    rw [List.getElem?_eq_none (by omega)] at h
    cases h
  simp [List.getElem?_set, hi]

/-- The loop of `enqueue` ends in its first iteration. -/
theorem enqueue_loop_succ (fuel : Nat) (s : RDMAAggregator) (m : Ptr) (core : Core)
    (new_ml : MessageList) (dest : CoreData) (h : s.cores_[core]? = some dest) :
    ∃ s1 loc, enqueue_loop (fuel + 1) s m core new_ml = some (s1, loc)
      ∧ loc.size = estimated_size s.memory dest m
      ∧ loc.count = 1 + dest.messages_.count_
      ∧ loc.old_ml = dest.messages_
      ∧ loc.new_ml = new_ml.assign_count_ (1 + dest.messages_.count_)
      ∧ loc.spawn_send
          = decide (estimated_size s.memory dest m > to_size_t s.FLAGS_target_size)
      ∧ s1 = { s with
               memory := linked_memory s.memory dest m
               app_messages_enqueue_cas := s.app_messages_enqueue_cas + 1
               cores_ := s.cores_.set core
                 { dest with messages_ := if loc.spawn_send then ⟨0⟩ else loc.new_ml } } := by
  simp only [enqueue_loop, h, compare_and_swap, if_true]
  refine ⟨_, _, rfl, rfl, rfl, rfl, rfl, rfl, ?_⟩
  simp only [linked_memory, Function.update_idem, Function.update_same]

theorem enqueue_stitch (fuel : Nat) (s : RDMAAggregator) (m : Ptr) (dest : CoreData)
    (h : s.cores_[(s.memory m).destination_]? = some dest)
    (hs : estimated_size s.memory dest m ≤ to_size_t s.FLAGS_target_size) :
    enqueue (fuel + 1) s m = some (stitched_state s dest m) := by
  obtain ⟨s1, loc, hl, hsize, hcount, -, hnew, hspawn, hs1⟩ :=
    enqueue_loop_succ fuel { s with app_messages_enqueue := s.app_messages_enqueue + 1 } m
      (s.memory m).destination_ (MessageList.set_pointer ⟨0⟩ m) dest h
  have hf : loc.spawn_send = false := by
    rw [hspawn]; simp only [decide_eq_false_iff_not]; omega
  simp only [enqueue, hl, hf, if_true]
  rw [hs1]
  simp only [getElem?_set_self_of_some _ _ _ _ h, hf, hnew, hsize, hcount, List.set_set]
  rfl

theorem enqueue_flush (fuel : Nat) (s : RDMAAggregator) (m : Ptr) (dest : CoreData)
    (h : s.cores_[(s.memory m).destination_]? = some dest)
    (hs : estimated_size s.memory dest m > to_size_t s.FLAGS_target_size) :
    enqueue (fuel + 1) s m = some (flushed_state s dest m) := by
  obtain ⟨s1, loc, hl, -, -, -, hnew, hspawn, hs1⟩ :=
    enqueue_loop_succ fuel { s with app_messages_enqueue := s.app_messages_enqueue + 1 } m
      (s.memory m).destination_ (MessageList.set_pointer ⟨0⟩ m) dest h
  have hf : loc.spawn_send = true := by
    rw [hspawn]; simp only [decide_eq_true_eq]; exact hs
  simp only [enqueue, hl, hf]
  rw [hs1]
  simp only [hf, hnew, if_true]
  rfl

/-! ## Chains and memory -/

theorem IsChain.unique {mem : Ptr → MessageBase} {p : Ptr} {l1 l2 : List Ptr}
    (h1 : IsChain mem p l1) (h2 : IsChain mem p l2) : l1 = l2 := by
  induction l1 generalizing p l2 with
  | nil =>
    cases l2 with
    | nil => rfl
    | cons q l => exact absurd h1 h2.1
  | cons q l ih =>
    cases l2 with
    | nil => exact absurd h2 h1.1
    | cons q2 l2 =>
      obtain ⟨-, e1, c1⟩ := h1
      obtain ⟨-, e2, c2⟩ := h2
      have hq : q = q2 := e1.symm.trans e2
      subst hq
      rw [ih c1 c2]

theorem IsChain.nil_iff {mem : Ptr → MessageBase} {p : Ptr} {l : List Ptr}
    (h : IsChain mem p l) : p = 0 ↔ l = [] := by
  cases l with
  | nil => exact ⟨fun _ => rfl, fun _ => h⟩
  | cons q l => exact ⟨fun e => absurd e h.1, fun e => by cases e⟩

theorem IsChain.zero_not_mem {mem : Ptr → MessageBase} {p : Ptr} {l : List Ptr}
    (h : IsChain mem p l) : (0 : Ptr) ∉ l := by
  induction l generalizing p with
  | nil => simp
  | cons q l ih =>
    obtain ⟨h0, e, c⟩ := h
    intro hm
    rcases List.mem_cons.1 hm with h1 | h1
    · exact h0 (e.trans h1.symm)
    · exact ih c h1

/-- Writing the record of a message outside a chain leaves the chain as it is. -/
theorem IsChain.update {mem : Ptr → MessageBase} {p : Ptr} {l : List Ptr} (m : Ptr)
    (r : MessageBase) (h : IsChain mem p l) (hm : m ∉ l) :
    IsChain (Function.update mem m r) p l := by
  induction l generalizing p with
  | nil => exact h
  | cons q l ih =>
    obtain ⟨h0, e, c⟩ := h
    have hq : q ≠ m := fun e2 => hm (by simp [e2])
    refine ⟨h0, e, ?_⟩
    rw [Function.update_noteq hq]
    exact ih c (fun h2 => hm (List.mem_cons_of_mem _ h2))

theorem linked_memory_size (mem : Ptr → MessageBase) (dest : CoreData) (m p : Ptr) :
    (linked_memory mem dest m p).serialized_size = (mem p).serialized_size := by
  unfold linked_memory
  by_cases h : p = m
  · subst h; simp
  · rw [Function.update_noteq h]

theorem linked_memory_destination (mem : Ptr → MessageBase) (dest : CoreData) (m p : Ptr) :
    (linked_memory mem dest m p).destination_ = (mem p).destination_ := by
  unfold linked_memory
  by_cases h : p = m
  · subst h; simp
  · rw [Function.update_noteq h]

theorem linked_memory_next (mem : Ptr → MessageBase) (dest : CoreData) (m : Ptr) :
    (linked_memory mem dest m m).next_ = dest.messages_.pointer_ := by
  simp [linked_memory, MessageList.get_pointer]

theorem sum_sizes_linked (mem : Ptr → MessageBase) (dest : CoreData) (m : Ptr)
    (l : List Ptr) : sum_sizes (linked_memory mem dest m) l = sum_sizes mem l := by
  unfold sum_sizes
  congr 1
  apply List.map_congr_left
  intro p _
  exact linked_memory_size mem dest m p

/-- After `enqueue( m )` has linked `m`, the chain from `m` is `m` followed by the chain
that was resident. -/
theorem IsChain.linked {mem : Ptr → MessageBase} {dest : CoreData} {l : List Ptr} (m : Ptr)
    (h : IsChain mem dest.messages_.pointer_ l) (hm : m ∉ l) (h0 : m ≠ 0) :
    IsChain (linked_memory mem dest m) m (m :: l) := by
  refine ⟨h0, rfl, ?_⟩
  rw [linked_memory_next]
  exact IsChain.update m _ h hm

/-! ## The words `enqueue` builds -/

theorem stitched_word_count (old : MessageList) (m : Ptr) :
    (stitched_word old m).count_ = (1 + old.count_) % 65536 := by
  simp [stitched_word, MessageList.count_, MessageList.assign_count_, low16_with_low16]

theorem stitched_word_pointer (old : MessageList) (m : Ptr) (hc : Canonical48 m) :
    (stitched_word old m).pointer_ = m := by
  simp only [stitched_word, MessageList.pointer_, MessageList.assign_count_,
    MessageList.set_pointer, high48_with_low16, high48_with_pointer48]
  exact signed48_of_canonical m hc

/-- The local `new_ml` of `enqueue` is not initialised in the source; both of its fields
are assigned before it is used, so the word that is built does not depend on what it held.
The model starts it at 0. -/
theorem new_ml_initial_value_irrelevant (r : Nat) (m : Ptr) (c : Nat) :
    (MessageList.set_pointer ⟨r⟩ m).assign_count_ c
      = (MessageList.set_pointer ⟨0⟩ m).assign_count_ c := by
  simp only [MessageList.set_pointer, MessageList.assign_count_, with_low16,
    high48_with_pointer48]

theorem zero_word_pointer : (⟨0⟩ : MessageList).pointer_ = 0 := by
  simp [MessageList.pointer_, high48, signed48]

theorem zero_word_count : (⟨0⟩ : MessageList).count_ = 0 := by
  simp [MessageList.count_, low16]

theorem pointer_eq_zero_of_raw {w : MessageList} (h : w.raw_ = 0) : w.pointer_ = 0 := by
  cases w; simp only at h; subst h; exact zero_word_pointer

theorem stored_entry_size (mem : Ptr → MessageBase) (dest : CoreData) (m : Ptr) :
    (stored_entry mem dest m).size_ = estimated_size mem dest m % 65536 := by
  simp [stored_entry, PrefetchEntry.size_, PrefetchEntry.set_pointer,
    PrefetchEntry.assign_size_, low16_with_pointer48, low16_with_low16]

/-! ## What `grab_messages`, `flush_one` and `flush` compute -/

theorem grab_messages_succ (fuel : Nat) (s : RDMAAggregator) (c : Core) (dest : CoreData)
    (h : s.cores_[c]? = some dest) :
    grab_messages (fuel + 1) s c = some (grabbed_state s c dest, dest.messages_) := by
  simp only [grab_messages, h, compare_and_swap, if_true]
  rfl

theorem flush_one_nonempty (fuel : Nat) (s : RDMAAggregator) (c : Core) (dest : CoreData)
    (h : s.cores_[c]? = some dest) (hne : dest.messages_.raw_ ≠ 0) :
    flush_one (fuel + 1) s c
      = some ({ grabbed_state s c dest with
                send_rdma_calls := s.send_rdma_calls ++ [(c, dest.messages_)] }, true) := by
  simp only [flush_one, h, grab_messages_succ fuel s c dest h]
  rw [if_pos hne]
  rfl

theorem flush_one_empty (fuel : Nat) (s : RDMAAggregator) (c : Core) (dest : CoreData)
    (h : s.cores_[c]? = some dest) (he : dest.messages_.raw_ = 0) :
    flush_one fuel s c = some (s, false) := by
  simp [flush_one, h, he]

theorem getElem?_set_other {α : Type} (l : List α) (i j : Nat) (b : α) (h : j ≠ i) :
    (l.set i b)[j]? = l[j]? := by
  simp [List.getElem?_set, Ne.symm h]

theorem lt_length_of_getElem? {α : Type} {l : List α} {i : Nat} {a : α}
    (h : l[i]? = some a) : i < l.length := by
  by_contra hc
  rw [List.getElem?_eq_none (by omega)] at h
  cases h

/-! ## Explicit flush -/

/-- C9: when the packed word of destination `c` is non-zero, `flush( c )` succeeds, its
`flush_one` returns true, `send_rdma` is called exactly once, with `c` and the old word
(same count, same head pointer, and the memory that holds the chain is untouched), the
word of `c` becomes 0 (count 0, pointer 0), and the word of every other destination is
unchanged. -/
theorem flush_sends_resident_list (fuel : Nat) (s : RDMAAggregator) (c : Core)
    (dest : CoreData) (h : s.cores_[c]? = some dest) (hne : dest.messages_.raw_ ≠ 0) :
    ∃ s2 dest2,
      flush (fuel + 1) s c = some s2
      ∧ flush_one (fuel + 1)
          { s with rdma_requested_flushes := s.rdma_requested_flushes + 1 } c = some (s2, true)
      ∧ s2.send_rdma_calls = s.send_rdma_calls ++ [(c, dest.messages_)]
      ∧ s2.memory = s.memory
      ∧ s2.cores_[c]? = some dest2
      ∧ dest2.messages_.raw_ = 0 ∧ dest2.messages_.count_ = 0 ∧ dest2.messages_.pointer_ = 0
      ∧ ∀ d, d ≠ c → s2.cores_[d]? = s.cores_[d]? := by
  have h1 := flush_one_nonempty fuel
    { s with rdma_requested_flushes := s.rdma_requested_flushes + 1 } c dest h hne
  refine ⟨_, { dest with messages_ := ⟨0⟩ }, ?_, h1, rfl, rfl, ?_, rfl, zero_word_count,
    zero_word_pointer, ?_⟩
  · simp only [flush, h1, Option.map_some']
  · exact getElem?_set_self_of_some _ _ _ _ h
  · intro d hd
    exact getElem?_set_other _ _ _ _ hd

/-- C9, the scenario of the specification: after 10 enqueues of 100-byte messages with
`target_size = 4096` no capacity flush has occurred, and one `flush( 0 )` sends one list,
of count 10, whose chain is the 10 messages. -/
theorem flush_sends_resident_list_witness :
    ∃ s dest,
      run 1 (RDMAAggregator.fresh 4096 1 (uniform_memory 0 100)) (enqueue_calls 10) = some s
      ∧ s.rdma_capacity_flushes = 0 ∧ s.send_rdma_calls = []
      ∧ s.cores_[0]? = some dest ∧ dest.messages_.raw_ ≠ 0 ∧ dest.messages_.count_ = 10
      ∧ IsChain s.memory dest.messages_.pointer_
          [640, 576, 512, 448, 384, 320, 256, 192, 128, 64]
      ∧ ∃ s2 dest2,
        flush 1 s 0 = some s2
        ∧ flush_one 1
            { s with rdma_requested_flushes := s.rdma_requested_flushes + 1 } 0 = some (s2, true)
        ∧ s2.send_rdma_calls = s.send_rdma_calls ++ [(0, dest.messages_)]
        ∧ s2.memory = s.memory
        ∧ s2.cores_[0]? = some dest2
        ∧ dest2.messages_.raw_ = 0 ∧ dest2.messages_.count_ = 0 ∧ dest2.messages_.pointer_ = 0
        ∧ ∀ d, d ≠ 0 → s2.cores_[d]? = s.cores_[d]? := by
  refine ⟨_, _, rfl, rfl, rfl, rfl, by decide, by decide, by decide, ?_⟩
  exact flush_sends_resident_list 0 _ 0 _ rfl (by decide)

/-- C10, as amended: when the packed word of destination `c` is zero, `flush( c )` makes no
`send_rdma` call and leaves every packed word, every prefetch ring, the memory and every
counter as they were, except `rdma_requested_flushes`, which it increments by one. -/
theorem flush_empty_only_counts_request (fuel : Nat) (s : RDMAAggregator) (c : Core)
    (dest : CoreData) (h : s.cores_[c]? = some dest) (he : dest.messages_.raw_ = 0) :
    ∃ s2,
      flush fuel s c = some s2
      ∧ s2.send_rdma_calls = s.send_rdma_calls
      ∧ s2.cores_ = s.cores_
      ∧ s2.memory = s.memory
      ∧ s2.app_messages_enqueue = s.app_messages_enqueue
      ∧ s2.app_messages_enqueue_cas = s.app_messages_enqueue_cas
      ∧ s2.app_messages_immediate = s.app_messages_immediate
      ∧ s2.rdma_capacity_flushes = s.rdma_capacity_flushes
      ∧ s2.rdma_requested_flushes = s.rdma_requested_flushes + 1 := by
  have h1 := flush_one_empty fuel
    { s with rdma_requested_flushes := s.rdma_requested_flushes + 1 } c dest h he
  refine ⟨{ s with rdma_requested_flushes := s.rdma_requested_flushes + 1 },
    ?_, rfl, rfl, rfl, rfl, rfl, rfl, rfl, rfl⟩
  simp only [flush, h1, Option.map_some']

/-- C10, an instance: `flush( 0 )` on a freshly constructed aggregator. -/
theorem flush_empty_only_counts_request_witness :
    ∃ s2,
      flush 1 (RDMAAggregator.fresh 4096 1 (uniform_memory 0 100)) 0 = some s2
      ∧ s2.send_rdma_calls = (RDMAAggregator.fresh 4096 1 (uniform_memory 0 100)).send_rdma_calls
      ∧ s2.cores_ = (RDMAAggregator.fresh 4096 1 (uniform_memory 0 100)).cores_
      ∧ s2.memory = (RDMAAggregator.fresh 4096 1 (uniform_memory 0 100)).memory
      ∧ s2.app_messages_enqueue = 0
      ∧ s2.app_messages_enqueue_cas = 0
      ∧ s2.app_messages_immediate = 0
      ∧ s2.rdma_capacity_flushes = 0
      ∧ s2.rdma_requested_flushes = 0 + 1 :=
  flush_empty_only_counts_request 1 (RDMAAggregator.fresh 4096 1 (uniform_memory 0 100)) 0
    CoreData.zero rfl rfl

/-- C10 as stated fails: `flush( 0 )` on the empty destination of a fresh aggregator
changes an exposed counter, `rdma_requested_flushes` goes from 0 to 1. -/
theorem flush_empty_changes_requested_flushes :
    (RDMAAggregator.fresh 4096 1 (uniform_memory 0 100)).rdma_requested_flushes = 0
    ∧ ∃ s2, flush 1 (RDMAAggregator.fresh 4096 1 (uniform_memory 0 100)) 0 = some s2
      ∧ s2.rdma_requested_flushes = 1
      ∧ s2.rdma_requested_flushes
          ≠ (RDMAAggregator.fresh 4096 1 (uniform_memory 0 100)).rdma_requested_flushes :=
  ⟨rfl, _, rfl, rfl, by decide⟩

/-! ## The flush decision of one `enqueue` -/

theorem count_eq_zero_of_raw {w : MessageList} (h : w.raw_ = 0) : w.count_ = 0 := by
  cases w; simp only at h; subst h; exact zero_word_count

theorem estimated_size_empty (mem : Ptr → MessageBase) (dest : CoreData) (m : Ptr)
    (h : dest.messages_.count_ = 0) :
    estimated_size mem dest m = (mem m).serialized_size % 18446744073709551616 := by
  simp [estimated_size, h]

theorem estimated_size_ge (mem : Ptr → MessageBase) (dest : CoreData) (m : Ptr)
    (hfit : (mem m).serialized_size ≤ 18446744073709486080) :
    (mem m).serialized_size ≤ estimated_size mem dest m := by
  unfold estimated_size
  have := low16_lt (dest.prefetch_queue_ (ring_slot dest.messages_.count_)).raw_
  unfold PrefetchEntry.size_
  split <;> omega

/-- C6, as amended: a message whose serialized size equals `target_size`, enqueued on an
empty destination, does not trigger a capacity flush.  The call succeeds, `send_rdma` is
not called, `rdma_capacity_flushes` is unchanged, and the message is stitched in: the
word of the destination has count 1 and (for a pointer that fits the 48-bit field) points
to the message. -/
theorem enqueue_size_equal_target_no_flush (fuel : Nat) (s : RDMAAggregator) (m : Ptr)
    (dest : CoreData) (h : s.cores_[(s.memory m).destination_]? = some dest)
    (hempty : dest.messages_.raw_ = 0)
    (hsize : ((s.memory m).serialized_size : Int) = s.FLAGS_target_size) :
    ∃ s2 dest2,
      enqueue (fuel + 1) s m = some s2
      ∧ s2.send_rdma_calls = s.send_rdma_calls
      ∧ s2.rdma_capacity_flushes = s.rdma_capacity_flushes
      ∧ s2.cores_[(s.memory m).destination_]? = some dest2
      ∧ dest2.messages_.count_ = 1
      ∧ (Canonical48 m → dest2.messages_.pointer_ = m) := by
  have hc := count_eq_zero_of_raw hempty
  have hle : estimated_size s.memory dest m ≤ to_size_t s.FLAGS_target_size := by
    rw [estimated_size_empty _ _ _ hc, ← hsize]
    unfold to_size_t
    omega
  refine ⟨_, _, enqueue_stitch fuel s m dest h hle, rfl, rfl,
    getElem?_set_self_of_some _ _ _ _ h, ?_, ?_⟩
  · simp [stitched_word_count, hc]
  · intro hcan
    exact stitched_word_pointer _ _ hcan

/-- C6, an instance: a 100-byte message, `target_size = 100`, a fresh aggregator. -/
theorem enqueue_size_equal_target_no_flush_witness :
    ∃ s2 dest2,
      enqueue 1 (RDMAAggregator.fresh 100 1 (uniform_memory 0 100)) 64 = some s2
      ∧ s2.send_rdma_calls = (RDMAAggregator.fresh 100 1 (uniform_memory 0 100)).send_rdma_calls
      ∧ s2.rdma_capacity_flushes
          = (RDMAAggregator.fresh 100 1 (uniform_memory 0 100)).rdma_capacity_flushes
      ∧ s2.cores_[((RDMAAggregator.fresh 100 1 (uniform_memory 0 100)).memory 64).destination_]?
          = some dest2
      ∧ dest2.messages_.count_ = 1
      ∧ (Canonical48 64 → dest2.messages_.pointer_ = 64) :=
  enqueue_size_equal_target_no_flush 0 (RDMAAggregator.fresh 100 1 (uniform_memory 0 100)) 64
    CoreData.zero rfl rfl rfl

/-- C6 as stated fails: with `target_size = 100`, enqueuing one message of serialized
size 100 on the empty destination of a fresh aggregator calls `send_rdma` not at all and
leaves `rdma_capacity_flushes` at 0. -/
theorem enqueue_size_equal_target_does_not_flush :
    ((uniform_memory 0 100 64).serialized_size : Int) = 100
    ∧ ∃ s2, enqueue 1 (RDMAAggregator.fresh 100 1 (uniform_memory 0 100)) 64 = some s2
      ∧ s2.send_rdma_calls = []
      ∧ s2.rdma_capacity_flushes = 0 :=
  ⟨rfl, _, rfl, rfl, rfl⟩

/-- C7, as amended: a message whose serialized size exceeds `target_size` (for
`target_size ≥ 0` and a size of at most `2^64 - 65536`) is not rejected.  `enqueue`
succeeds and takes the flush path: the message is linked in front of the resident chain,
`send_rdma` is called once with the list headed by the message, `rdma_capacity_flushes`
is incremented and the word of the destination is left 0. -/
theorem enqueue_oversize_is_sent (fuel : Nat) (s : RDMAAggregator) (m : Ptr)
    (dest : CoreData) (h : s.cores_[(s.memory m).destination_]? = some dest)
    (hT : 0 ≤ s.FLAGS_target_size)
    (hbig : s.FLAGS_target_size < ((s.memory m).serialized_size : Int))
    (hfit : (s.memory m).serialized_size ≤ 18446744073709486080) :
    ∃ s2 dest2,
      enqueue (fuel + 1) s m = some s2
      ∧ s2.send_rdma_calls
          = s.send_rdma_calls ++ [((s.memory m).destination_, stitched_word dest.messages_ m)]
      ∧ (Canonical48 m → (stitched_word dest.messages_ m).pointer_ = m)
      ∧ (s2.memory m).next_ = dest.messages_.pointer_
      ∧ s2.rdma_capacity_flushes = s.rdma_capacity_flushes + 1
      ∧ s2.cores_[(s.memory m).destination_]? = some dest2
      ∧ dest2.messages_.raw_ = 0 := by
  have hge := estimated_size_ge s.memory dest m hfit
  have hgt : estimated_size s.memory dest m > to_size_t s.FLAGS_target_size := by
    unfold to_size_t
    omega
  refine ⟨_, _, enqueue_flush fuel s m dest h hgt, rfl, ?_, ?_, rfl,
    getElem?_set_self_of_some _ _ _ _ h, rfl⟩
  · intro hcan
    exact stitched_word_pointer _ _ hcan
  · exact linked_memory_next _ _ _

/-- C7, an instance: a 101-byte message, `target_size = 100`, a fresh aggregator. -/
theorem enqueue_oversize_is_sent_witness :
    ∃ s2 dest2,
      enqueue 1 (RDMAAggregator.fresh 100 1 (uniform_memory 0 101)) 64 = some s2
      ∧ s2.send_rdma_calls
          = (RDMAAggregator.fresh 100 1 (uniform_memory 0 101)).send_rdma_calls
            ++ [(((RDMAAggregator.fresh 100 1 (uniform_memory 0 101)).memory 64).destination_,
                 stitched_word CoreData.zero.messages_ 64)]
      ∧ (Canonical48 64 → (stitched_word CoreData.zero.messages_ 64).pointer_ = 64)
      ∧ (s2.memory 64).next_ = CoreData.zero.messages_.pointer_
      ∧ s2.rdma_capacity_flushes
          = (RDMAAggregator.fresh 100 1 (uniform_memory 0 101)).rdma_capacity_flushes + 1
      ∧ s2.cores_[((RDMAAggregator.fresh 100 1 (uniform_memory 0 101)).memory 64).destination_]?
          = some dest2
      ∧ dest2.messages_.raw_ = 0 :=
  enqueue_oversize_is_sent 0 (RDMAAggregator.fresh 100 1 (uniform_memory 0 101)) 64
    CoreData.zero rfl (by decide) (by decide) (by decide)

/-- C7 as stated fails: with `target_size = 100`, `enqueue` of a message of serialized size
101 is not rejected.  The call succeeds and the message is handed to `send_rdma` (one
call, for core 0, with a list of count 1 whose head is the message). -/
theorem enqueue_oversize_not_rejected :
    ((RDMAAggregator.fresh 100 1 (uniform_memory 0 101)).FLAGS_target_size
      < ((uniform_memory 0 101 64).serialized_size : Int))
    ∧ ∃ s2, enqueue 1 (RDMAAggregator.fresh 100 1 (uniform_memory 0 101)) 64 = some s2
      ∧ s2.send_rdma_calls.map (fun c => (c.1, c.2.count_, c.2.pointer_)) = [(0, 1, 64)]
      ∧ s2.rdma_capacity_flushes = 1 :=
  ⟨by decide, _, rfl, by decide, rfl⟩

/-! ## Lists of chains -/

theorem forall₂_set {α β : Type} {P : α → β → Prop} {l1 : List α} {l2 : List β}
    (h : List.Forall₂ P l1 l2) (i : Nat) {a : α} {b : β} (hab : P a b) :
    List.Forall₂ P (l1.set i a) (l2.set i b) := by
  induction h generalizing i with
  | nil => exact List.Forall₂.nil
  | cons hxy _ ih =>
    cases i with
    | zero => exact List.Forall₂.cons hab (by assumption)
    | succ j => exact List.Forall₂.cons hxy (ih j)

theorem forall₂_getElem? {α β : Type} {P : α → β → Prop} {l1 : List α} {l2 : List β}
    (h : List.Forall₂ P l1 l2) {i : Nat} {a : α} (ha : l1[i]? = some a) :
    ∃ b, l2[i]? = some b ∧ P a b := by
  induction h generalizing i with
  | nil => simp at ha
  | cons hxy _ ih =>
    cases i with
    | zero =>
      simp only [List.getElem?_cons_zero, Option.some.injEq] at ha
      subst ha
      exact ⟨_, by simp, hxy⟩
    | succ j =>
      simp only [List.getElem?_cons_succ] at ha
      obtain ⟨b, hb, hp⟩ := ih ha
      exact ⟨b, by simpa using hb, hp⟩

theorem forall₂_imp_mem {α β : Type} {P Q : α → β → Prop} {l1 : List α} {l2 : List β}
    (h : List.Forall₂ P l1 l2) (himp : ∀ a b, b ∈ l2 → P a b → Q a b) :
    List.Forall₂ Q l1 l2 := by
  induction h with
  | nil => exact List.Forall₂.nil
  | cons hxy _ ih =>
    refine List.Forall₂.cons (himp _ _ (by simp) hxy) (ih ?_)
    intro a b hb hp
    exact himp a b (List.mem_cons_of_mem _ hb) hp

theorem forall₂_snoc {α β : Type} {P : α → β → Prop} {l1 : List α} {l2 : List β}
    (h : List.Forall₂ P l1 l2) {a : α} {b : β} (hab : P a b) :
    List.Forall₂ P (l1 ++ [a]) (l2 ++ [b]) := by
  induction h with
  | nil => exact List.Forall₂.cons hab List.Forall₂.nil
  | cons hxy _ ih => exact List.Forall₂.cons hxy ih

/-- Replacing the chain at one index moves its messages out of the flattened list and the
new ones in. -/
theorem flatten_set_perm {α : Type} (R : List (List α)) (i : Nat) (l l2 : List α)
    (h : R[i]? = some l) : ((R.set i l2).flatten ++ l).Perm (R.flatten ++ l2) := by
  induction R generalizing i with
  | nil => simp at h
  | cons x xs ih =>
    cases i with
    | zero =>
      simp only [List.getElem?_cons_zero, Option.some.injEq] at h
      subst h
      simp only [List.set_cons_zero, List.flatten_cons, List.append_assoc]
      have h1 : (l2 ++ (xs.flatten ++ x)).Perm ((xs.flatten ++ x) ++ l2) :=
        List.perm_append_comm
      have h2 : ((xs.flatten ++ x) ++ l2).Perm ((x ++ xs.flatten) ++ l2) :=
        List.Perm.append List.perm_append_comm (List.Perm.refl _)
      simpa [List.append_assoc] using h1.trans h2
    | succ j =>
      simp only [List.getElem?_cons_succ] at h
      simp only [List.set_cons_succ, List.flatten_cons, List.append_assoc]
      exact List.Perm.append (List.Perm.refl x) (ih j h)

theorem mem_flatten_of_getElem? {α : Type} {R : List (List α)} {i : Nat} {l : List α}
    {x : α} (h : R[i]? = some l) (hx : x ∈ l) : x ∈ R.flatten := by
  rw [List.mem_flatten]
  exact ⟨l, List.getElem?_mem h, hx⟩

theorem count_flatten_set {R : List (List Ptr)} {i : Nat} {l : List Ptr} (l2 : List Ptr)
    (h : R[i]? = some l) (x : Ptr) :
    List.count x (R.set i l2).flatten + List.count x l
      = List.count x R.flatten + List.count x l2 := by
  have := (flatten_set_perm R i l l2 h).count_eq x
  simpa [List.count_append] using this

/-! ## Size bookkeeping of one `enqueue` -/

theorem sum_sizes_cons (mem : Ptr → MessageBase) (m : Ptr) (l : List Ptr) :
    sum_sizes mem (m :: l) = (mem m).serialized_size + sum_sizes mem l := by
  simp [sum_sizes]

theorem sum_sizes_const (mem : Ptr → MessageBase) (z : Nat) (l : List Ptr)
    (h : ∀ p ∈ l, (mem p).serialized_size = z) : sum_sizes mem l = z * l.length := by
  induction l with
  | nil => simp [sum_sizes]
  | cons q l ih =>
    rw [sum_sizes_cons, ih (fun p hp => h p (List.mem_cons_of_mem _ hp)), h q (by simp)]
    simp only [List.length_cons]
    rw [Nat.mul_succ]
    omega

theorem sum_sizes_congr (mem1 mem2 : Ptr → MessageBase) (l : List Ptr)
    (h : ∀ p, (mem1 p).serialized_size = (mem2 p).serialized_size) :
    sum_sizes mem1 l = sum_sizes mem2 l := by
  induction l with
  | nil => rfl
  | cons q l ih => rw [sum_sizes_cons, sum_sizes_cons, ih, h q]

theorem length_le_sum_sizes (mem : Ptr → MessageBase) (l : List Ptr)
    (h : ∀ p ∈ l, 1 ≤ (mem p).serialized_size) : l.length ≤ sum_sizes mem l := by
  induction l with
  | nil => simp
  | cons q l ih =>
    rw [sum_sizes_cons]
    have h1 := h q (by simp)
    have h2 := ih (fun p hp => h p (List.mem_cons_of_mem _ hp))
    simp only [List.length_cons]
    omega

/-- Under the bookkeeping, the local `size` of `enqueue( m )` is the serialized size of `m`
plus the sum of the sizes of the resident chain. -/
theorem estimated_size_of_sized {T : Nat} {mem : Ptr → MessageBase} {dest : CoreData}
    {l : List Ptr} (h : Sized T mem dest l) (hT : T ≤ 65535) (m : Ptr)
    (hfit : (mem m).serialized_size ≤ 18446744073709486080) :
    estimated_size mem dest m = (mem m).serialized_size + sum_sizes mem l := by
  obtain ⟨hc, hsum, -, hring⟩ := h
  unfold estimated_size
  cases l with
  | nil =>
    simp only [List.length_nil] at hc
    simp only [hc, sum_sizes, List.map_nil, List.sum_nil]
    simp only [Nat.add_zero, gt_iff_lt, Nat.lt_irrefl, if_false]
    omega
  | cons q l =>
    have hr := hring (by simp)
    rw [hc] at *
    simp only [List.length_cons] at *
    rw [hr]
    have : 1 + (l.length + 1) > 1 := by omega
    rw [if_pos this]
    omega

theorem sized_linked {T : Nat} {mem : Ptr → MessageBase} {cd : CoreData} {l : List Ptr}
    (dest : CoreData) (m : Ptr) (h : Sized T mem cd l) :
    Sized T (linked_memory mem dest m) cd l := by
  obtain ⟨hc, hsum, hone, hring⟩ := h
  refine ⟨hc, ?_, ?_, ?_⟩
  · rw [sum_sizes_linked]; exact hsum
  · intro p hp; rw [linked_memory_size]; exact hone p hp
  · intro hne; rw [sum_sizes_linked]; exact hring hne

theorem sized_zero (T : Nat) (mem : Ptr → MessageBase) (dest : CoreData) :
    Sized T mem { dest with messages_ := ⟨0⟩ } [] := by
  refine ⟨zero_word_count, by simp [sum_sizes], by simp, by simp⟩

/-- The bookkeeping after `enqueue( m )` has stitched `m` in. -/
theorem sized_stitched {T : Nat} {mem : Ptr → MessageBase} {dest : CoreData} {l : List Ptr}
    (h : Sized T mem dest l) (hT : T ≤ 65535) (m : Ptr)
    (hone : 1 ≤ (mem m).serialized_size)
    (hfit : (mem m).serialized_size ≤ 18446744073709486080)
    (hle : estimated_size mem dest m ≤ T) :
    Sized T (linked_memory mem dest m)
      { messages_ := stitched_word dest.messages_ m
        prefetch_queue_ := Function.update dest.prefetch_queue_
          (ring_slot (1 + dest.messages_.count_)) (stored_entry mem dest m) }
      (m :: l) := by
  have hest := estimated_size_of_sized h hT m hfit
  obtain ⟨hc, hsum, hall, hring⟩ := h
  have hlen := length_le_sum_sizes mem l hall
  refine ⟨?_, ?_, ?_, ?_⟩
  · simp only [stitched_word_count, hc, List.length_cons]
    omega
  · rw [sum_sizes_linked, sum_sizes_cons]; omega
  · intro p hp
    rw [linked_memory_size]
    rcases List.mem_cons.1 hp with h1 | h1
    · rw [h1]; exact hone
    · exact hall p h1
  · intro _
    have hslot : ring_slot (m :: l).length = ring_slot (1 + dest.messages_.count_) := by
      rw [hc, List.length_cons, Nat.add_comm]
    show (Function.update dest.prefetch_queue_ (ring_slot (1 + dest.messages_.count_))
      (stored_entry mem dest m) (ring_slot (m :: l).length)).size_ = _
    rw [hslot, Function.update_same, stored_entry_size, sum_sizes_linked, sum_sizes_cons]
    omega

/-! ## The invariant is kept by every call -/

theorem IsChain.linked_other {mem : Ptr → MessageBase} {p : Ptr} {l : List Ptr}
    (dest : CoreData) (m : Ptr) (h : IsChain mem p l) (hm : m ∉ l) :
    IsChain (linked_memory mem dest m) p l :=
  IsChain.update m _ h hm

theorem forall₂_replicate {α β : Type} {P : α → β → Prop} {a : α} {b : β} (n : Nat)
    (h : P a b) : List.Forall₂ P (List.replicate n a) (List.replicate n b) := by
  induction n with
  | zero => exact List.Forall₂.nil
  | succ k ih => exact List.Forall₂.cons h ih

theorem flatten_replicate_nil {α : Type} (n : Nat) :
    (List.replicate n ([] : List α)).flatten = [] := by
  induction n with
  | zero => rfl
  | succ k ih => simp [List.replicate_succ, ih]

theorem Inv.fresh (P : Prop) (mem : Ptr → MessageBase) (T : Int) (n : Nat) :
    Inv P mem T (RDMAAggregator.fresh T n mem) (List.replicate n []) [] [] [] where
  target := rfl
  frame := fun _ => ⟨rfl, rfl⟩
  resident := forall₂_replicate n zero_word_pointer
  sent := List.Forall₂.nil
  perm := by simp [flatten_replicate_nil]
  sized := fun _ => forall₂_replicate n (sized_zero _ _ CoreData.zero)

theorem Inv.congr {P : Prop} {mem0 : Ptr → MessageBase} {T : Int} {s s2 : RDMAAggregator}
    {R S : List (List Ptr)} {G E : List Ptr} (h : Inv P mem0 T s R S G E)
    (h1 : s2.FLAGS_target_size = s.FLAGS_target_size) (h2 : s2.memory = s.memory)
    (h3 : s2.cores_ = s.cores_) (h4 : s2.send_rdma_calls = s.send_rdma_calls) :
    Inv P mem0 T s2 R S G E where
  target := h1.trans h.target
  frame := by rw [h2]; exact h.frame
  resident := by rw [h2, h3]; exact h.resident
  sent := by rw [h2, h4]; exact h.sent
  perm := h.perm
  sized := by rw [h2, h3]; exact h.sized

theorem Inv.enqueue_step {P : Prop} {mem0 : Ptr → MessageBase} {T : Int} {s : RDMAAggregator}
    {R S : List (List Ptr)} {G E : List Ptr} (fuel : Nat) (hinv : Inv P mem0 T s R S G E)
    (m : Ptr) (hm0 : m ≠ 0) (hcan : Canonical48 m)
    (hd : (mem0 m).destination_ < s.cores_.length) (hfresh : m ∉ E)
    (hsz : P → 0 ≤ T ∧ T ≤ 65535 ∧ 1 ≤ (mem0 m).serialized_size
      ∧ (mem0 m).serialized_size ≤ 18446744073709486080) :
    ∃ s2 R2 S2, enqueue (fuel + 1) s m = some s2 ∧ Inv P mem0 T s2 R2 S2 G (E ++ [m])
      ∧ s2.cores_.length = s.cores_.length := by
  have hdest : (s.memory m).destination_ = (mem0 m).destination_ := (hinv.frame m).1
  have hsize : (s.memory m).serialized_size = (mem0 m).serialized_size := (hinv.frame m).2
  obtain ⟨dest, hdst⟩ : ∃ dest, s.cores_[(s.memory m).destination_]? = some dest := by
    rw [hdest]; exact ⟨_, List.getElem?_eq_getElem hd⟩
  obtain ⟨l, hl, hchain⟩ := forall₂_getElem? hinv.resident hdst
  have hnot : m ∉ G ++ (S.flatten ++ R.flatten) := fun h => hfresh (hinv.perm.subset h)
  have hmR : ∀ b ∈ R, m ∉ b := fun b hb hmb =>
    hnot (List.mem_append_right _ (List.mem_append_right _ (List.mem_flatten.2 ⟨b, hb, hmb⟩)))
  have hmS : ∀ b ∈ S, m ∉ b := fun b hb hmb =>
    hnot (List.mem_append_right _ (List.mem_append_left _ (List.mem_flatten.2 ⟨b, hb, hmb⟩)))
  have hml : m ∉ l := hmR l (List.getElem?_mem hl)
  have hres : List.Forall₂
      (fun cd l => IsChain (linked_memory s.memory dest m) cd.messages_.pointer_ l)
      s.cores_ R :=
    forall₂_imp_mem hinv.resident (fun _ b hb h => IsChain.linked_other dest m h (hmR b hb))
  have hsent : List.Forall₂
      (fun (call : Core × MessageList) l =>
        IsChain (linked_memory s.memory dest m) call.2.pointer_ l)
      s.send_rdma_calls S :=
    forall₂_imp_mem hinv.sent (fun _ b hb h => IsChain.linked_other dest m h (hmS b hb))
  have hnew : IsChain (linked_memory s.memory dest m) (stitched_word dest.messages_ m).pointer_
      (m :: l) := by
    rw [stitched_word_pointer _ _ hcan]
    exact IsChain.linked m hchain hml hm0
  have hframe : ∀ p, (linked_memory s.memory dest m p).destination_ = (mem0 p).destination_
      ∧ (linked_memory s.memory dest m p).serialized_size = (mem0 p).serialized_size := by
    intro p
    rw [linked_memory_destination, linked_memory_size]
    exact hinv.frame p
  by_cases hle : estimated_size s.memory dest m ≤ to_size_t s.FLAGS_target_size
  · refine ⟨stitched_state s dest m, R.set (s.memory m).destination_ (m :: l), S,
      enqueue_stitch fuel s m dest hdst hle, ?_, by simp [stitched_state]⟩
    refine ⟨hinv.target, hframe, forall₂_set hres _ hnew, hsent, ?_, ?_⟩
    · rw [List.perm_iff_count]
      intro x
      have h1 := hinv.perm.count_eq x
      have h2 := count_flatten_set (m :: l) hl x
      simp only [List.count_append, List.count_cons, List.count_nil] at h1 h2 ⊢
      omega
    · intro hp
      obtain ⟨hT1, hT2, hone, hfit⟩ := hsz hp
      have hsd := hinv.sized hp
      obtain ⟨l2, hl2, hsl⟩ := forall₂_getElem? hsd hdst
      have hll : l2 = l := by rw [hl] at hl2; exact (Option.some.inj hl2).symm
      subst hll
      have hT3 : to_size_t T ≤ 65535 := by unfold to_size_t; omega
      rw [hinv.target] at hle
      rw [← hsize] at hone hfit
      exact forall₂_set (List.Forall₂.imp (fun _ _ h => sized_linked dest m h) hsd) _
        (sized_stitched hsl hT3 m hone hfit hle)
  · refine ⟨flushed_state s dest m, R.set (s.memory m).destination_ [], S ++ [m :: l],
      enqueue_flush fuel s m dest hdst (by omega), ?_, by simp [flushed_state]⟩
    refine ⟨hinv.target, hframe, forall₂_set hres _ zero_word_pointer,
      forall₂_snoc hsent hnew, ?_, ?_⟩
    · rw [List.perm_iff_count]
      intro x
      have h1 := hinv.perm.count_eq x
      have h2 := count_flatten_set [] hl x
      simp only [List.count_append, List.count_cons, List.count_nil, List.flatten_append,
        List.flatten_cons, List.flatten_nil, List.append_nil] at h1 h2 ⊢
      omega
    · intro hp
      have hsd := hinv.sized hp
      exact forall₂_set (List.Forall₂.imp (fun _ _ h => sized_linked dest m h) hsd) _
        (sized_zero _ _ dest)

theorem Inv.grab_step {P : Prop} {mem0 : Ptr → MessageBase} {T : Int} {s : RDMAAggregator}
    {R S : List (List Ptr)} {G E : List Ptr} (fuel : Nat) (hinv : Inv P mem0 T s R S G E)
    (c : Core) (hc : c < s.cores_.length) :
    ∃ s2 ml R2 G2, grab_messages (fuel + 1) s c = some (s2, ml)
      ∧ Inv P mem0 T s2 R2 S G2 E ∧ s2.cores_.length = s.cores_.length := by
  obtain ⟨dest, hdst⟩ : ∃ dest, s.cores_[c]? = some dest := ⟨_, List.getElem?_eq_getElem hc⟩
  obtain ⟨l, hl, -⟩ := forall₂_getElem? hinv.resident hdst
  refine ⟨grabbed_state s c dest, dest.messages_, R.set c [], G ++ l,
    grab_messages_succ fuel s c dest hdst, ?_, by simp [grabbed_state]⟩
  refine ⟨hinv.target, hinv.frame, forall₂_set hinv.resident _ zero_word_pointer, hinv.sent,
    ?_, fun hp => forall₂_set (hinv.sized hp) _ (sized_zero _ _ dest)⟩
  rw [List.perm_iff_count]
  intro x
  have h1 := hinv.perm.count_eq x
  have h2 := count_flatten_set [] hl x
  simp only [List.count_append, List.count_nil] at h1 h2 ⊢
  omega

theorem Inv.flush_one_step {P : Prop} {mem0 : Ptr → MessageBase} {T : Int}
    {s : RDMAAggregator} {R S : List (List Ptr)} {G E : List Ptr} (fuel : Nat)
    (hinv : Inv P mem0 T s R S G E) (c : Core) (hc : c < s.cores_.length) :
    ∃ s2 b R2 S2, flush_one (fuel + 1) s c = some (s2, b)
      ∧ Inv P mem0 T s2 R2 S2 G E ∧ s2.cores_.length = s.cores_.length := by
  obtain ⟨dest, hdst⟩ : ∃ dest, s.cores_[c]? = some dest := ⟨_, List.getElem?_eq_getElem hc⟩
  obtain ⟨l, hl, hchain⟩ := forall₂_getElem? hinv.resident hdst
  by_cases hraw : dest.messages_.raw_ = 0
  · exact ⟨s, false, R, S, flush_one_empty _ s c dest hdst hraw, hinv, rfl⟩
  · refine ⟨_, true, R.set c [], S ++ [l], flush_one_nonempty fuel s c dest hdst hraw, ?_,
      by simp [grabbed_state]⟩
    refine ⟨hinv.target, hinv.frame, forall₂_set hinv.resident _ zero_word_pointer,
      forall₂_snoc hinv.sent hchain, ?_,
      fun hp => forall₂_set (hinv.sized hp) _ (sized_zero _ _ dest)⟩
    rw [List.perm_iff_count]
    intro x
    have h1 := hinv.perm.count_eq x
    have h2 := count_flatten_set [] hl x
    simp only [List.count_append, List.count_nil, List.flatten_append,
      List.flatten_cons, List.flatten_nil, List.append_nil] at h1 h2 ⊢
    omega

theorem Inv.flush_step {P : Prop} {mem0 : Ptr → MessageBase} {T : Int}
    {s : RDMAAggregator} {R S : List (List Ptr)} {G E : List Ptr} (fuel : Nat)
    (hinv : Inv P mem0 T s R S G E) (c : Core) (hc : c < s.cores_.length) :
    ∃ s2 R2 S2, flush (fuel + 1) s c = some s2
      ∧ Inv P mem0 T s2 R2 S2 G E ∧ s2.cores_.length = s.cores_.length := by
  have h0 : Inv P mem0 T { s with rdma_requested_flushes := s.rdma_requested_flushes + 1 }
      R S G E := hinv.congr rfl rfl rfl rfl
  obtain ⟨s2, b, R2, S2, hf, hi, hlen⟩ := h0.flush_one_step fuel c hc
  refine ⟨s2, R2, S2, ?_, hi, hlen⟩
  simp only [flush, hf, Option.map_some']

/-- Every sequence of admissible calls on distinct messages runs to completion and keeps
the invariant. -/
theorem Inv.preserved {P : Prop} {mem0 : Ptr → MessageBase} {T : Int} (fuel : Nat)
    (cs : List Call) :
    ∀ (s : RDMAAggregator) (R S : List (List Ptr)) (G E : List Ptr),
      Inv P mem0 T s R S G E →
      (∀ c ∈ cs, c.ok s.cores_.length mem0) →
      (E ++ enqueued cs).Nodup →
      (P → 0 ≤ T ∧ T ≤ 65535 ∧ ∀ m ∈ enqueued cs, 1 ≤ (mem0 m).serialized_size
        ∧ (mem0 m).serialized_size ≤ 18446744073709486080) →
      ∃ s2 R2 S2 G2, run (fuel + 1) s cs = some s2
        ∧ Inv P mem0 T s2 R2 S2 G2 (E ++ enqueued cs)
        ∧ s2.cores_.length = s.cores_.length
        ∧ ((∀ c ∈ cs, c.keeps) → G2 = G) := by
  induction cs with
  | nil =>
    intro s R S G E hinv _ _ _
    exact ⟨s, R, S, G, rfl, by simpa [enqueued] using hinv, rfl, fun _ => rfl⟩
  | cons c cs ih =>
    intro s R S G E hinv hok hnd hsz
    have hokc := hok c (by simp)
    have hoks : ∀ c2 ∈ cs, c2.ok s.cores_.length mem0 :=
      fun c2 h2 => hok c2 (List.mem_cons_of_mem _ h2)
    cases c with
    | enqueue m =>
      obtain ⟨hm0, hcan, hd⟩ := hokc
      have hE : (E ++ [m]) ++ enqueued cs = E ++ enqueued (Call.enqueue m :: cs) := by
        simp [enqueued]
      rw [← hE] at hnd
      have hfresh : m ∉ E := by
        have := (List.nodup_append.1 (List.nodup_append.1 hnd).1).2.2
        intro hme
        exact this hme (by simp)
      obtain ⟨s1, R1, S1, he, hi, hlen⟩ := hinv.enqueue_step fuel m hm0 hcan hd hfresh
        (fun hp => ⟨(hsz hp).1, (hsz hp).2.1, (hsz hp).2.2 m (by simp [enqueued])⟩)
      obtain ⟨s2, R2, S2, G2, hr, hi2, hlen2, hg⟩ := ih s1 R1 S1 G (E ++ [m]) hi
        (by rw [hlen]; exact hoks) hnd
        (fun hp => ⟨(hsz hp).1, (hsz hp).2.1,
          fun x hx => (hsz hp).2.2 x (by simp [enqueued, hx])⟩)
      refine ⟨s2, R2, S2, G2, ?_, by rw [← hE]; exact hi2, hlen2.trans hlen,
        fun hk => hg (fun c2 h2 => hk c2 (List.mem_cons_of_mem _ h2))⟩
      simp only [Grappa.run, Call.exec, he, hr]
    | grab_messages k =>
      obtain ⟨s1, ml, R1, G1, he, hi, hlen⟩ := hinv.grab_step fuel k hokc
      obtain ⟨s2, R2, S2, G2, hr, hi2, hlen2, -⟩ := ih s1 R1 S G1 E hi
        (by rw [hlen]; exact hoks) hnd hsz
      refine ⟨s2, R2, S2, G2, ?_, hi2, hlen2.trans hlen,
        fun hk => False.elim (hk (Call.grab_messages k) (List.mem_cons_self _ _))⟩
      simp only [Grappa.run, Call.exec, he, Option.map_some', hr]
    | flush_one k =>
      obtain ⟨s1, b, R1, S1, he, hi, hlen⟩ := hinv.flush_one_step fuel k hokc
      obtain ⟨s2, R2, S2, G2, hr, hi2, hlen2, hg⟩ := ih s1 R1 S1 G E hi
        (by rw [hlen]; exact hoks) hnd hsz
      refine ⟨s2, R2, S2, G2, ?_, hi2, hlen2.trans hlen,
        fun hk => hg (fun c2 h2 => hk c2 (List.mem_cons_of_mem _ h2))⟩
      simp only [Grappa.run, Call.exec, he, Option.map_some', hr]
    | flush k =>
      obtain ⟨s1, R1, S1, he, hi, hlen⟩ := hinv.flush_step fuel k hokc
      obtain ⟨s2, R2, S2, G2, hr, hi2, hlen2, hg⟩ := ih s1 R1 S1 G E hi
        (by rw [hlen]; exact hoks) hnd hsz
      refine ⟨s2, R2, S2, G2, ?_, hi2, hlen2.trans hlen,
        fun hk => hg (fun c2 h2 => hk c2 (List.mem_cons_of_mem _ h2))⟩
      simp only [Grappa.run, Call.exec, he, hr]

/-! ## Conservation of messages -/

/-- C2: no message is lost or handed off twice.  Every sequence of `enqueue`, `flush_one`
and `flush` calls on distinct messages (not null, pointers that fit the 48-bit field,
cores inside the table) runs to completion from the fresh aggregator, and then every list
passed to `send_rdma` and every packed word roots a chain such that the chains of the
sent lists together with the resident chains are a permutation of the enqueued messages:
each enqueued message occurs exactly once in them. -/
theorem enqueued_eq_delivered_plus_resident (fuel : Nat) (T : Int) (n : Nat)
    (mem : Ptr → MessageBase) (cs : List Call)
    (hok : ∀ c ∈ cs, c.ok n mem) (hkeep : ∀ c ∈ cs, c.keeps)
    (hnd : (enqueued cs).Nodup) :
    ∃ s R S,
      run (fuel + 1) (RDMAAggregator.fresh T n mem) cs = some s
      ∧ List.Forall₂ (fun cd l => IsChain s.memory cd.messages_.pointer_ l) s.cores_ R
      ∧ List.Forall₂ (fun (call : Core × MessageList) l => IsChain s.memory call.2.pointer_ l)
          s.send_rdma_calls S
      ∧ (S.flatten ++ R.flatten).Perm (enqueued cs)
      ∧ ∀ m ∈ enqueued cs, List.count m (S.flatten ++ R.flatten) = 1 := by
  have h0 : Inv False mem T (RDMAAggregator.fresh T n mem) (List.replicate n []) [] [] [] :=
    Inv.fresh False mem T n
  obtain ⟨s, R, S, G, hr, hi, -, hg⟩ := Inv.preserved fuel cs _ _ _ _ _ h0
    (by simpa [RDMAAggregator.fresh] using hok) (by simpa using hnd) (fun h => h.elim)
  have hG : G = [] := hg hkeep
  subst hG
  have hperm : (S.flatten ++ R.flatten).Perm (enqueued cs) := by
    simpa using hi.perm
  refine ⟨s, R, S, hr, hi.resident, hi.sent, hperm, ?_⟩
  intro m hm
  rw [hperm.count_eq]
  exact List.count_eq_one_of_mem hnd hm

/-- C2, an instance: 25 messages of 100 bytes with `target_size = 1024`, an explicit flush
after the 5th and at the end. -/
theorem enqueued_eq_delivered_plus_resident_witness :
    ∃ s R S,
      run 1 (RDMAAggregator.fresh 1024 2 (uniform_memory 1 100)) flushed_calls = some s
      ∧ List.Forall₂ (fun cd l => IsChain s.memory cd.messages_.pointer_ l) s.cores_ R
      ∧ List.Forall₂ (fun (call : Core × MessageList) l => IsChain s.memory call.2.pointer_ l)
          s.send_rdma_calls S
      ∧ (S.flatten ++ R.flatten).Perm (enqueued flushed_calls)
      ∧ ∀ m ∈ enqueued flushed_calls, List.count m (S.flatten ++ R.flatten) = 1 :=
  enqueued_eq_delivered_plus_resident 0 1024 2 (uniform_memory 1 100) flushed_calls
    (by decide) (by decide) (by decide)

/-! ## The count field and the size estimate under the size budget -/

/-- C1, as amended: when `0 ≤ target_size ≤ 65535` and every enqueued message has a
serialized size of at least 1 (and at most `2^64 - 65536`), every sequence of `enqueue`,
`grab_messages`, `flush_one` and `flush` calls on distinct messages runs to completion
from the fresh aggregator, and in the state it reaches the word of every destination
roots a chain whose length is the count field; the pointer is 0 exactly when the chain is
empty. -/
theorem count_is_chain_length (fuel : Nat) (T : Int) (n : Nat) (mem : Ptr → MessageBase)
    (cs : List Call) (hT0 : 0 ≤ T) (hT1 : T ≤ 65535)
    (hok : ∀ c ∈ cs, c.ok n mem) (hnd : (enqueued cs).Nodup)
    (hsz : ∀ m ∈ enqueued cs, 1 ≤ (mem m).serialized_size
      ∧ (mem m).serialized_size ≤ 18446744073709486080) :
    ∃ s,
      run (fuel + 1) (RDMAAggregator.fresh T n mem) cs = some s
      ∧ ∀ (d : Core) (cd : CoreData), s.cores_[d]? = some cd →
        ∃ l, IsChain s.memory cd.messages_.pointer_ l
          ∧ cd.messages_.count_ = l.length
          ∧ (cd.messages_.pointer_ = 0 ↔ l = []) := by
  have h0 : Inv True mem T (RDMAAggregator.fresh T n mem) (List.replicate n []) [] [] [] :=
    Inv.fresh True mem T n
  obtain ⟨s, R, S, G, hr, hi, -, -⟩ := Inv.preserved fuel cs _ _ _ _ _ h0
    (by simpa [RDMAAggregator.fresh] using hok) (by simpa using hnd)
    (fun _ => ⟨hT0, hT1, hsz⟩)
  refine ⟨s, hr, ?_⟩
  intro d cd hcd
  obtain ⟨l, hl, hchain⟩ := forall₂_getElem? hi.resident hcd
  obtain ⟨l2, hl2, hsized⟩ := forall₂_getElem? (hi.sized trivial) hcd
  have hll : l2 = l := by rw [hl] at hl2; exact (Option.some.inj hl2).symm
  subst hll
  exact ⟨l2, hchain, hsized.1, hchain.nil_iff⟩

/-- C1, an instance: 25 messages of 100 bytes to core 1 with `target_size = 1024`, with an
explicit flush, a `grab_messages` and a `flush_one` in between. -/
theorem count_is_chain_length_witness :
    ∃ s,
      run 1 (RDMAAggregator.fresh 1024 2 (uniform_memory 1 100)) mixed_calls = some s
      ∧ ∀ (d : Core) (cd : CoreData), s.cores_[d]? = some cd →
        ∃ l, IsChain s.memory cd.messages_.pointer_ l
          ∧ cd.messages_.count_ = l.length
          ∧ (cd.messages_.pointer_ = 0 ↔ l = []) :=
  count_is_chain_length 0 1024 2 (uniform_memory 1 100) mixed_calls (by decide) (by decide)
    (by decide) (by decide) (by decide)

/-! ## Enqueues to one destination -/

theorem run_cons (fuel : Nat) (s s1 : RDMAAggregator) (c : Call) (cs : List Call)
    (h : c.exec fuel s = some s1) : run fuel s (c :: cs) = run fuel s1 cs := by
  simp only [run, h]

/-- Messages enqueued one after the other to destination `d`: the run completes, the
capacity-flush counter never decreases, and if it has not moved then nothing was sent
and the resident chain is the old chain with the new messages in front, newest first. -/
theorem enqueue_run_chain (fuel : Nat) (d : Core) (ms : List Ptr) :
    ∀ (s : RDMAAggregator) (dest : CoreData) (l : List Ptr),
      s.cores_[d]? = some dest →
      IsChain s.memory dest.messages_.pointer_ l →
      (∀ m ∈ ms, m ≠ 0 ∧ Canonical48 m ∧ (s.memory m).destination_ = d ∧ m ∉ l) →
      ms.Nodup →
      ∃ s2, run (fuel + 1) s (ms.map Call.enqueue) = some s2
        ∧ s.rdma_capacity_flushes ≤ s2.rdma_capacity_flushes
        ∧ (s2.rdma_capacity_flushes = s.rdma_capacity_flushes →
            s2.send_rdma_calls = s.send_rdma_calls
            ∧ ∃ dest2, s2.cores_[d]? = some dest2
              ∧ IsChain s2.memory dest2.messages_.pointer_ (ms.reverse ++ l)
              ∧ dest2.messages_.count_ = (dest.messages_.count_ + ms.length) % 65536) := by
  induction ms with
  | nil =>
    intro s dest l hd hchain _ _
    refine ⟨s, rfl, Nat.le_refl _, fun _ => ⟨rfl, dest, hd, by simpa using hchain, ?_⟩⟩
    have := low16_lt dest.messages_.raw_
    simp only [MessageList.count_, List.length_nil, Nat.add_zero]
    omega
  | cons m ms ih =>
    intro s dest l hd hchain hms hnd
    obtain ⟨hm0, hcan, hdm, hml⟩ := hms m (by simp)
    have hdst : s.cores_[(s.memory m).destination_]? = some dest := by rw [hdm]; exact hd
    have hnd2 : ms.Nodup := (List.nodup_cons.1 hnd).2
    have hmms : m ∉ ms := (List.nodup_cons.1 hnd).1
    by_cases hle : estimated_size s.memory dest m ≤ to_size_t s.FLAGS_target_size
    · have he := enqueue_stitch fuel s m dest hdst hle
      have hd1 : (stitched_state s dest m).cores_[d]?
          = some { messages_ := stitched_word dest.messages_ m
                   prefetch_queue_ := Function.update dest.prefetch_queue_
                     (ring_slot (1 + dest.messages_.count_))
                     (stored_entry s.memory dest m) } := by
        show (s.cores_.set (s.memory m).destination_ _)[d]? = _
        rw [hdm]
        exact getElem?_set_self_of_some _ _ _ _ hd
      have hch1 : IsChain (stitched_state s dest m).memory
          (stitched_word dest.messages_ m).pointer_ (m :: l) := by
        rw [stitched_word_pointer _ _ hcan]
        exact IsChain.linked m hchain hml hm0
      obtain ⟨s2, hr, hcap, hcond⟩ := ih (stitched_state s dest m) _ (m :: l) hd1 hch1
        (by
          intro x hx
          obtain ⟨hx0, hxc, hxd, hxl⟩ := hms x (List.mem_cons_of_mem _ hx)
          refine ⟨hx0, hxc, ?_, ?_⟩
          · show (linked_memory s.memory dest m x).destination_ = d
            rw [linked_memory_destination]; exact hxd
          · intro hxm
            rcases List.mem_cons.1 hxm with h1 | h1
            · exact hmms (h1 ▸ hx)
            · exact hxl h1)
        hnd2
      refine ⟨s2, ?_, hcap, ?_⟩
      · rw [List.map_cons,
          run_cons _ _ _ _ _ (show (Call.enqueue m).exec (fuel + 1) s = some _ from he)]
        exact hr
      · intro hsame
        obtain ⟨hsend, dest2, hd2, hch2, hcnt⟩ := hcond hsame
        refine ⟨hsend, dest2, hd2, ?_, ?_⟩
        · simpa [List.reverse_cons, List.append_assoc] using hch2
        · rw [hcnt, stitched_word_count]
          simp only [List.length_cons]
          omega
    · have he := enqueue_flush fuel s m dest hdst (by omega)
      have hd1 : (flushed_state s dest m).cores_[d]? = some { dest with messages_ := ⟨0⟩ } := by
        show (s.cores_.set (s.memory m).destination_ _)[d]? = _
        rw [hdm]
        exact getElem?_set_self_of_some _ _ _ _ hd
      obtain ⟨s2, hr, hcap, -⟩ := ih (flushed_state s dest m) _ [] hd1 zero_word_pointer
        (by
          intro x hx
          obtain ⟨hx0, hxc, hxd, -⟩ := hms x (List.mem_cons_of_mem _ hx)
          refine ⟨hx0, hxc, ?_, by simp⟩
          show (linked_memory s.memory dest m x).destination_ = d
          rw [linked_memory_destination]; exact hxd)
        hnd2
      have hcap1 : (flushed_state s dest m).rdma_capacity_flushes
          = s.rdma_capacity_flushes + 1 := rfl
      refine ⟨s2, ?_, by omega, fun hsame => by omega⟩
      rw [List.map_cons,
        run_cons _ _ _ _ _ (show (Call.enqueue m).exec (fuel + 1) s = some _ from he)]
      exact hr

/-- C3: `n` distinct messages (not null, pointers that fit the 48-bit field) enqueued one
after the other to a destination `d` whose word is 0: the run completes, and when no
capacity flush happened in between the chain rooted at the word of `d` is exactly the
messages in reverse insertion order, newest at the head; its length is `n`. -/
theorem chain_is_reverse_insertion_order (fuel : Nat) (s : RDMAAggregator) (d : Core)
    (dest : CoreData) (ms : List Ptr)
    (hd : s.cores_[d]? = some dest) (hempty : dest.messages_.raw_ = 0)
    (hms : ∀ m ∈ ms, m ≠ 0 ∧ Canonical48 m ∧ (s.memory m).destination_ = d)
    (hnd : ms.Nodup) :
    ∃ s2, run (fuel + 1) s (ms.map Call.enqueue) = some s2
      ∧ (s2.rdma_capacity_flushes = s.rdma_capacity_flushes →
          ∃ dest2, s2.cores_[d]? = some dest2
            ∧ IsChain s2.memory dest2.messages_.pointer_ ms.reverse
            ∧ ms.reverse.length = ms.length) := by
  have hch : IsChain s.memory dest.messages_.pointer_ [] := pointer_eq_zero_of_raw hempty
  obtain ⟨s2, hr, -, hcond⟩ := enqueue_run_chain fuel d ms s dest [] hd hch
    (fun m hm => ⟨(hms m hm).1, (hms m hm).2.1, (hms m hm).2.2, by simp⟩) hnd
  refine ⟨s2, hr, fun hsame => ?_⟩
  obtain ⟨-, dest2, hd2, hch2, -⟩ := hcond hsame
  exact ⟨dest2, hd2, by simpa using hch2, List.length_reverse ms⟩

/-- C3, an instance: 10 messages of 100 bytes, `target_size = 4096`; no capacity flush
happens and the chain is the 10 messages, newest first. -/
theorem chain_is_reverse_insertion_order_witness :
    (run 1 (RDMAAggregator.fresh 4096 1 (uniform_memory 0 100))
        ((message_addresses 10).map Call.enqueue)).map (fun s2 => s2.rdma_capacity_flushes)
      = some (RDMAAggregator.fresh 4096 1 (uniform_memory 0 100)).rdma_capacity_flushes
    ∧ ∃ s2, run 1 (RDMAAggregator.fresh 4096 1 (uniform_memory 0 100))
        ((message_addresses 10).map Call.enqueue) = some s2
      ∧ (s2.rdma_capacity_flushes
            = (RDMAAggregator.fresh 4096 1 (uniform_memory 0 100)).rdma_capacity_flushes →
          ∃ dest2, s2.cores_[0]? = some dest2
            ∧ IsChain s2.memory dest2.messages_.pointer_ (message_addresses 10).reverse
            ∧ (message_addresses 10).reverse.length = (message_addresses 10).length) :=
  ⟨by decide, chain_is_reverse_insertion_order 0
    (RDMAAggregator.fresh 4096 1 (uniform_memory 0 100)) 0 CoreData.zero
    (message_addresses 10) rfl rfl (by decide) (by decide)⟩

/-! ## Runs without a capacity flush -/

theorem estimated_size_of_tracked {mem0 mem : Ptr → MessageBase} {dest : CoreData}
    {l : List Ptr} (h : Tracked mem0 dest l) (m : Ptr)
    (hsz : (mem m).serialized_size = (mem0 m).serialized_size)
    (hfit : (mem0 m).serialized_size ≤ 18446744073709486080) :
    estimated_size mem dest m = (mem0 m).serialized_size + sum_sizes mem0 l % 65536 := by
  obtain ⟨hc, hring⟩ := h
  unfold estimated_size
  rw [hsz]
  cases l with
  | nil =>
    simp only [List.length_nil] at hc
    simp only [hc, sum_sizes, List.map_nil, List.sum_nil]
    simp only [Nat.add_zero, gt_iff_lt, Nat.lt_irrefl, if_false]
    omega
  | cons q l =>
    have hr := hring (by simp)
    rw [hc] at *
    simp only [List.length_cons] at *
    rw [hr]
    have : 1 + (l.length + 1) > 1 := by omega
    rw [if_pos this]
    omega

theorem tracked_stitched {mem0 mem : Ptr → MessageBase} {dest : CoreData} {l : List Ptr}
    (h : Tracked mem0 dest l) (m : Ptr)
    (hsz : (mem m).serialized_size = (mem0 m).serialized_size)
    (hfit : (mem0 m).serialized_size ≤ 18446744073709486080)
    (hlen : l.length + 1 ≤ 65535) :
    Tracked mem0
      { messages_ := stitched_word dest.messages_ m
        prefetch_queue_ := Function.update dest.prefetch_queue_
          (ring_slot (1 + dest.messages_.count_)) (stored_entry mem dest m) }
      (m :: l) := by
  have hest := estimated_size_of_tracked h m hsz hfit
  obtain ⟨hc, hring⟩ := h
  refine ⟨?_, ?_⟩
  · simp only [stitched_word_count, hc, List.length_cons]
    omega
  · intro _
    have hslot : ring_slot (m :: l).length = ring_slot (1 + dest.messages_.count_) := by
      rw [hc, List.length_cons, Nat.add_comm]
    show (Function.update dest.prefetch_queue_ (ring_slot (1 + dest.messages_.count_))
      (stored_entry mem dest m) (ring_slot (m :: l).length)).size_ = _
    rw [hslot, Function.update_same, stored_entry_size, sum_sizes_cons, hest]
    omega

theorem quiet_of_sum_le (mem0 : Ptr → MessageBase) (T : Nat) (ms : List Ptr) :
    ∀ acc, acc + sum_sizes mem0 ms ≤ T → Quiet mem0 T acc ms := by
  induction ms with
  | nil => intro _ _; trivial
  | cons m ms ih =>
    intro acc h
    rw [sum_sizes_cons] at h
    refine ⟨?_, ih _ (by omega)⟩
    have := Nat.mod_le acc 65536
    omega

/-- Messages enqueued to destination `d` while the count stays below `2^16` and no
stored sum exceeds the budget: no capacity flush happens and the bookkeeping follows. -/
theorem enqueue_run_quiet (fuel : Nat) (d : Core) (mem0 : Ptr → MessageBase) (T : Nat)
    (ms : List Ptr) :
    ∀ (s : RDMAAggregator) (dest : CoreData) (l : List Ptr),
      s.cores_[d]? = some dest →
      to_size_t s.FLAGS_target_size = T →
      (∀ p, (s.memory p).destination_ = (mem0 p).destination_
        ∧ (s.memory p).serialized_size = (mem0 p).serialized_size) →
      Tracked mem0 dest l →
      (∀ m ∈ ms, (mem0 m).destination_ = d
        ∧ (mem0 m).serialized_size ≤ 18446744073709486080) →
      l.length + ms.length ≤ 65535 →
      Quiet mem0 T (sum_sizes mem0 l) ms →
      ∃ s2 dest2, run (fuel + 1) s (ms.map Call.enqueue) = some s2
        ∧ s2.rdma_capacity_flushes = s.rdma_capacity_flushes
        ∧ s2.send_rdma_calls = s.send_rdma_calls
        ∧ s2.FLAGS_target_size = s.FLAGS_target_size
        ∧ (∀ p, (s2.memory p).destination_ = (mem0 p).destination_
            ∧ (s2.memory p).serialized_size = (mem0 p).serialized_size)
        ∧ s2.cores_[d]? = some dest2
        ∧ Tracked mem0 dest2 (ms.reverse ++ l) := by
  induction ms with
  | nil =>
    intro s dest l hd _ hfr htr _ _ _
    exact ⟨s, dest, rfl, rfl, rfl, rfl, hfr, hd, by simpa using htr⟩
  | cons m ms ih =>
    intro s dest l hd hT hfr htr hms hlen hq
    obtain ⟨hdm, hfit⟩ := hms m (by simp)
    obtain ⟨hq1, hq2⟩ := hq
    have hdst : s.cores_[(s.memory m).destination_]? = some dest := by
      rw [(hfr m).1, hdm]; exact hd
    have hest := estimated_size_of_tracked htr m (hfr m).2 hfit
    have hle : estimated_size s.memory dest m ≤ to_size_t s.FLAGS_target_size := by
      rw [hT, hest]; exact hq1
    have he := enqueue_stitch fuel s m dest hdst hle
    have hd1 : (stitched_state s dest m).cores_[d]?
        = some { messages_ := stitched_word dest.messages_ m
                 prefetch_queue_ := Function.update dest.prefetch_queue_
                   (ring_slot (1 + dest.messages_.count_))
                   (stored_entry s.memory dest m) } := by
      show (s.cores_.set (s.memory m).destination_ _)[d]? = _
      rw [(hfr m).1, hdm]
      exact getElem?_set_self_of_some _ _ _ _ hd
    simp only [List.length_cons] at hlen
    obtain ⟨s2, dest2, hr, hcap, hsnd, hfl, hfr2, hd2, htr2⟩ :=
      ih (stitched_state s dest m) _ (m :: l) hd1 hT
        (by
          intro p
          show (linked_memory s.memory dest m p).destination_ = _ ∧
            (linked_memory s.memory dest m p).serialized_size = _
          rw [linked_memory_destination, linked_memory_size]
          exact hfr p)
        (tracked_stitched htr m (hfr m).2 hfit (by omega))
        (fun x hx => hms x (List.mem_cons_of_mem _ hx))
        (by simp only [List.length_cons]; omega)
        (by rw [sum_sizes_cons, Nat.add_comm]; exact hq2)
    refine ⟨s2, dest2, ?_, hcap, hsnd, hfl, hfr2, hd2, ?_⟩
    · rw [List.map_cons,
        run_cons _ _ _ _ _ (show (Call.enqueue m).exec (fuel + 1) s = some _ from he)]
      exact hr
    · simpa [List.reverse_cons, List.append_assoc] using htr2

/-- When every message leaves room for a full 16-bit stored sum below the budget, no
enqueue flushes. -/
theorem enqueue_run_roomy (fuel : Nat) (d : Core) (ms : List Ptr) :
    ∀ (s : RDMAAggregator) (dest : CoreData),
      s.cores_[d]? = some dest →
      (∀ m ∈ ms, (s.memory m).destination_ = d
        ∧ (s.memory m).serialized_size + 65535 ≤ to_size_t s.FLAGS_target_size) →
      ∃ s2, run (fuel + 1) s (ms.map Call.enqueue) = some s2
        ∧ s2.rdma_capacity_flushes = s.rdma_capacity_flushes := by
  induction ms with
  | nil => intro s dest _ _; exact ⟨s, rfl, rfl⟩
  | cons m ms ih =>
    intro s dest hd hms
    obtain ⟨hdm, hroom⟩ := hms m (by simp)
    have hdst : s.cores_[(s.memory m).destination_]? = some dest := by rw [hdm]; exact hd
    have hle : estimated_size s.memory dest m ≤ to_size_t s.FLAGS_target_size := by
      have := low16_lt (dest.prefetch_queue_ (ring_slot dest.messages_.count_)).raw_
      unfold estimated_size PrefetchEntry.size_
      split <;> omega
    have he := enqueue_stitch fuel s m dest hdst hle
    have hd1 : (stitched_state s dest m).cores_[d]?
        = some { messages_ := stitched_word dest.messages_ m
                 prefetch_queue_ := Function.update dest.prefetch_queue_
                   (ring_slot (1 + dest.messages_.count_))
                   (stored_entry s.memory dest m) } := by
      show (s.cores_.set (s.memory m).destination_ _)[d]? = _
      rw [hdm]
      exact getElem?_set_self_of_some _ _ _ _ hd
    obtain ⟨s2, hr, hcap⟩ := ih (stitched_state s dest m) _ hd1
      (by
        intro x hx
        obtain ⟨hxd, hxr⟩ := hms x (List.mem_cons_of_mem _ hx)
        refine ⟨?_, ?_⟩
        · show (linked_memory s.memory dest m x).destination_ = d
          rw [linked_memory_destination]; exact hxd
        · show (linked_memory s.memory dest m x).serialized_size + 65535 ≤ _
          rw [linked_memory_size]; exact hxr)
    refine ⟨s2, ?_, hcap⟩
    rw [List.map_cons,
      run_cons _ _ _ _ _ (show (Call.enqueue m).exec (fuel + 1) s = some _ from he)]
    exact hr

/-! ## The example messages -/

theorem mem_message_addresses {m : Ptr} {n : Nat} (h : m ∈ message_addresses n) :
    ∃ i : Nat, i < n ∧ m = 64 * ((i : Int) + 1) := by
  simp only [message_addresses, List.mem_map, List.mem_range] at h
  obtain ⟨i, hi, rfl⟩ := h
  exact ⟨i, hi, rfl⟩

theorem message_addresses_nodup (n : Nat) : (message_addresses n).Nodup := by
  unfold message_addresses
  refine List.Nodup.map ?_ (List.nodup_range n)
  intro i j hij
  have h2 : (64 * ((i : Int) + 1) : Int) = 64 * ((j : Int) + 1) := hij
  omega

theorem message_addresses_length (n : Nat) : (message_addresses n).length = n := by
  simp [message_addresses]

theorem message_addresses_ok {m : Ptr} {n : Nat} (hn : n ≤ 1099511627776)
    (h : m ∈ message_addresses n) : m ≠ 0 ∧ Canonical48 m := by
  obtain ⟨i, hi, rfl⟩ := mem_message_addresses h
  have h0 : (64 * ((i : Int) + 1) : Int) ≠ 0 := by omega
  have h1 : (-140737488355328 : Int) ≤ 64 * ((i : Int) + 1) := by omega
  have h2 : (64 * ((i : Int) + 1) : Int) < 140737488355328 := by omega
  exact ⟨h0, h1, h2⟩

theorem sum_sizes_uniform (d : Core) (z : Nat) (l : List Ptr) :
    sum_sizes (uniform_memory d z) l = z * l.length := by
  induction l with
  | nil => simp [sum_sizes]
  | cons q l ih =>
    rw [sum_sizes_cons, ih]
    simp only [uniform_memory, List.length_cons]
    rw [Nat.mul_succ]
    omega

/-! ## The 16-bit count field wraps -/

/-- With `target_size = 1048576`, `n` distinct 16-byte messages enqueued to core 0 of a
fresh aggregator never trigger a flush: the chain holds all `n` while the count field
holds `n` modulo `2^16`. -/
theorem roomy_run_wraps (n : Nat) (hn : n ≤ 1099511627776) :
    ∃ s cd l,
      run 1 (RDMAAggregator.fresh 1048576 1 (uniform_memory 0 16)) (enqueue_calls n) = some s
      ∧ s.cores_[0]? = some cd
      ∧ IsChain s.memory cd.messages_.pointer_ l
      ∧ l.length = n
      ∧ cd.messages_.count_ = n % 65536 := by
  have hT : to_size_t 1048576 = 1048576 := by decide
  obtain ⟨s2, hr, -, hcond⟩ := enqueue_run_chain 0 0 (message_addresses n)
    (RDMAAggregator.fresh 1048576 1 (uniform_memory 0 16)) CoreData.zero [] rfl
    zero_word_pointer
    (fun m hm => ⟨(message_addresses_ok hn hm).1,
      (message_addresses_ok hn hm).2, rfl, by simp⟩)
    (message_addresses_nodup _)
  obtain ⟨s3, hr3, hcap⟩ := enqueue_run_roomy 0 0 (message_addresses n)
    (RDMAAggregator.fresh 1048576 1 (uniform_memory 0 16)) CoreData.zero rfl
    (fun m _ => ⟨rfl, by
      show 16 + 65535 ≤ to_size_t 1048576
      rw [hT]; decide⟩)
  have hs : s3 = s2 := by rw [hr] at hr3; exact (Option.some.inj hr3).symm
  subst hs
  obtain ⟨-, dest2, hd2, hch, hcnt⟩ := hcond hcap
  refine ⟨s3, dest2, _, hr, hd2, hch, by simp [message_addresses_length], ?_⟩
  rw [hcnt, message_addresses_length]
  show (CoreData.zero.messages_.count_ + n) % 65536 = n % 65536
  rw [show CoreData.zero.messages_.count_ = 0 from zero_word_count, Nat.zero_add]

/-- C1 as stated fails: with `target_size = 1048576`, 65536 distinct 16-byte messages
enqueued to core 0 of a fresh aggregator never trigger a flush; the word of core 0 then
roots a chain of 65536 messages while its 16-bit count field holds 0. -/
theorem count_field_wraps_at_65536 :
    (message_addresses 65536).Nodup
    ∧ ∃ s cd l,
      run 1 (RDMAAggregator.fresh 1048576 1 (uniform_memory 0 16)) (enqueue_calls 65536)
        = some s
      ∧ s.cores_[0]? = some cd
      ∧ IsChain s.memory cd.messages_.pointer_ l
      ∧ l.length = 65536
      ∧ cd.messages_.count_ = 0
      ∧ cd.messages_.count_ ≠ l.length := by
  refine ⟨message_addresses_nodup _, ?_⟩
  obtain ⟨s, cd, l, hr, hd, hch, hlen, hcnt⟩ := roomy_run_wraps 65536 (by decide)
  have hz : cd.messages_.count_ = 0 := hcnt
  exact ⟨s, cd, l, hr, hd, hch, hlen, hz, by rw [hz, hlen]; decide⟩

/-- With `target_size = 65535`, `n ≤ 65535` distinct 1-byte messages enqueued to core 0 of
a fresh aggregator never trigger a flush, and the bookkeeping follows: the count field
is `n` and the ring entry indexed by the count holds `n`. -/
theorem unit_run_tracks (n : Nat) (hn : n ≤ 65535) :
    ∃ s dest l,
      run 1 (RDMAAggregator.fresh 65535 1 (uniform_memory 0 1)) (enqueue_calls n) = some s
      ∧ s.rdma_capacity_flushes = 0
      ∧ s.send_rdma_calls = []
      ∧ s.FLAGS_target_size = 65535
      ∧ (∀ p, (s.memory p).destination_ = 0 ∧ (s.memory p).serialized_size = 1)
      ∧ s.cores_[0]? = some dest
      ∧ Tracked (uniform_memory 0 1) dest l
      ∧ l.length = n := by
  have hT : to_size_t 65535 = 65535 := by decide
  obtain ⟨s2, dest2, hr, hcap, hsnd, hfl, hfr, hd2, htr⟩ :=
    enqueue_run_quiet 0 0 (uniform_memory 0 1) 65535 (message_addresses n)
      (RDMAAggregator.fresh 65535 1 (uniform_memory 0 1)) CoreData.zero [] rfl hT
      (fun _ => ⟨rfl, rfl⟩) ⟨zero_word_count, by simp⟩
      (fun m _ => ⟨rfl, by show 1 ≤ 18446744073709486080; decide⟩)
      (by simp [message_addresses_length]; exact hn)
      (quiet_of_sum_le _ _ _ _ (by
        rw [sum_sizes_uniform, sum_sizes_uniform, message_addresses_length]
        simp only [List.length_nil]
        omega))
  exact ⟨s2, dest2, _, hr, hcap, hsnd, hfl, hfr, hd2, htr, by simp [message_addresses_length]⟩

/-- C5, as amended: when `enqueue( m )` decides to flush (its loop ends with `spawn_send`
set), for a message that is not null, whose pointer fits the 48-bit field and that is not
in the resident chain `l`: the call succeeds, the word of the destination is left 0
(count 0, pointer 0), its prefetch ring and the word of every other destination are
unchanged, `rdma_capacity_flushes` goes up by exactly one, and `send_rdma` is called
exactly once, for the destination of `m`, with the list `new_ml` whose pointer is `m`,
whose chain is `m` followed by the whole resident chain, and whose 16-bit count field is
the old count plus one modulo `2^16` (the old count plus one when the old count is below
65535). -/
theorem enqueue_flush_effect (fuel : Nat) (s : RDMAAggregator) (m : Ptr) (dest : CoreData)
    (l : List Ptr) (s1 : RDMAAggregator) (loc : EnqueueLocals)
    (hd : s.cores_[(s.memory m).destination_]? = some dest)
    (hloop : enqueue_loop (fuel + 1)
      { s with app_messages_enqueue := s.app_messages_enqueue + 1 } m
      (s.memory m).destination_ (MessageList.set_pointer ⟨0⟩ m) = some (s1, loc))
    (hsend : loc.spawn_send = true)
    (hm0 : m ≠ 0) (hcan : Canonical48 m)
    (hchain : IsChain s.memory dest.messages_.pointer_ l) (hml : m ∉ l) :
    ∃ s2 dest2 ml,
      enqueue (fuel + 1) s m = some s2
      ∧ s2.cores_[(s.memory m).destination_]? = some dest2
      ∧ dest2.messages_.raw_ = 0 ∧ dest2.messages_.count_ = 0 ∧ dest2.messages_.pointer_ = 0
      ∧ dest2.prefetch_queue_ = dest.prefetch_queue_
      ∧ (∀ d, d ≠ (s.memory m).destination_ → s2.cores_[d]? = s.cores_[d]?)
      ∧ s2.rdma_capacity_flushes = s.rdma_capacity_flushes + 1
      ∧ s2.send_rdma_calls = s.send_rdma_calls ++ [((s.memory m).destination_, ml)]
      ∧ ml = loc.new_ml
      ∧ ml.count_ = (dest.messages_.count_ + 1) % 65536
      ∧ (dest.messages_.count_ < 65535 → ml.count_ = dest.messages_.count_ + 1)
      ∧ ml.pointer_ = m
      ∧ IsChain s2.memory ml.pointer_ (m :: l) := by
  obtain ⟨s1b, locb, hl, -, -, -, hnew, hspawn, -⟩ :=
    enqueue_loop_succ fuel { s with app_messages_enqueue := s.app_messages_enqueue + 1 } m
      (s.memory m).destination_ (MessageList.set_pointer ⟨0⟩ m) dest hd
  rw [hloop] at hl
  obtain ⟨-, hloc⟩ := Prod.mk.inj (Option.some.inj hl)
  subst hloc
  have hgt : estimated_size s.memory dest m > to_size_t s.FLAGS_target_size := by
    rw [hsend] at hspawn
    exact of_decide_eq_true hspawn.symm
  have hcount : (stitched_word dest.messages_ m).count_ = (dest.messages_.count_ + 1) % 65536 := by
    rw [stitched_word_count, Nat.add_comm]
  refine ⟨flushed_state s dest m, { dest with messages_ := ⟨0⟩ }, stitched_word dest.messages_ m,
    enqueue_flush fuel s m dest hd hgt, getElem?_set_self_of_some _ _ _ _ hd, rfl,
    zero_word_count, zero_word_pointer, rfl, fun d hne => getElem?_set_other _ _ _ _ hne,
    rfl, rfl, hnew.symm, hcount, ?_, stitched_word_pointer _ _ hcan, ?_⟩
  · intro hlt
    rw [hcount]
    omega
  · rw [stitched_word_pointer _ _ hcan]
    exact IsChain.linked m hchain hml hm0

/-- C5, an instance: `target_size = 1024` and ten resident messages of 100 bytes; the
eleventh enqueue flushes. -/
theorem enqueue_flush_effect_witness :
    ∃ s dest s1 loc,
      run 1 (RDMAAggregator.fresh 1024 1 (uniform_memory 0 100)) (enqueue_calls 10) = some s
      ∧ s.cores_[0]? = some dest
      ∧ dest.messages_.count_ = 10
      ∧ enqueue_loop 1 { s with app_messages_enqueue := s.app_messages_enqueue + 1 } 704
          (s.memory 704).destination_ (MessageList.set_pointer ⟨0⟩ 704) = some (s1, loc)
      ∧ loc.spawn_send = true
      ∧ ∃ s2 dest2 ml,
        enqueue 1 s 704 = some s2
        ∧ s2.cores_[(s.memory 704).destination_]? = some dest2
        ∧ dest2.messages_.raw_ = 0 ∧ dest2.messages_.count_ = 0
        ∧ dest2.messages_.pointer_ = 0
        ∧ dest2.prefetch_queue_ = dest.prefetch_queue_
        ∧ (∀ d, d ≠ (s.memory 704).destination_ → s2.cores_[d]? = s.cores_[d]?)
        ∧ s2.rdma_capacity_flushes = s.rdma_capacity_flushes + 1
        ∧ s2.send_rdma_calls = s.send_rdma_calls ++ [((s.memory 704).destination_, ml)]
        ∧ ml = loc.new_ml
        ∧ ml.count_ = (dest.messages_.count_ + 1) % 65536
        ∧ (dest.messages_.count_ < 65535 → ml.count_ = dest.messages_.count_ + 1)
        ∧ ml.pointer_ = 704
        ∧ IsChain s2.memory ml.pointer_
            (704 :: [640, 576, 512, 448, 384, 320, 256, 192, 128, 64]) := by
  refine ⟨_, _, _, _, rfl, rfl, by decide, rfl, rfl, ?_⟩
  exact enqueue_flush_effect 0 _ 704 _ [640, 576, 512, 448, 384, 320, 256, 192, 128, 64]
    _ _ rfl rfl rfl (by decide) (by decide) (by decide) (by decide)

/-- C5 as stated fails: with `target_size = 65535` and 65535 resident 1-byte messages
(count field 65535), the next `enqueue` of a 1-byte message flushes, and the list it
passes to `send_rdma` has count field 0, not the old count plus one. -/
theorem flushed_list_count_wraps :
    ∃ s dest s2 ml,
      run 1 (RDMAAggregator.fresh 65535 1 (uniform_memory 0 1)) (enqueue_calls 65535) = some s
      ∧ s.cores_[0]? = some dest
      ∧ dest.messages_.count_ = 65535
      ∧ enqueue 1 s 4194304 = some s2
      ∧ s2.rdma_capacity_flushes = s.rdma_capacity_flushes + 1
      ∧ s2.send_rdma_calls = s.send_rdma_calls ++ [(0, ml)]
      ∧ ml.count_ = 0
      ∧ ml.count_ ≠ dest.messages_.count_ + 1 := by
  obtain ⟨s, dest, l, hr, -, -, hfl, hfr, hd, htr, hlen⟩ := unit_run_tracks 65535 (by decide)
  have hcnt : dest.messages_.count_ = 65535 := by rw [htr.1, hlen]
  have hdm : (s.memory 4194304).destination_ = 0 := (hfr _).1
  have hd2 : s.cores_[(s.memory 4194304).destination_]? = some dest := by rw [hdm]; exact hd
  have hest := @estimated_size_of_tracked _ s.memory _ _ htr 4194304
    (by rw [(hfr _).2]; rfl) (by show 1 ≤ 18446744073709486080; decide)
  rw [sum_sizes_uniform, hlen] at hest
  have hest2 : estimated_size s.memory dest 4194304 = 65536 := by
    rw [hest]; rfl
  have hgt : estimated_size s.memory dest 4194304 > to_size_t s.FLAGS_target_size := by
    rw [hest2, hfl]; decide
  have hz : (stitched_word dest.messages_ 4194304).count_ = 0 := by
    rw [stitched_word_count, hcnt]
  refine ⟨s, dest, flushed_state s dest 4194304, stitched_word dest.messages_ 4194304, hr, hd,
    hcnt, enqueue_flush 0 s _ dest hd2 hgt, rfl, ?_, hz, ?_⟩
  · show s.send_rdma_calls ++ [((s.memory 4194304).destination_, _)] = _
    rw [hdm]
  · rw [hz, hcnt]; decide

/-! ## The size estimate in reachable states -/

/-- C4, as amended: for `0 ≤ target_size ≤ 65535`, in every state reached from the fresh
aggregator by `enqueue`, `grab_messages`, `flush_one` and `flush` calls on distinct
messages whose serialized sizes are at least 1 and at most `2^64 - 65536`, the local `size`
that `enqueue( m )` computes (for `m` of size at most `2^64 - 65536`) is the serialized size
of `m` plus the sum of the serialized sizes of the messages in the chain resident at the
destination of `m`, and `enqueue( m )` flushes (sets `spawn_send`, increments
`rdma_capacity_flushes`, calls `send_rdma`) exactly when that sum is greater than
`target_size`. -/
theorem size_estimate_exact (fuel : Nat) (T : Int) (n : Nat) (mem : Ptr → MessageBase)
    (cs : List Call) (m : Ptr) (hT0 : 0 ≤ T) (hT1 : T ≤ 65535)
    (hok : ∀ c ∈ cs, c.ok n mem) (hnd : (enqueued cs).Nodup)
    (hsz : ∀ x ∈ enqueued cs, 1 ≤ (mem x).serialized_size
      ∧ (mem x).serialized_size ≤ 18446744073709486080)
    (hmd : (mem m).destination_ < n)
    (hfit : (mem m).serialized_size ≤ 18446744073709486080) :
    ∃ s dest l s1 loc s2,
      run (fuel + 1) (RDMAAggregator.fresh T n mem) cs = some s
      ∧ s.cores_[(s.memory m).destination_]? = some dest
      ∧ IsChain s.memory dest.messages_.pointer_ l
      ∧ enqueue_loop (fuel + 1) { s with app_messages_enqueue := s.app_messages_enqueue + 1 } m
          (s.memory m).destination_ (MessageList.set_pointer ⟨0⟩ m) = some (s1, loc)
      ∧ loc.size = (s.memory m).serialized_size + sum_sizes s.memory l
      ∧ (loc.spawn_send = true
          ↔ T < (((s.memory m).serialized_size + sum_sizes s.memory l : Nat) : Int))
      ∧ enqueue (fuel + 1) s m = some s2
      ∧ (loc.spawn_send = true →
          s2.rdma_capacity_flushes = s.rdma_capacity_flushes + 1
          ∧ s2.send_rdma_calls
              = s.send_rdma_calls ++ [((s.memory m).destination_, loc.new_ml)])
      ∧ (loc.spawn_send = false →
          s2.rdma_capacity_flushes = s.rdma_capacity_flushes
          ∧ s2.send_rdma_calls = s.send_rdma_calls) := by
  have h0 : Inv True mem T (RDMAAggregator.fresh T n mem) (List.replicate n []) [] [] [] :=
    Inv.fresh True mem T n
  obtain ⟨s, R, S, G, hr, hi, hlen, -⟩ := Inv.preserved fuel cs _ _ _ _ _ h0
    (by simpa [RDMAAggregator.fresh] using hok) (by simpa using hnd)
    (fun _ => ⟨hT0, hT1, hsz⟩)
  have hn : s.cores_.length = n := by rw [hlen]; simp [RDMAAggregator.fresh]
  have hdm : (s.memory m).destination_ < s.cores_.length := by
    rw [(hi.frame m).1, hn]; exact hmd
  obtain ⟨dest, hd⟩ : ∃ dest, s.cores_[(s.memory m).destination_]? = some dest :=
    ⟨_, List.getElem?_eq_getElem hdm⟩
  obtain ⟨l, hl, hchain⟩ := forall₂_getElem? hi.resident hd
  obtain ⟨l2, hl2, hsized⟩ := forall₂_getElem? (hi.sized trivial) hd
  have hll : l2 = l := by rw [hl] at hl2; exact (Option.some.inj hl2).symm
  subst hll
  have hT3 : to_size_t T ≤ 65535 := by unfold to_size_t; omega
  have hT4 : ((to_size_t T : Nat) : Int) = T := by unfold to_size_t; omega
  have hest := estimated_size_of_sized hsized hT3 m (by rw [(hi.frame m).2]; exact hfit)
  obtain ⟨s1, loc, hloop, hsize, -, -, hnew, hspawn, -⟩ :=
    enqueue_loop_succ fuel { s with app_messages_enqueue := s.app_messages_enqueue + 1 } m
      (s.memory m).destination_ (MessageList.set_pointer ⟨0⟩ m) dest hd
  have hiff : loc.spawn_send = true
      ↔ T < (((s.memory m).serialized_size + sum_sizes s.memory l2 : Nat) : Int) := by
    rw [hspawn, decide_eq_true_eq]
    show estimated_size s.memory dest m > to_size_t s.FLAGS_target_size ↔ _
    rw [hest, hi.target]
    omega
  by_cases hgt : estimated_size s.memory dest m > to_size_t s.FLAGS_target_size
  · have htrue : loc.spawn_send = true := by rw [hspawn]; exact decide_eq_true hgt
    refine ⟨s, dest, l2, s1, loc, flushed_state s dest m, hr, hd, hchain, hloop,
      hsize.trans hest, hiff, enqueue_flush fuel s m dest hd hgt, ?_, ?_⟩
    · intro _
      refine ⟨rfl, ?_⟩
      rw [hnew]
      rfl
    · intro hf
      rw [htrue] at hf
      cases hf
  · have hfalse : loc.spawn_send = false := by rw [hspawn]; exact decide_eq_false hgt
    refine ⟨s, dest, l2, s1, loc, stitched_state s dest m, hr, hd, hchain, hloop,
      hsize.trans hest, hiff, enqueue_stitch fuel s m dest hd (by omega), ?_, ?_⟩
    · intro ht
      rw [hfalse] at ht
      cases ht
    · intro _
      exact ⟨rfl, rfl⟩

/-- C4, the scenario of the specification: with `target_size = 1024` and 100-byte
messages no capacity flush happens during the first ten enqueues, the eleventh flushes,
and the estimate of the eleventh is its size plus the sizes of the ten resident
messages. -/
theorem size_estimate_exact_witness :
    (∀ k, k ≤ 10 →
      (run 1 (RDMAAggregator.fresh 1024 1 (uniform_memory 0 100)) (enqueue_calls k)).map
        (fun s => s.rdma_capacity_flushes) = some 0)
    ∧ (run 1 (RDMAAggregator.fresh 1024 1 (uniform_memory 0 100)) (enqueue_calls 11)).map
        (fun s => s.rdma_capacity_flushes) = some 1
    ∧ ∃ s dest l s1 loc s2,
      run 1 (RDMAAggregator.fresh 1024 1 (uniform_memory 0 100)) (enqueue_calls 10) = some s
      ∧ s.cores_[(s.memory 704).destination_]? = some dest
      ∧ IsChain s.memory dest.messages_.pointer_ l
      ∧ enqueue_loop 1 { s with app_messages_enqueue := s.app_messages_enqueue + 1 } 704
          (s.memory 704).destination_ (MessageList.set_pointer ⟨0⟩ 704) = some (s1, loc)
      ∧ loc.size = (s.memory 704).serialized_size + sum_sizes s.memory l
      ∧ (loc.spawn_send = true
          ↔ (1024 : Int) < (((s.memory 704).serialized_size + sum_sizes s.memory l : Nat) : Int))
      ∧ enqueue 1 s 704 = some s2
      ∧ (loc.spawn_send = true →
          s2.rdma_capacity_flushes = s.rdma_capacity_flushes + 1
          ∧ s2.send_rdma_calls
              = s.send_rdma_calls ++ [((s.memory 704).destination_, loc.new_ml)])
      ∧ (loc.spawn_send = false →
          s2.rdma_capacity_flushes = s.rdma_capacity_flushes
          ∧ s2.send_rdma_calls = s.send_rdma_calls) :=
  ⟨by decide, by decide,
    size_estimate_exact 0 1024 1 (uniform_memory 0 100) (enqueue_calls 10) 704
      (by decide) (by decide) (by decide) (by decide) (by decide) (by decide) (by decide)⟩

theorem run_append (fuel : Nat) (a b : List Call) :
    ∀ (s s1 : RDMAAggregator), run fuel s a = some s1 → run fuel s (a ++ b) = run fuel s1 b := by
  induction a with
  | nil =>
    intro s s1 h
    simp only [run, Option.some.injEq] at h
    subst h
    rfl
  | cons c cs ih =>
    intro s s1 h
    simp only [run, List.cons_append] at h ⊢
    cases hc : c.exec fuel s with
    | none => rw [hc] at h; cases h
    | some s0 =>
      rw [hc] at h
      simp only at h ⊢
      exact ih s0 s1 h

theorem thin_memory_unit {m : Ptr} {n : Nat} (hn : n ≤ 65535) (h : m ∈ message_addresses n) :
    m ≠ 4194304 ∧ (thin_memory m).destination_ = 0 ∧ (thin_memory m).serialized_size = 1 := by
  obtain ⟨i, hi, rfl⟩ := mem_message_addresses h
  have hne : (64 * ((i : Int) + 1) : Int) ≠ 4194304 := by omega
  refine ⟨hne, ?_, ?_⟩ <;> simp [thin_memory, hne]

/-- With `target_size = 65535` and the memory `thin_memory`, `n ≤ 65535` distinct 1-byte
messages enqueued to core 0 of a fresh aggregator are all resident: no flush happens,
the count field is `n` and the stored sum is `n`. -/
theorem thin_run_tracks (n : Nat) (hn : n ≤ 65535) :
    ∃ s dest l,
      run 1 (RDMAAggregator.fresh 65535 1 thin_memory) (enqueue_calls n) = some s
      ∧ s.rdma_capacity_flushes = 0
      ∧ s.send_rdma_calls = []
      ∧ s.FLAGS_target_size = 65535
      ∧ (∀ p, (s.memory p).destination_ = (thin_memory p).destination_
          ∧ (s.memory p).serialized_size = (thin_memory p).serialized_size)
      ∧ s.cores_[0]? = some dest
      ∧ Tracked thin_memory dest l
      ∧ IsChain s.memory dest.messages_.pointer_ l
      ∧ l.length = n
      ∧ sum_sizes thin_memory l = n
      ∧ (4194304 : Ptr) ∉ l := by
  have hT : to_size_t 65535 = 65535 := by decide
  have hsum : sum_sizes thin_memory (message_addresses n) = n := by
    rw [sum_sizes_const thin_memory 1 _ (fun p hp => (thin_memory_unit hn hp).2.2),
      message_addresses_length, Nat.one_mul]
  obtain ⟨s2, dest2, hr, hcap, hsnd, hfl, hfr, hd2, htr⟩ :=
    enqueue_run_quiet 0 0 thin_memory 65535 (message_addresses n)
      (RDMAAggregator.fresh 65535 1 thin_memory) CoreData.zero [] rfl hT
      (fun _ => ⟨rfl, rfl⟩) ⟨zero_word_count, by simp⟩
      (fun m hm => ⟨(thin_memory_unit hn hm).2.1, by
        rw [(thin_memory_unit hn hm).2.2]; decide⟩)
      (by simp [message_addresses_length]; exact hn)
      (quiet_of_sum_le _ _ _ _ (by
        rw [hsum]
        simp only [sum_sizes, List.map_nil, List.sum_nil]
        omega))
  obtain ⟨s3, hr3, -, hcond⟩ := enqueue_run_chain 0 0 (message_addresses n)
    (RDMAAggregator.fresh 65535 1 thin_memory) CoreData.zero [] rfl zero_word_pointer
    (fun m hm => ⟨(message_addresses_ok (by omega) hm).1,
      (message_addresses_ok (by omega) hm).2, (thin_memory_unit hn hm).2.1, by simp⟩)
    (message_addresses_nodup _)
  have hs : s3 = s2 := by rw [hr] at hr3; exact (Option.some.inj hr3).symm
  subst hs
  obtain ⟨-, dest3, hd3, hch, -⟩ := hcond hcap
  have hdd : dest3 = dest2 := by rw [hd2] at hd3; exact (Option.some.inj hd3).symm
  subst hdd
  refine ⟨s3, dest3, _, hr, hcap, hsnd, hfl, hfr, hd2, htr, hch,
    by simp [message_addresses_length], ?_, ?_⟩
  · rw [List.append_nil]
    unfold sum_sizes
    rw [List.map_reverse, List.sum_reverse]
    exact hsum
  · intro hmem
    rw [List.append_nil, List.mem_reverse] at hmem
    exact (thin_memory_unit hn hmem).1 rfl

/-- C4 as stated fails, in two ways.  First, the `size_t` sum wraps: with
`target_size = 65535`, one 1-byte message resident and a message whose serialized size is
`2^64 - 1`, the size computed by `enqueue` is 0, not `2^64`, and `enqueue` does not flush
although the sum of the sizes is greater than `target_size`.  Second, the 16-bit count
wraps when a message has serialized size 0: with `target_size = 65535`, 65535 1-byte
messages and then one 0-byte message are all resident (65535 bytes, no flush) and the
count of the 65536 messages is 0; for the next 1-byte message `enqueue` computes the size
1, not 65536, and does not flush although the sum of the sizes is greater than
`target_size`. -/
theorem size_estimate_not_exact :
    (∃ s dest s1 loc s2,
      run 1 (RDMAAggregator.fresh 65535 1 giant_memory) [Call.enqueue 64] = some s
      ∧ s.cores_[0]? = some dest
      ∧ IsChain s.memory dest.messages_.pointer_ [64]
      ∧ (s.memory 128).serialized_size + sum_sizes s.memory [64] = 18446744073709551616
      ∧ enqueue_loop 1 { s with app_messages_enqueue := s.app_messages_enqueue + 1 } 128
          (s.memory 128).destination_ (MessageList.set_pointer ⟨0⟩ 128) = some (s1, loc)
      ∧ loc.size = 0
      ∧ loc.spawn_send = false
      ∧ enqueue 1 s 128 = some s2
      ∧ s2.rdma_capacity_flushes = 0
      ∧ s2.send_rdma_calls = [])
    ∧ (∃ s dest l s1 loc s2,
      run 1 (RDMAAggregator.fresh 65535 1 thin_memory)
        (enqueue_calls 65535 ++ [Call.enqueue 4194304]) = some s
      ∧ s.cores_[0]? = some dest
      ∧ IsChain s.memory dest.messages_.pointer_ l
      ∧ l.length = 65536
      ∧ (s.memory 4194368).serialized_size + sum_sizes s.memory l = 65536
      ∧ enqueue_loop 1 { s with app_messages_enqueue := s.app_messages_enqueue + 1 } 4194368
          (s.memory 4194368).destination_ (MessageList.set_pointer ⟨0⟩ 4194368) = some (s1, loc)
      ∧ loc.size = 1
      ∧ loc.spawn_send = false
      ∧ enqueue 1 s 4194368 = some s2
      ∧ s2.rdma_capacity_flushes = 0
      ∧ s2.send_rdma_calls = []) := by
  refine ⟨?_, ?_⟩
  · refine ⟨_, _, _, _, _, rfl, rfl, by decide, by decide, rfl, by decide, by decide, rfl,
      by decide, by decide⟩
  · obtain ⟨s, dest, l, hr, hcap, hsnd, hfl, hfr, hd, htr, hch, hlen, hsum, hnot⟩ :=
      thin_run_tracks 65535 (by decide)
    -- the 0-byte message is stitched in and the count wraps
    have hA : (s.memory 4194304).destination_ = 0 := by rw [(hfr _).1]; rfl
    have hdA : s.cores_[(s.memory 4194304).destination_]? = some dest := by rw [hA]; exact hd
    have hestA := @estimated_size_of_tracked _ s.memory _ _ htr 4194304 (hfr _).2
      (by show (0 : Nat) ≤ 18446744073709486080; decide)
    rw [hsum] at hestA
    have hestA2 : estimated_size s.memory dest 4194304 = 65535 := by rw [hestA]; rfl
    have hleA : estimated_size s.memory dest 4194304 ≤ to_size_t s.FLAGS_target_size := by
      rw [hestA2, hfl]; decide
    have heA := enqueue_stitch 0 s 4194304 dest hdA hleA
    have hrun : run 1 (RDMAAggregator.fresh 65535 1 thin_memory)
        (enqueue_calls 65535 ++ [Call.enqueue 4194304])
        = some (stitched_state s dest 4194304) := by
      rw [run_append 1 _ _ _ _ hr]
      simp only [run, Call.exec, heA]
    have hcnt : dest.messages_.count_ = 65535 := by rw [htr.1, hlen]
    have hword : (stitched_word dest.messages_ 4194304).count_ = 0 := by
      rw [stitched_word_count, hcnt]
    have hd1 : (stitched_state s dest 4194304).cores_[0]?
        = some { messages_ := stitched_word dest.messages_ 4194304
                 prefetch_queue_ := Function.update dest.prefetch_queue_
                   (ring_slot (1 + dest.messages_.count_))
                   (stored_entry s.memory dest 4194304) } := by
      show (s.cores_.set (s.memory 4194304).destination_ _)[0]? = _
      rw [hA]
      exact getElem?_set_self_of_some _ _ _ _ hd
    have hch1 : IsChain (stitched_state s dest 4194304).memory
        (stitched_word dest.messages_ 4194304).pointer_ (4194304 :: l) := by
      rw [stitched_word_pointer _ _ (by decide)]
      exact IsChain.linked 4194304 hch hnot (by decide)
    have hfr1 : ∀ p, ((stitched_state s dest 4194304).memory p).destination_
          = (thin_memory p).destination_
        ∧ ((stitched_state s dest 4194304).memory p).serialized_size
          = (thin_memory p).serialized_size := by
      intro p
      show (linked_memory s.memory dest 4194304 p).destination_ = _ ∧
        (linked_memory s.memory dest 4194304 p).serialized_size = _
      rw [linked_memory_destination, linked_memory_size]
      exact hfr p
    have hsum1 : ((stitched_state s dest 4194304).memory 4194368).serialized_size
        + sum_sizes (stitched_state s dest 4194304).memory (4194304 :: l) = 65536 := by
      have h1 : sum_sizes (stitched_state s dest 4194304).memory (4194304 :: l)
          = sum_sizes thin_memory (4194304 :: l) :=
        sum_sizes_congr _ _ _ (fun p => (hfr1 p).2)
      rw [h1, sum_sizes_cons, hsum, (hfr1 _).2]
      rfl
    -- the next message
    have hP : ((stitched_state s dest 4194304).memory 4194368).destination_ = 0 := by
      rw [(hfr1 _).1]; rfl
    have hestP : estimated_size (stitched_state s dest 4194304).memory
        { messages_ := stitched_word dest.messages_ 4194304
          prefetch_queue_ := Function.update dest.prefetch_queue_
            (ring_slot (1 + dest.messages_.count_))
            (stored_entry s.memory dest 4194304) } 4194368 = 1 := by
      rw [estimated_size_empty _ _ _ hword, (hfr1 _).2]
      rfl
    have hdP : (stitched_state s dest 4194304).cores_[
        ((stitched_state s dest 4194304).memory 4194368).destination_]? = some _ :=
      (congrArg (fun i => (stitched_state s dest 4194304).cores_[i]?) hP).trans hd1
    obtain ⟨s1, loc, hloop, hsize, -, -, -, hspawn, -⟩ :=
      enqueue_loop_succ 0
        { stitched_state s dest 4194304 with
          app_messages_enqueue := (stitched_state s dest 4194304).app_messages_enqueue + 1 }
        4194368 ((stitched_state s dest 4194304).memory 4194368).destination_
        (MessageList.set_pointer ⟨0⟩ 4194368) _ hdP
    have hleP : estimated_size (stitched_state s dest 4194304).memory
        { messages_ := stitched_word dest.messages_ 4194304
          prefetch_queue_ := Function.update dest.prefetch_queue_
            (ring_slot (1 + dest.messages_.count_))
            (stored_entry s.memory dest 4194304) } 4194368
        ≤ to_size_t (stitched_state s dest 4194304).FLAGS_target_size := by
      rw [hestP]
      show 1 ≤ to_size_t s.FLAGS_target_size
      rw [hfl]; decide
    have hfalse : loc.spawn_send = false := by
      rw [hspawn]
      apply decide_eq_false
      show ¬ (estimated_size (stitched_state s dest 4194304).memory _ 4194368
        > to_size_t (stitched_state s dest 4194304).FLAGS_target_size)
      omega
    refine ⟨stitched_state s dest 4194304, _, 4194304 :: l, s1, loc, _, hrun, hd1, hch1,
      by simp [hlen], hsum1, hloop, hsize.trans hestP, hfalse,
      enqueue_stitch 0 _ 4194368 _ hdP hleP, ?_, ?_⟩
    · show s.rdma_capacity_flushes = 0
      exact hcap
    · show s.send_rdma_calls = []
      exact hsnd

/-! ## The packed word as an encoding -/

theorem signed48_injective (a b : Nat) (ha : a < 281474976710656) (hb : b < 281474976710656)
    (h : signed48 a = signed48 b) : a = b := by
  unfold signed48 at h
  split at h <;> split at h <;> omega

theorem signed48_eq_zero (a : Nat) (ha : a < 281474976710656) : signed48 a = 0 ↔ a = 0 := by
  unfold signed48
  split <;> omega

/-- C18: the packed word is a faithful encoding of (count, pointer).  For 64-bit words
`w`, `w2`, a pointer `p` representable as a signed 48-bit integer and a count `k < 65536`:
`get_pointer` after `set_pointer( p )` returns `p`; `set_pointer` leaves `count_` unchanged;
assigning `count_` leaves `pointer_` unchanged (and the count read back is `k`); two words
have equal `raw_` exactly when they have equal `count_` and equal `pointer_`; and `raw_` is
0 exactly when `count_ = 0` and `pointer_ = 0`.  Both assignments keep the word within 64
bits. -/
theorem packed_word_faithful (w w2 : MessageList) (p : Ptr) (k : Nat)
    (hw : w.raw_ < 18446744073709551616) (hw2 : w2.raw_ < 18446744073709551616)
    (hp : Canonical48 p) (hk : k < 65536) :
    (w.set_pointer p).get_pointer = p
    ∧ (w.set_pointer p).count_ = w.count_
    ∧ (w.assign_count_ k).pointer_ = w.pointer_
    ∧ (w.assign_count_ k).count_ = k
    ∧ (w.raw_ = w2.raw_ ↔ w.count_ = w2.count_ ∧ w.pointer_ = w2.pointer_)
    ∧ (w.raw_ = 0 ↔ w.count_ = 0 ∧ w.pointer_ = 0)
    ∧ (w.set_pointer p).raw_ < 18446744073709551616
    ∧ (w.assign_count_ k).raw_ < 18446744073709551616 := by
  have hh : high48 w.raw_ < 281474976710656 := by unfold high48; omega
  have hh2 : high48 w2.raw_ < 281474976710656 := by unfold high48; omega
  refine ⟨?_, ?_, ?_, ?_, ?_, ?_, ?_, ?_⟩
  · simp only [MessageList.get_pointer, MessageList.pointer_, MessageList.set_pointer,
      high48_with_pointer48]
    exact signed48_of_canonical p hp
  · simp only [MessageList.count_, MessageList.set_pointer, low16_with_pointer48]
  · simp only [MessageList.pointer_, MessageList.assign_count_, high48_with_low16]
  · simp only [MessageList.count_, MessageList.assign_count_, low16_with_low16]
    omega
  · constructor
    · intro h
      simp only [MessageList.count_, MessageList.pointer_, h, and_self]
    · rintro ⟨hc, hpt⟩
      have h48 := signed48_injective _ _ hh hh2 hpt
      simp only [MessageList.count_, low16] at hc
      unfold high48 at h48
      omega
  · constructor
    · intro h
      simp only [MessageList.count_, MessageList.pointer_, h, low16, high48, signed48]
      decide
    · rintro ⟨hc, hpt⟩
      have h48 := (signed48_eq_zero _ hh).1 hpt
      simp only [MessageList.count_, low16] at hc
      unfold high48 at h48
      omega
  · have h1 : (p % 281474976710656).toNat < 281474976710656 := by
      have := hp.1; have := hp.2
      omega
    simp only [MessageList.set_pointer, with_pointer48, low16]
    omega
  · simp only [MessageList.assign_count_, with_low16]
    omega

/-- C18, an instance: the word `{count 3, pointer 4096}` and the negative pointer
`-4096`. -/
theorem packed_word_faithful_witness :
    ((⟨268435459⟩ : MessageList).set_pointer (-4096)).get_pointer = -4096
    ∧ ((⟨268435459⟩ : MessageList).set_pointer (-4096)).count_
        = (⟨268435459⟩ : MessageList).count_
    ∧ ((⟨268435459⟩ : MessageList).assign_count_ 65535).pointer_
        = (⟨268435459⟩ : MessageList).pointer_
    ∧ ((⟨268435459⟩ : MessageList).assign_count_ 65535).count_ = 65535
    ∧ ((⟨268435459⟩ : MessageList).raw_ = (⟨7⟩ : MessageList).raw_
        ↔ (⟨268435459⟩ : MessageList).count_ = (⟨7⟩ : MessageList).count_
          ∧ (⟨268435459⟩ : MessageList).pointer_ = (⟨7⟩ : MessageList).pointer_)
    ∧ ((⟨268435459⟩ : MessageList).raw_ = 0
        ↔ (⟨268435459⟩ : MessageList).count_ = 0 ∧ (⟨268435459⟩ : MessageList).pointer_ = 0)
    ∧ ((⟨268435459⟩ : MessageList).set_pointer (-4096)).raw_ < 18446744073709551616
    ∧ ((⟨268435459⟩ : MessageList).assign_count_ 65535).raw_ < 18446744073709551616 :=
  packed_word_faithful ⟨268435459⟩ ⟨7⟩ (-4096) 65535 (by decide) (by decide) (by decide)
    (by decide)

/-! ## Counters -/

/-- What `enqueue( m )` does to the counters and to the trace of `send_rdma`. -/
theorem enqueue_counters (fuel : Nat) (s : RDMAAggregator) (m : Ptr) (dest : CoreData)
    (h : s.cores_[(s.memory m).destination_]? = some dest) :
    ∃ s2, enqueue (fuel + 1) s m = some s2
      ∧ s2.cores_.length = s.cores_.length
      ∧ s2.FLAGS_target_size = s.FLAGS_target_size
      ∧ (∀ p, (s2.memory p).destination_ = (s.memory p).destination_
          ∧ (s2.memory p).serialized_size = (s.memory p).serialized_size)
      ∧ s2.app_messages_enqueue = s.app_messages_enqueue + 1
      ∧ s2.app_messages_enqueue_cas = s.app_messages_enqueue_cas + 1
      ∧ s2.app_messages_immediate = s.app_messages_immediate
      ∧ s2.rdma_requested_flushes = s.rdma_requested_flushes
      ∧ s2.rdma_capacity_flushes + s.send_rdma_calls.length
          = s.rdma_capacity_flushes + s2.send_rdma_calls.length := by
  have hfr : ∀ p, (linked_memory s.memory dest m p).destination_ = (s.memory p).destination_
      ∧ (linked_memory s.memory dest m p).serialized_size = (s.memory p).serialized_size :=
    fun p => ⟨linked_memory_destination _ _ _ _, linked_memory_size _ _ _ _⟩
  by_cases hle : estimated_size s.memory dest m ≤ to_size_t s.FLAGS_target_size
  · exact ⟨_, enqueue_stitch fuel s m dest h hle, by simp [stitched_state], rfl, hfr,
      rfl, rfl, rfl, rfl, rfl⟩
  · refine ⟨_, enqueue_flush fuel s m dest h (by omega), by simp [flushed_state], rfl, hfr,
      rfl, rfl, rfl, rfl, ?_⟩
    simp only [flushed_state, List.length_append, List.length_singleton]
    omega

/-- What `flush( c )` does to the counters and to the trace of `send_rdma`. -/
theorem flush_counters (fuel : Nat) (s : RDMAAggregator) (c : Core) (dest : CoreData)
    (h : s.cores_[c]? = some dest) :
    ∃ s2, flush (fuel + 1) s c = some s2
      ∧ s2.cores_.length = s.cores_.length
      ∧ s2.FLAGS_target_size = s.FLAGS_target_size
      ∧ s2.memory = s.memory
      ∧ s2.app_messages_enqueue = s.app_messages_enqueue
      ∧ s2.app_messages_enqueue_cas = s.app_messages_enqueue_cas
      ∧ s2.app_messages_immediate = s.app_messages_immediate
      ∧ s2.rdma_capacity_flushes = s.rdma_capacity_flushes
      ∧ s2.rdma_requested_flushes = s.rdma_requested_flushes + 1
      ∧ s2.send_rdma_calls.length + idle_flush s (Call.flush c)
          = s.send_rdma_calls.length + 1 := by
  by_cases hraw : dest.messages_.raw_ = 0
  · have h1 := flush_one_empty (fuel + 1)
      { s with rdma_requested_flushes := s.rdma_requested_flushes + 1 } c dest h hraw
    refine ⟨{ s with rdma_requested_flushes := s.rdma_requested_flushes + 1 }, ?_, rfl, rfl,
      rfl, rfl, rfl, rfl, rfl, rfl, ?_⟩
    · simp only [flush, h1, Option.map_some']
    · simp [idle_flush, h, hraw]
  · have h1 := flush_one_nonempty fuel
      { s with rdma_requested_flushes := s.rdma_requested_flushes + 1 } c dest h hraw
    refine ⟨{ grabbed_state { s with rdma_requested_flushes := s.rdma_requested_flushes + 1 }
                c dest with send_rdma_calls := s.send_rdma_calls ++ [(c, dest.messages_)] },
      ?_, ?_, rfl, rfl, rfl, rfl, rfl, rfl, rfl, ?_⟩
    · simp only [flush, h1, Option.map_some']
    · simp [grabbed_state]
    · simp [idle_flush, h, hraw]

/-- Along a sequence of `enqueue` and `flush` calls the two flush counters grow by the
number of `send_rdma` calls plus the number of `flush` calls that found a word 0. -/
theorem run_flush_accounting (fuel : Nat) (mem0 : Ptr → MessageBase) (cs : List Call) :
    ∀ (s : RDMAAggregator),
      (∀ p, (s.memory p).destination_ = (mem0 p).destination_) →
      (∀ c ∈ cs, c.ok s.cores_.length mem0 ∧ c.plain) →
      ∃ s2, run (fuel + 1) s cs = some s2
        ∧ s2.rdma_capacity_flushes + s2.rdma_requested_flushes + s.send_rdma_calls.length
          = s.rdma_capacity_flushes + s.rdma_requested_flushes + s2.send_rdma_calls.length
            + idle_flushes (fuel + 1) s cs := by
  induction cs with
  | nil => intro s _ _; exact ⟨s, rfl, by simp [idle_flushes]⟩
  | cons c cs ih =>
    intro s hfr hok
    obtain ⟨hokc, hpl⟩ := hok c (by simp)
    have hoks := fun c2 h2 => hok c2 (List.mem_cons_of_mem _ h2)
    cases c with
    | enqueue m =>
      obtain ⟨-, -, hd⟩ := hokc
      rw [← hfr m] at hd
      obtain ⟨s1, he, hlen, -, hfr1, -, -, -, hreq, hcap⟩ :=
        enqueue_counters fuel s m _ (List.getElem?_eq_getElem hd)
      obtain ⟨s2, hr, hacc⟩ := ih s1 (fun p => ((hfr1 p).1).trans (hfr p))
        (by rw [hlen]; exact hoks)
      refine ⟨s2, ?_, ?_⟩
      · simp only [Grappa.run, Call.exec, he, hr]
      · simp only [idle_flushes, idle_flush, Call.exec, he, Nat.zero_add]
        omega
    | flush k =>
      obtain ⟨s1, he, hlen, -, hmem, -, -, -, hcap, hreq, hsend⟩ :=
        flush_counters fuel s k _ (List.getElem?_eq_getElem hokc)
      obtain ⟨s2, hr, hacc⟩ := ih s1 (by rw [hmem]; exact hfr) (by rw [hlen]; exact hoks)
      refine ⟨s2, ?_, ?_⟩
      · simp only [Grappa.run, Call.exec, he, hr]
      · simp only [idle_flushes, Call.exec, he]
        omega
    | grab_messages k => exact hpl.elim
    | flush_one k => exact hpl.elim

/-- C11, as amended: in every state reached from the fresh aggregator by a sequence of
`enqueue` and `flush` calls, `rdma_capacity_flushes + rdma_requested_flushes` equals the
number of `send_rdma` calls issued so far plus the number of `flush` calls that found the
word of their destination 0; so it is at least the number of `send_rdma` calls, and equal
to it when no `flush` met an empty destination. -/
theorem flush_counters_account_for_sends (fuel : Nat) (T : Int) (n : Nat)
    (mem : Ptr → MessageBase) (cs : List Call) (hok : ∀ c ∈ cs, c.ok n mem ∧ c.plain) :
    ∃ s, run (fuel + 1) (RDMAAggregator.fresh T n mem) cs = some s
      ∧ s.rdma_capacity_flushes + s.rdma_requested_flushes
          = s.send_rdma_calls.length
            + idle_flushes (fuel + 1) (RDMAAggregator.fresh T n mem) cs
      ∧ s.send_rdma_calls.length ≤ s.rdma_capacity_flushes + s.rdma_requested_flushes
      ∧ (idle_flushes (fuel + 1) (RDMAAggregator.fresh T n mem) cs = 0 →
          s.rdma_capacity_flushes + s.rdma_requested_flushes = s.send_rdma_calls.length) := by
  obtain ⟨s, hr, hacc⟩ := run_flush_accounting fuel mem cs (RDMAAggregator.fresh T n mem)
    (fun _ => rfl) (by simpa [RDMAAggregator.fresh] using hok)
  have h0 : (RDMAAggregator.fresh T n mem).rdma_capacity_flushes = 0 := rfl
  have h1 : (RDMAAggregator.fresh T n mem).rdma_requested_flushes = 0 := rfl
  have h2 : (RDMAAggregator.fresh T n mem).send_rdma_calls.length = 0 := rfl
  rw [h0, h1, h2] at hacc
  refine ⟨s, hr, by omega, by omega, fun hz => by omega⟩

/-- C11, an instance: 25 messages of 100 bytes with `target_size = 1024`, a `flush` after
the 5th (it sends) and a `flush` of the other, empty, core at the end (it does not). -/
theorem flush_counters_account_for_sends_witness :
    idle_flushes 1 (RDMAAggregator.fresh 1024 2 (uniform_memory 1 100)) flushed_calls = 1
    ∧ ∃ s, run 1 (RDMAAggregator.fresh 1024 2 (uniform_memory 1 100)) flushed_calls = some s
      ∧ s.rdma_capacity_flushes + s.rdma_requested_flushes
          = s.send_rdma_calls.length
            + idle_flushes 1 (RDMAAggregator.fresh 1024 2 (uniform_memory 1 100)) flushed_calls
      ∧ s.send_rdma_calls.length ≤ s.rdma_capacity_flushes + s.rdma_requested_flushes
      ∧ (idle_flushes 1 (RDMAAggregator.fresh 1024 2 (uniform_memory 1 100)) flushed_calls = 0 →
          s.rdma_capacity_flushes + s.rdma_requested_flushes = s.send_rdma_calls.length) :=
  ⟨by decide, flush_counters_account_for_sends 0 1024 2 (uniform_memory 1 100) flushed_calls
    (by decide)⟩

/-- C11 as stated fails: after the single call `flush( 0 )` on a freshly constructed
aggregator (zeroed counters, empty destination) `rdma_capacity_flushes +
rdma_requested_flushes` is 1 while no `send_rdma` call has been issued. -/
theorem flush_counters_exceed_sends :
    ∃ s, run 1 (RDMAAggregator.fresh 4096 1 (uniform_memory 0 100)) [Call.flush 0] = some s
      ∧ s.rdma_capacity_flushes + s.rdma_requested_flushes = 1
      ∧ s.send_rdma_calls.length = 0
      ∧ s.rdma_capacity_flushes + s.rdma_requested_flushes ≠ s.send_rdma_calls.length :=
  ⟨_, rfl, rfl, rfl, by decide⟩

/-! ## Interference and the immediate send -/

/-- The serializer on a single message that fits: it writes the message, leaves the list
pointer null and returns the cursor after the message. -/
theorem aggregate_to_buffer_single (fuel : Nat) (mem : Ptr → MessageBase) (m : Ptr)
    (max : Nat) (h0 : m ≠ 0) (hn : (mem m).next_ = 0) (hsz : (mem m).serialized_size ≤ max) :
    aggregate_to_buffer (fuel + 2) mem 0 m max = some ((mem m).serialized_size, 0, [m]) := by
  simp [aggregate_to_buffer, h0, hn, hsz]

/-- The state `send_immediate( m )` leaves for a message that is not linked to another. -/
theorem send_immediate_single (fuel : Nat) (t : Machine) (m : Ptr) (h0 : m ≠ 0)
    (hn : (t.aggregator.memory m).next_ = 0)
    (hsz : (t.aggregator.memory m).serialized_size < 18446744073709551616) :
    send_immediate (fuel + 2) t m
      = some { aggregator :=
                 { t.aggregator with
                   app_messages_immediate := t.aggregator.app_messages_immediate + 1 }
               serialized := t.serialized ++ [m]
               am_requests := t.am_requests
                 ++ [((t.aggregator.memory m).destination_,
                      (t.aggregator.memory m).serialized_size)] } := by
  have hmod : (t.aggregator.memory m).serialized_size % 18446744073709551616
      = (t.aggregator.memory m).serialized_size := Nat.mod_eq_of_lt hsz
  simp only [send_immediate, hmod]
  simp only [send_immediate_loop, ne_eq, h0, not_false_eq_true, if_true]
  rw [show fuel + 1 + 1 = fuel + 2 from rfl,
    aggregate_to_buffer_single fuel t.aggregator.memory m _ h0 hn (le_refl _)]
  simp

/-- C13: for a message `m` whose `next_` is null (`m` itself not null, its size a value a
`size_t` holds), `send_immediate( m )` returns; it leaves the per-destination state, and
all of the aggregator but `app_messages_immediate`, unchanged; it serializes exactly one
message, `m`; it issues exactly one medium active-message request, to `m.destination_`
and of exactly `m.serialized_size` bytes; and it increments `app_messages_immediate` by
one. -/
theorem send_immediate_sends_one (fuel : Nat) (t : Machine) (m : Ptr) (h0 : m ≠ 0)
    (hn : (t.aggregator.memory m).next_ = 0)
    (hsz : (t.aggregator.memory m).serialized_size < 18446744073709551616) :
    ∃ t2, send_immediate (fuel + 2) t m = some t2
      ∧ t2.aggregator.cores_ = t.aggregator.cores_
      ∧ t2.aggregator = { t.aggregator with
          app_messages_immediate := t.aggregator.app_messages_immediate + 1 }
      ∧ t2.serialized = t.serialized ++ [m]
      ∧ t2.am_requests = t.am_requests
          ++ [((t.aggregator.memory m).destination_, (t.aggregator.memory m).serialized_size)]
      ∧ t2.aggregator.app_messages_immediate = t.aggregator.app_messages_immediate + 1 :=
  ⟨_, send_immediate_single fuel t m h0 hn hsz, rfl, rfl, rfl, rfl, rfl⟩

/-- C13, an instance: a message of 100 bytes for core 1, sent from a fresh aggregator. -/
theorem send_immediate_sends_one_witness :
    ∃ t2, send_immediate 2 (Machine.fresh 4096 2 (uniform_memory 1 100)) 64 = some t2
      ∧ t2.aggregator.cores_ = (Machine.fresh 4096 2 (uniform_memory 1 100)).aggregator.cores_
      ∧ t2.aggregator = { (Machine.fresh 4096 2 (uniform_memory 1 100)).aggregator with
          app_messages_immediate := 0 + 1 }
      ∧ t2.serialized = [] ++ [64]
      ∧ t2.am_requests = [] ++ [(1, 100)]
      ∧ t2.aggregator.app_messages_immediate = 0 + 1 :=
  send_immediate_sends_one 0 (Machine.fresh 4096 2 (uniform_memory 1 100)) 64 (by decide)
    (by decide) (by decide)

/-! ## The edge-weight scan -/

/-- A scan that starts at `k` and finds `j` first at index `k + i` reads the indices
`k, ..., k + i` and returns `weights[k + i]`. -/
theorem get_edge_weight_from_found {W : Type} (v : Vertex W) (j : Int) (h0 : v.nadj ≠ 0) :
    ∀ (i k fuel : Nat) (w : W), i < fuel →
      v.local_adj[k + i]? = some j → v.weights[k + i]? = some w →
      (∀ n, k ≤ n → n < k + i → v.local_adj[n]? ≠ none ∧ v.local_adj[n]? ≠ some j) →
      get_edge_weight_from v j fuel k
        = ((List.range (i + 1)).map (fun n => k + n), ScanEnd.returned w) := by
  intro i
  induction i with
  | zero =>
    intro k fuel w hf ha hw _
    obtain ⟨f, rfl⟩ : ∃ f, fuel = f + 1 := ⟨fuel - 1, by omega⟩
    simp only [Nat.add_zero] at ha hw
    simp [get_edge_weight_from, h0, ha, hw, List.range_succ]
  | succ i ih =>
    intro k fuel w hf ha hw hn
    obtain ⟨f, rfl⟩ : ∃ f, fuel = f + 1 := ⟨fuel - 1, by omega⟩
    obtain ⟨hk1, hk2⟩ := hn k (le_refl _) (by omega)
    obtain ⟨a, hka⟩ := Option.ne_none_iff_exists'.1 hk1
    have haj : a ≠ j := fun e => hk2 (by rw [hka, e])
    have hrec := ih (k + 1) f w (by omega) (by rw [← ha]; congr 1; omega)
      (by rw [← hw]; congr 1; omega) (fun n h1 h2 => hn n (by omega) (by omega))
    simp only [get_edge_weight_from, ne_eq, h0, not_false_eq_true, if_true, hka, haj, if_false,
      hrec]
    rw [List.range_succ_eq_map (i + 1)]
    simp only [List.map_cons, Nat.add_zero, List.map_map, Prod.mk.injEq, List.cons.injEq,
      true_and, and_true]
    apply List.map_congr_left
    intro n _
    simp only [Function.comp_apply]
    omega

/-- A scan that starts at `k` inside an array without `j`, with `nadj` not 0, reads every
index up to the length of the array, the last read being outside it. -/
theorem get_edge_weight_from_missing {W : Type} (v : Vertex W) (j : Int) (h0 : v.nadj ≠ 0)
    (hj : j ∉ v.local_adj) :
    ∀ (i k fuel : Nat), i < fuel → k + i = v.local_adj.length →
      get_edge_weight_from v j fuel k
        = ((List.range (i + 1)).map (fun n => k + n), ScanEnd.out_of_bounds (k + i)) := by
  intro i
  induction i with
  | zero =>
    intro k fuel hf hk
    obtain ⟨f, rfl⟩ : ∃ f, fuel = f + 1 := ⟨fuel - 1, by omega⟩
    have hnone : v.local_adj[k]? = none := List.getElem?_eq_none (by omega)
    simp [get_edge_weight_from, h0, hnone, List.range_succ]
  | succ i ih =>
    intro k fuel hf hk
    obtain ⟨f, rfl⟩ : ∃ f, fuel = f + 1 := ⟨fuel - 1, by omega⟩
    have hlt : k < v.local_adj.length := by omega
    have hka : v.local_adj[k]? = some (v.local_adj[k]) := List.getElem?_eq_getElem hlt
    have haj : v.local_adj[k] ≠ j := fun e => hj (e ▸ List.getElem_mem hlt)
    have hrec := ih (k + 1) f (by omega) (by omega)
    simp only [get_edge_weight_from, ne_eq, h0, not_false_eq_true, if_true, hka, haj, if_false,
      hrec]
    rw [List.range_succ_eq_map (i + 1)]
    simp only [List.map_cons, Nat.add_zero, List.map_map, Prod.mk.injEq, List.cons.injEq,
      true_and]
    constructor
    · apply List.map_congr_left
      intro n _
      simp only [Function.comp_apply]
      omega
    · congr 1; omega

/-- An entry of a list has a first index. -/
theorem first_index_of_mem (l : List Int) (j : Int) (h : j ∈ l) :
    ∃ k : Nat, l[k]? = some j ∧ ∀ n : Nat, n < k → l[n]? ≠ none ∧ l[n]? ≠ some j := by
  induction l with
  | nil => simp at h
  | cons a l ih =>
    by_cases ha : a = j
    · exact ⟨0, by simp [ha], fun n hn => by omega⟩
    · have hl : j ∈ l := by
        rcases List.mem_cons.1 h with e | e
        · exact (ha e.symm).elim
        · exact e
      obtain ⟨k, hk, hlt⟩ := ih hl
      refine ⟨k + 1, by simpa using hk, ?_⟩
      intro n hn
      cases n with
      | zero => simp [ha]
      | succ n => simpa using hlt n (by omega)

/-- C19, what the code does: for a vertex `v` whose arrays hold `nadj` entries and
a target `j`, the scan of `get_edge_weight` ends (the model needs `nadj + 1` iterations at
most) and
* when `j` is adjacent, it reads `local_adj` at the indices `0, ..., k` only, where `k` is
  the first index with `local_adj[k] == j`, all of them below `nadj`, and returns
  `weights[k]`;
* when `j` is not adjacent and `nadj` is not 0, it reads `local_adj` at every index
  `0, ..., nadj`: the loop condition is `v.nadj`, not `k < v.nadj`, so the read at index
  `nadj` is outside the array;
* when `nadj` is 0, it reaches the final `return 0.0`.
So the claim holds for an adjacent `j` only. -/
theorem get_edge_weight_scan {W : Type} (v : Vertex W) (j : Int) (fuel : Nat) (hwf : v.wf)
    (hf : v.local_adj.length < fuel) :
    (j ∈ v.local_adj →
      ∃ (k : Nat) (w : W), v.local_adj[k]? = some j
        ∧ (∀ n : Nat, n < k → v.local_adj[n]? ≠ some j)
        ∧ Int.ofNat k < v.nadj ∧ v.weights[k]? = some w
        ∧ get_edge_weight fuel v j = (List.range (k + 1), ScanEnd.returned w))
    ∧ (j ∉ v.local_adj → v.nadj ≠ 0 →
      get_edge_weight fuel v j
        = (List.range (v.local_adj.length + 1), ScanEnd.out_of_bounds v.local_adj.length))
    ∧ (v.nadj = 0 → get_edge_weight fuel v j = ([], ScanEnd.fell_through)) := by
  obtain ⟨hn, hw⟩ := hwf
  have hmap : ∀ i : Nat, (List.range i).map (fun n => 0 + n) = List.range i := by
    intro i
    simp
  refine ⟨?_, ?_, ?_⟩
  · intro hj
    obtain ⟨k, hk, hlt⟩ := first_index_of_mem v.local_adj j hj
    have hkl : k < v.local_adj.length := lt_length_of_getElem? hk
    have h0 : v.nadj ≠ 0 := by
      rw [hn]
      intro e
      have : (v.local_adj.length : Int) = 0 := e
      omega
    have hwk : v.weights[k]? = some (v.weights[k]) := List.getElem?_eq_getElem (by omega)
    refine ⟨k, _, hk, fun n h => (hlt n h).2, ?_, hwk, ?_⟩
    · rw [hn]
      show (k : Int) < (v.local_adj.length : Int)
      omega
    · have h := get_edge_weight_from_found v j h0 k 0 fuel (v.weights[k]) (by omega)
        (by rw [Nat.zero_add]; exact hk) (by rw [Nat.zero_add]; exact hwk)
        (fun n _ h2 => hlt n (by omega))
      rw [hmap] at h
      exact h
  · intro hj h0
    have h := get_edge_weight_from_missing v j h0 hj v.local_adj.length 0 fuel hf (by omega)
    rw [hmap] at h
    simpa using h
  · intro h0
    obtain ⟨f, rfl⟩ : ∃ f, fuel = f + 1 := ⟨fuel - 1, by omega⟩
    simp [get_edge_weight, get_edge_weight_from, h0]

/-- C19, the failing input: on the vertex with the neighbours 3 and 4 the scan for 4
reads the indices 0 and 1 and returns the second weight, but the scan for 7, which is not
a neighbour, goes on to read `local_adj[2]`, outside the array of `nadj = 2` entries. -/
theorem get_edge_weight_scan_witness :
    (4 ∈ two_neighbours.local_adj →
      ∃ (k : Nat) (w : Int), two_neighbours.local_adj[k]? = some 4
        ∧ (∀ n : Nat, n < k → two_neighbours.local_adj[n]? ≠ some 4)
        ∧ Int.ofNat k < two_neighbours.nadj ∧ two_neighbours.weights[k]? = some w
        ∧ get_edge_weight 3 two_neighbours 4 = (List.range (k + 1), ScanEnd.returned w))
    ∧ (7 ∉ two_neighbours.local_adj → two_neighbours.nadj ≠ 0 →
      get_edge_weight 3 two_neighbours 7
        = (List.range (two_neighbours.local_adj.length + 1),
            ScanEnd.out_of_bounds two_neighbours.local_adj.length))
    ∧ get_edge_weight 3 two_neighbours 7 = ([0, 1, 2], ScanEnd.out_of_bounds 2)
    ∧ get_edge_weight 1 no_neighbours 7 = ([], ScanEnd.fell_through) :=
  ⟨(get_edge_weight_scan two_neighbours 4 3 ⟨rfl, rfl⟩ (by decide)).1,
    (get_edge_weight_scan two_neighbours 7 3 ⟨rfl, rfl⟩ (by decide)).2.1, by decide,
    by decide⟩

/-! ## Translation of local addresses -/

theorem to_intptr_of_range (x : Int) (h1 : -9223372036854775808 ≤ x)
    (h2 : x < 9223372036854775808) : to_intptr x = x := by
  unfold to_intptr
  omega

/-- C20, as amended: `to_global( core, local )` aborts on its first `CHECK` when
`get_enclosing` finds no mapping on that core containing `local`; when a mapping is found
and the byte offset `local - start` is below `numeric_limits<MPI_Aint>::max()`, it returns
the mapping's base and window with that byte offset; when a mapping is found and the
offset is not below that maximum, it aborts on its second `CHECK`; and the `void` and
`const void` specializations give the same result for the same inputs. -/
theorem to_global_checked (r : RMA) (core : Core) (local_int start : Int) (w : RMAWindow)
    (hrep : -9223372036854775808 ≤ local_int - start
      ∧ local_int - start < 9223372036854775808) :
    (r.get_enclosing core local_int = none →
        to_global_void r core local_int = Except.error Abort.no_mapping)
    ∧ (r.get_enclosing core local_int = some (start, w) → local_int - start < r.aint_max →
        to_global_void r core local_int
          = Except.ok ⟨w.base_, w.window_, local_int - start⟩)
    ∧ (r.get_enclosing core local_int = some (start, w) → ¬ local_int - start < r.aint_max →
        to_global_void r core local_int = Except.error Abort.offset_overflow)
    ∧ to_global_const_void r core local_int = to_global_void r core local_int := by
  have hoff := to_intptr_of_range _ hrep.1 hrep.2
  refine ⟨?_, ?_, ?_, rfl⟩
  · intro h
    simp [to_global_void, h]
  · intro h hlt
    simp [to_global_void, h, hoff, hlt]
  · intro h hlt
    simp [to_global_void, h, hoff, hlt]

/-- C20, an instance: address 5000 lies in the region of core 0 that starts at 4096. -/
theorem to_global_checked_witness :
    (one_region.get_enclosing 0 5000 = none →
        to_global_void one_region 0 5000 = Except.error Abort.no_mapping)
    ∧ (one_region.get_enclosing 0 5000 = some (4096, ⟨65536, 3⟩) →
        5000 - 4096 < one_region.aint_max →
        to_global_void one_region 0 5000 = Except.ok ⟨65536, 3, 5000 - 4096⟩)
    ∧ (one_region.get_enclosing 0 5000 = some (4096, ⟨65536, 3⟩) →
        ¬ 5000 - 4096 < one_region.aint_max →
        to_global_void one_region 0 5000 = Except.error Abort.offset_overflow)
    ∧ to_global_const_void one_region 0 5000 = to_global_void one_region 0 5000 :=
  to_global_checked one_region 0 5000 4096 ⟨65536, 3⟩ (by decide)

/-- C20 as stated fails: with a 64-bit `MPI_Aint`, `get_enclosing` finds the mapping that
starts at address 0 for the address `2^63 - 1`, and `to_global` still aborts, on its
second `CHECK`, because the byte offset is not below `numeric_limits<MPI_Aint>::max()`. -/
theorem to_global_aborts_with_mapping :
    whole_space.get_enclosing 0 9223372036854775807 = some (0, ⟨0, 1⟩)
    ∧ to_global_void whole_space 0 9223372036854775807 = Except.error Abort.offset_overflow
    ∧ to_global_const_void whole_space 0 9223372036854775807
        = Except.error Abort.offset_overflow := by
  refine ⟨by decide, ?_, ?_⟩ <;> rfl

/-! ## Consecutive enqueues, step by step -/

/-- One step of `enqueue_steps`, in closed form. -/
theorem enqueue_steps_cons (fuel : Nat) (s : RDMAAggregator) (m : Ptr) (ms : List Ptr)
    (dest : CoreData) (h : s.cores_[(s.memory m).destination_]? = some dest) :
    ∃ loc : EnqueueLocals, loc.size = estimated_size s.memory dest m
      ∧ loc.count = 1 + dest.messages_.count_
      ∧ loc.new_ml = stitched_word dest.messages_ m
      ∧ loc.spawn_send
          = decide (estimated_size s.memory dest m > to_size_t s.FLAGS_target_size)
      ∧ enqueue_steps (fuel + 1) s (m :: ms)
          = (enqueue_steps (fuel + 1)
              (if estimated_size s.memory dest m ≤ to_size_t s.FLAGS_target_size
                then stitched_state s dest m else flushed_state s dest m) ms).map
              (fun tr => (loc,
                if estimated_size s.memory dest m ≤ to_size_t s.FLAGS_target_size
                  then stitched_state s dest m else flushed_state s dest m) :: tr) := by
  obtain ⟨s1, loc, hl, hsize, hcount, -, hnew, hspawn, -⟩ :=
    enqueue_loop_succ fuel { s with app_messages_enqueue := s.app_messages_enqueue + 1 } m
      (s.memory m).destination_ (MessageList.set_pointer ⟨0⟩ m) dest h
  refine ⟨loc, hsize, hcount, hnew, hspawn, ?_⟩
  by_cases hle : estimated_size s.memory dest m ≤ to_size_t s.FLAGS_target_size
  · simp only [enqueue_steps, hl, enqueue_stitch fuel s m dest h hle, if_pos hle]
  · simp only [enqueue_steps, hl, enqueue_flush fuel s m dest h (by omega), if_neg hle]

/-- The destination's entry after a step. -/
theorem stitched_state_core (s : RDMAAggregator) (dest : CoreData) (m : Ptr)
    (h : s.cores_[(s.memory m).destination_]? = some dest) :
    (stitched_state s dest m).cores_[(s.memory m).destination_]?
      = some { messages_ := stitched_word dest.messages_ m
               prefetch_queue_ := Function.update dest.prefetch_queue_
                 (ring_slot (1 + dest.messages_.count_)) (stored_entry s.memory dest m) } :=
  getElem?_set_self_of_some _ _ _ _ h

/-- Consecutive enqueues to cores of the table all return. -/
theorem enqueue_steps_total (fuel : Nat) :
    ∀ (ms : List Ptr) (s : RDMAAggregator),
      (∀ m ∈ ms, (s.memory m).destination_ < s.cores_.length) →
      ∃ tr, enqueue_steps (fuel + 1) s ms = some tr ∧ tr.length = ms.length := by
  intro ms
  induction ms with
  | nil => intro s _; exact ⟨[], rfl, rfl⟩
  | cons m ms ih =>
    intro s hms
    obtain ⟨dest, hd⟩ : ∃ dest, s.cores_[(s.memory m).destination_]? = some dest :=
      ⟨_, List.getElem?_eq_getElem (hms m (by simp))⟩
    obtain ⟨loc, -, -, -, -, he⟩ := enqueue_steps_cons fuel s m ms dest hd
    have hnext : ∀ s1 : RDMAAggregator, s1.cores_.length = s.cores_.length →
        (∀ p, (s1.memory p).destination_ = (s.memory p).destination_) →
        ∃ tr, enqueue_steps (fuel + 1) s1 ms = some tr ∧ tr.length = ms.length := by
      intro s1 hlen hdst
      exact ih s1 (fun x hx => by
        rw [hdst x, hlen]; exact hms x (List.mem_cons_of_mem _ hx))
    by_cases hle : estimated_size s.memory dest m ≤ to_size_t s.FLAGS_target_size
    · rw [if_pos hle] at he
      obtain ⟨tr, ht, hlen⟩ := hnext (stitched_state s _ m) (by simp [stitched_state])
        (fun p => linked_memory_destination _ _ _ _)
      exact ⟨_, by rw [he, ht]; rfl, by simp [hlen]⟩
    · rw [if_neg hle] at he
      obtain ⟨tr, ht, hlen⟩ := hnext (flushed_state s _ m) (by simp [flushed_state])
        (fun p => linked_memory_destination _ _ _ _)
      exact ⟨_, by rw [he, ht]; rfl, by simp [hlen]⟩

/-- Consecutive enqueues to destination `d`, position by position.  `J` is a property of
the state, of the entry of `d` and of the list of messages enqueued so far (newest first)
that every `enqueue` that does not flush keeps.  Then the calls all return, and as long as
no earlier call has flushed, the call at position `i` starts in a state `sb` in which `J`
holds, computes the size estimate, the count and the flush decision from the entry of `d`
in `sb`, and leaves the state of the closed form. -/
theorem enqueue_steps_invariant (fuel : Nat) (d : Core) (N : Nat)
    (J : RDMAAggregator → CoreData → List Ptr → Prop) (ok : Ptr → Prop)
    (hstep : ∀ (s : RDMAAggregator) (dest : CoreData) (l : List Ptr) (m : Ptr),
      s.cores_[d]? = some dest → J s dest l → (s.memory m).destination_ = d → ok m →
      m ∉ l → l.length < N →
      estimated_size s.memory dest m ≤ to_size_t s.FLAGS_target_size →
      J (stitched_state s dest m)
        { messages_ := stitched_word dest.messages_ m
          prefetch_queue_ := Function.update dest.prefetch_queue_
            (ring_slot (1 + dest.messages_.count_)) (stored_entry s.memory dest m) }
        (m :: l)) :
    ∀ (ms : List Ptr) (s : RDMAAggregator) (dest : CoreData) (l : List Ptr),
      s.cores_[d]? = some dest → J s dest l →
      (∀ m ∈ ms, (s.memory m).destination_ = d ∧ ok m ∧ m ∉ l) → ms.Nodup →
      l.length + ms.length ≤ N →
      ∃ tr, enqueue_steps (fuel + 1) s ms = some tr ∧ tr.length = ms.length
        ∧ ∀ i : Nat, i < ms.length →
          (∀ (j : Nat) (x : EnqueueLocals × RDMAAggregator), j < i → tr[j]? = some x →
            x.1.spawn_send = false) →
          ∃ (sb : RDMAAggregator) (destb : CoreData) (m : Ptr)
              (x : EnqueueLocals × RDMAAggregator),
            (s :: tr.map Prod.snd)[i]? = some sb ∧ ms[i]? = some m ∧ tr[i]? = some x
            ∧ sb.cores_[d]? = some destb ∧ (sb.memory m).destination_ = d
            ∧ J sb destb ((ms.take i).reverse ++ l)
            ∧ x.1.size = estimated_size sb.memory destb m
            ∧ x.1.count = 1 + destb.messages_.count_
            ∧ x.1.new_ml = stitched_word destb.messages_ m
            ∧ x.1.spawn_send
                = decide (estimated_size sb.memory destb m > to_size_t sb.FLAGS_target_size)
            ∧ x.2 = (if estimated_size sb.memory destb m ≤ to_size_t sb.FLAGS_target_size
                      then stitched_state sb destb m else flushed_state sb destb m) := by
  intro ms
  induction ms with
  | nil => intro s dest l _ _ _ _ _; exact ⟨[], rfl, rfl, fun i hi => by simp at hi⟩
  | cons m ms ih =>
    intro s dest l hd hJ hms hnd hN
    obtain ⟨hdm, hokm, hml⟩ := hms m (by simp)
    have hdst : s.cores_[(s.memory m).destination_]? = some dest := by rw [hdm]; exact hd
    have hnd2 : ms.Nodup := (List.nodup_cons.1 hnd).2
    have hmms : m ∉ ms := (List.nodup_cons.1 hnd).1
    simp only [List.length_cons] at hN
    obtain ⟨loc, hsize, hcount, hnew, hspawn, he⟩ := enqueue_steps_cons fuel s m ms dest hdst
    by_cases hle : estimated_size s.memory dest m ≤ to_size_t s.FLAGS_target_size
    · rw [if_pos hle] at he
      have hd1 : (stitched_state s dest m).cores_[d]?
          = some { messages_ := stitched_word dest.messages_ m
                   prefetch_queue_ := Function.update dest.prefetch_queue_
                     (ring_slot (1 + dest.messages_.count_)) (stored_entry s.memory dest m) } := by
        have := stitched_state_core s dest m hdst
        rw [hdm] at this
        exact this
      have hJ1 := hstep s dest l m hd hJ hdm hokm hml (by omega) hle
      obtain ⟨tr, ht, hlen, hpos⟩ := ih (stitched_state s dest m) _ (m :: l) hd1 hJ1
        (by
          intro x hx
          obtain ⟨hxd, hxo, hxl⟩ := hms x (List.mem_cons_of_mem _ hx)
          refine ⟨?_, hxo, ?_⟩
          · show (linked_memory s.memory dest m x).destination_ = d
            rw [linked_memory_destination]; exact hxd
          · intro hxm
            rcases List.mem_cons.1 hxm with h1 | h1
            · exact hmms (h1 ▸ hx)
            · exact hxl h1)
        hnd2 (by simp only [List.length_cons]; omega)
      refine ⟨(loc, stitched_state s dest m) :: tr, by rw [he, ht]; rfl, by simp [hlen], ?_⟩
      intro i hi hquiet
      cases i with
      | zero =>
        exact ⟨s, dest, m, (loc, stitched_state s dest m), by simp, by simp, by simp, hd, hdm,
          by simpa using hJ, hsize, hcount, hnew, hspawn, by rw [if_pos hle]⟩
      | succ i =>
        obtain ⟨sb, destb, mb, x, h1, h2, h3, h4, h5, h6, h7⟩ := hpos i
          (by simp only [List.length_cons] at hi; omega)
          (fun j x hj hx => hquiet (j + 1) x (by omega) (by simpa using hx))
        refine ⟨sb, destb, mb, x, by simpa using h1, by simpa using h2, by simpa using h3,
          h4, h5, ?_, h7⟩
        simpa [List.take_succ_cons, List.reverse_cons, List.append_assoc] using h6
    · rw [if_neg hle] at he
      obtain ⟨tr, ht, hlen⟩ := enqueue_steps_total fuel ms (flushed_state s dest m) (by
        intro x hx
        show (linked_memory s.memory dest m x).destination_ < (s.cores_.set _ _).length
        rw [linked_memory_destination, (hms x (List.mem_cons_of_mem _ hx)).1, List.length_set]
        exact lt_length_of_getElem? hd)
      refine ⟨(loc, flushed_state s dest m) :: tr, by rw [he, ht]; rfl, by simp [hlen], ?_⟩
      intro i hi hquiet
      cases i with
      | zero =>
        exact ⟨s, dest, m, (loc, flushed_state s dest m), by simp, by simp, by simp, hd, hdm,
          by simpa using hJ, hsize, hcount, hnew, hspawn, by rw [if_neg hle]⟩
      | succ i =>
        have hf := hquiet 0 (loc, flushed_state s dest m) (by omega) (by simp)
        rw [hspawn] at hf
        simp only [decide_eq_false_iff_not] at hf
        omega

/-! ## The size estimate between flushes -/

theorem take_succ_reverse {α : Type} (ms : List α) (i : Nat) (m : α) (l : List α)
    (h : ms[i]? = some m) :
    (ms.take (i + 1)).reverse ++ l = m :: ((ms.take i).reverse ++ l) := by
  rw [List.take_succ, h]
  simp

/-- An `enqueue` that does not flush keeps the size bookkeeping of its destination. -/
theorem sized_step (mem : Ptr → MessageBase) (T : Int) (hT0 : 0 ≤ T)
    (hT1 : T ≤ 65535) (s : RDMAAggregator) (dest : CoreData) (l : List Ptr) (m : Ptr)
    (hJ : s.FLAGS_target_size = T ∧ Sized (to_size_t T) s.memory dest l
      ∧ ∀ p, (s.memory p).serialized_size = (mem p).serialized_size)
    (hok : 1 ≤ (mem m).serialized_size ∧ (mem m).serialized_size ≤ 18446744073709486080)
    (hle : estimated_size s.memory dest m ≤ to_size_t s.FLAGS_target_size) :
    (stitched_state s dest m).FLAGS_target_size = T
    ∧ Sized (to_size_t T) (stitched_state s dest m).memory
        { messages_ := stitched_word dest.messages_ m
          prefetch_queue_ := Function.update dest.prefetch_queue_
            (ring_slot (1 + dest.messages_.count_)) (stored_entry s.memory dest m) }
        (m :: l)
    ∧ ∀ p, ((stitched_state s dest m).memory p).serialized_size = (mem p).serialized_size := by
  obtain ⟨hfl, hsz, hfr⟩ := hJ
  have hT3 : to_size_t T ≤ 65535 := by unfold to_size_t; omega
  refine ⟨hfl, ?_, ?_⟩
  · exact sized_stitched hsz hT3 m (by rw [hfr]; exact hok.1) (by rw [hfr]; exact hok.2)
      (by rw [← hfl]; exact hle)
  · intro p
    show (linked_memory s.memory dest m p).serialized_size = _
    rw [linked_memory_size]; exact hfr p

/-- C14, as amended: for `0 ≤ target_size ≤ 65535`, in every state reached from the fresh
aggregator by `enqueue`, `grab_messages`, `flush_one` and `flush` calls, and for every
sequence `ms` of consecutive enqueues to one destination `d` (all messages distinct, with
serialized sizes at least 1 and at most `2^64 - 65536`): the calls return, and as long as
no call of the sequence has flushed, the `size` computed by an `enqueue` is greater than or
equal to the `size` computed by the `enqueue` before it. -/
theorem size_estimate_monotone (fuel : Nat) (T : Int) (n : Nat) (mem : Ptr → MessageBase)
    (cs : List Call) (ms : List Ptr) (d : Core) (hT0 : 0 ≤ T) (hT1 : T ≤ 65535)
    (hok : ∀ c ∈ cs, c.ok n mem) (hnd : (enqueued cs ++ ms).Nodup)
    (hsz : ∀ x ∈ enqueued cs ++ ms, 1 ≤ (mem x).serialized_size
      ∧ (mem x).serialized_size ≤ 18446744073709486080)
    (hd : d < n) (hms : ∀ m ∈ ms, (mem m).destination_ = d) :
    ∃ s tr, run (fuel + 1) (RDMAAggregator.fresh T n mem) cs = some s
      ∧ enqueue_steps (fuel + 1) s ms = some tr ∧ tr.length = ms.length
      ∧ ∀ (i : Nat) (a b : EnqueueLocals × RDMAAggregator),
          (∀ (j : Nat) (x : EnqueueLocals × RDMAAggregator), j ≤ i → tr[j]? = some x →
            x.1.spawn_send = false) →
          tr[i]? = some a → tr[i + 1]? = some b → a.1.size ≤ b.1.size := by
  have h0 : Inv True mem T (RDMAAggregator.fresh T n mem) (List.replicate n []) [] [] [] :=
    Inv.fresh True mem T n
  have hnd1 : (enqueued cs).Nodup := (List.nodup_append.1 hnd).1
  obtain ⟨s, R, S, G, hr, hi, hlen, -⟩ := Inv.preserved fuel cs _ _ _ _ _ h0
    (by simpa [RDMAAggregator.fresh] using hok) (by simpa using hnd1)
    (fun _ => ⟨hT0, hT1, fun x hx => hsz x (List.mem_append_left _ hx)⟩)
  have hn : s.cores_.length = n := by rw [hlen]; simp [RDMAAggregator.fresh]
  obtain ⟨dest, hdd⟩ : ∃ dest, s.cores_[d]? = some dest :=
    ⟨_, List.getElem?_eq_getElem (by rw [hn]; exact hd)⟩
  obtain ⟨l, hl, hsized⟩ := forall₂_getElem? (hi.sized trivial) hdd
  have hlE : ∀ x ∈ l, x ∈ enqueued cs := by
    intro x hx
    have : x ∈ G ++ (S.flatten ++ R.flatten) :=
      List.mem_append_right _ (List.mem_append_right _
        (List.mem_flatten.2 ⟨l, List.getElem?_mem hl, hx⟩))
    simpa using hi.perm.subset this
  have hT3 : to_size_t T ≤ 65535 := by unfold to_size_t; omega
  obtain ⟨tr, ht, htl, hpos⟩ := enqueue_steps_invariant fuel d (l.length + ms.length)
    (fun sb destb lb => sb.FLAGS_target_size = T ∧ Sized (to_size_t T) sb.memory destb lb
      ∧ ∀ p, (sb.memory p).serialized_size = (mem p).serialized_size)
    (fun m => 1 ≤ (mem m).serialized_size ∧ (mem m).serialized_size ≤ 18446744073709486080)
    (fun s dest l m _ hJ _ hokm _ _ hle => sized_step mem T hT0 hT1 s dest l m hJ hokm hle)
    ms s dest l hdd ⟨hi.target, hsized, fun p => (hi.frame p).2⟩
    (fun m hm => ⟨by rw [(hi.frame m).1]; exact hms m hm, hsz m (List.mem_append_right _ hm),
      fun hml => (List.disjoint_of_nodup_append hnd) (hlE m hml) hm⟩)
    (List.nodup_append.1 hnd).2.1 (le_refl _)
  refine ⟨s, tr, hr, ht, htl, ?_⟩
  intro i a b hquiet ha hb
  have hi1 : i + 1 < ms.length := by
    rw [← htl]; exact lt_length_of_getElem? hb
  obtain ⟨sa, da, ma, xa, -, hma, hxa, -, -, ⟨-, hsa, hfa⟩, hsizea, -⟩ := hpos i (by omega)
    (fun j x hj hx => hquiet j x (by omega) hx)
  obtain ⟨sb, db, mb, xb, -, hmb, hxb, -, -, ⟨-, hsb, hfb⟩, hsizeb, -⟩ := hpos (i + 1) hi1
    (fun j x hj hx => hquiet j x (by omega) hx)
  rw [ha] at hxa
  rw [hb] at hxb
  cases hxa
  cases hxb
  rw [hsizea, hsizeb,
    estimated_size_of_sized hsa hT3 ma
      (by rw [hfa]; exact (hsz ma (List.mem_append_right _ (List.getElem?_mem hma))).2),
    estimated_size_of_sized hsb hT3 mb
      (by rw [hfb]; exact (hsz mb (List.mem_append_right _ (List.getElem?_mem hmb))).2),
    take_succ_reverse ms i ma l hma, sum_sizes_cons,
    sum_sizes_congr sb.memory sa.memory _ (fun p => (hfb p).trans (hfa p).symm), hfb ma, hfa ma]
  omega

/-- C14, an instance: after the example run with flushes, three more messages of 100
bytes for core 1 with `target_size = 1024`. -/
theorem size_estimate_monotone_witness :
    ∃ s tr, run 1 (RDMAAggregator.fresh 1024 2 (uniform_memory 1 100)) flushed_calls = some s
      ∧ enqueue_steps 1 s [6400, 6464, 6528] = some tr
      ∧ tr.length = [(6400 : Ptr), 6464, 6528].length
      ∧ ∀ (i : Nat) (a b : EnqueueLocals × RDMAAggregator),
          (∀ (j : Nat) (x : EnqueueLocals × RDMAAggregator), j ≤ i → tr[j]? = some x →
            x.1.spawn_send = false) →
          tr[i]? = some a → tr[i + 1]? = some b → a.1.size ≤ b.1.size :=
  size_estimate_monotone 0 1024 2 (uniform_memory 1 100) flushed_calls [6400, 6464, 6528] 1
    (by decide) (by decide) (by decide) (by decide) (by decide) (by decide) (by decide)

/-- C14 as stated fails: with `target_size = 1048576`, three messages of 40000 bytes
enqueued one after the other to the fresh core 0 are estimated at 40000, 80000 and 54464
bytes, and none of the three calls flushes: the ring keeps the second estimate modulo
`2^16` only (14464), so the third estimate is smaller than the second. -/
theorem size_estimate_drops :
    (enqueue_steps 1 (RDMAAggregator.fresh 1048576 1 (uniform_memory 0 40000))
        [64, 128, 192]).map (fun tr => tr.map (fun x => (x.1.size, x.1.spawn_send)))
      = some [(40000, false), (80000, false), (54464, false)] := by
  decide

/-! ## The count under the size budget -/

/-- C15, as amended: for `0 ≤ target_size ≤ 65535`, in every state reached from the fresh
aggregator by `enqueue`, `grab_messages`, `flush_one` and `flush` calls on distinct
messages whose serialized sizes are at least 1 and at most `2^64 - 65536`, the number of
messages resident in the chain of any destination is the count field and is at most
`target_size`; so the `count = 1 + old count` that the next `enqueue( m )` computes is at
most `target_size + 1`, and it is representable in the 16-bit count field (at most 65535,
and read back unchanged from `new_ml`) whenever the call does not flush, and in every call
when `target_size ≤ 65534`. -/
theorem resident_count_within_budget (fuel : Nat) (T : Int) (n : Nat)
    (mem : Ptr → MessageBase) (cs : List Call) (m : Ptr) (hT0 : 0 ≤ T) (hT1 : T ≤ 65535)
    (hok : ∀ c ∈ cs, c.ok n mem) (hnd : (enqueued cs).Nodup)
    (hsz : ∀ x ∈ enqueued cs, 1 ≤ (mem x).serialized_size
      ∧ (mem x).serialized_size ≤ 18446744073709486080)
    (hmd : (mem m).destination_ < n) (hm1 : 1 ≤ (mem m).serialized_size)
    (hfit : (mem m).serialized_size ≤ 18446744073709486080) :
    ∃ s, run (fuel + 1) (RDMAAggregator.fresh T n mem) cs = some s
      ∧ (∀ (c : Core) (cd : CoreData), s.cores_[c]? = some cd →
          ∃ l, IsChain s.memory cd.messages_.pointer_ l ∧ cd.messages_.count_ = l.length
            ∧ (l.length : Int) ≤ T)
      ∧ ∃ dest s1 loc, s.cores_[(s.memory m).destination_]? = some dest
        ∧ enqueue_loop (fuel + 1) { s with app_messages_enqueue := s.app_messages_enqueue + 1 }
            m (s.memory m).destination_ (MessageList.set_pointer ⟨0⟩ m) = some (s1, loc)
        ∧ loc.count = 1 + dest.messages_.count_
        ∧ (loc.count : Int) ≤ T + 1
        ∧ (loc.spawn_send = false → loc.count ≤ 65535 ∧ loc.new_ml.count_ = loc.count)
        ∧ (T ≤ 65534 → loc.count ≤ 65535 ∧ loc.new_ml.count_ = loc.count) := by
  have h0 : Inv True mem T (RDMAAggregator.fresh T n mem) (List.replicate n []) [] [] [] :=
    Inv.fresh True mem T n
  obtain ⟨s, R, S, G, hr, hi, hlen, -⟩ := Inv.preserved fuel cs _ _ _ _ _ h0
    (by simpa [RDMAAggregator.fresh] using hok) (by simpa using hnd)
    (fun _ => ⟨hT0, hT1, hsz⟩)
  have hn : s.cores_.length = n := by rw [hlen]; simp [RDMAAggregator.fresh]
  have hT3 : to_size_t T ≤ 65535 := by unfold to_size_t; omega
  have hT4 : ((to_size_t T : Nat) : Int) = T := by unfold to_size_t; omega
  have hall : ∀ (c : Core) (cd : CoreData), s.cores_[c]? = some cd →
      ∃ l, IsChain s.memory cd.messages_.pointer_ l ∧ Sized (to_size_t T) s.memory cd l
        ∧ cd.messages_.count_ = l.length ∧ l.length ≤ sum_sizes s.memory l
        ∧ sum_sizes s.memory l ≤ to_size_t T := by
    intro c cd hc
    obtain ⟨l, hl, hchain⟩ := forall₂_getElem? hi.resident hc
    obtain ⟨l2, hl2, hsized⟩ := forall₂_getElem? (hi.sized trivial) hc
    have hll : l2 = l := by rw [hl] at hl2; exact (Option.some.inj hl2).symm
    subst hll
    exact ⟨l2, hchain, hsized, hsized.1, length_le_sum_sizes _ _ hsized.2.2.1, hsized.2.1⟩
  refine ⟨s, hr, ?_, ?_⟩
  · intro c cd hc
    obtain ⟨l, hchain, -, hcnt, h1, h2⟩ := hall c cd hc
    exact ⟨l, hchain, hcnt, by omega⟩
  · have hdm : (s.memory m).destination_ < s.cores_.length := by
      rw [(hi.frame m).1, hn]; exact hmd
    obtain ⟨dest, hd⟩ : ∃ dest, s.cores_[(s.memory m).destination_]? = some dest :=
      ⟨_, List.getElem?_eq_getElem hdm⟩
    obtain ⟨l, -, hsized, hcnt, h1, h2⟩ := hall _ dest hd
    obtain ⟨s1, loc, hloop, hsize, hcount, -, hnew, hspawn, -⟩ :=
      enqueue_loop_succ fuel { s with app_messages_enqueue := s.app_messages_enqueue + 1 } m
        (s.memory m).destination_ (MessageList.set_pointer ⟨0⟩ m) dest hd
    have hest := estimated_size_of_sized hsized hT3 m (by rw [(hi.frame m).2]; exact hfit)
    have hsm : 1 ≤ (s.memory m).serialized_size := by rw [(hi.frame m).2]; exact hm1
    have hback : loc.count ≤ 65535 → loc.new_ml.count_ = loc.count := by
      intro hc
      rw [hnew]
      show (stitched_word dest.messages_ m).count_ = _
      rw [stitched_word_count, hcount]
      omega
    refine ⟨dest, s1, loc, hd, hloop, hcount, by omega, ?_, ?_⟩
    · intro hf
      rw [hspawn] at hf
      simp only [decide_eq_false_iff_not] at hf
      have hle : estimated_size s.memory dest m ≤ to_size_t T := by
        have : s.FLAGS_target_size = T := hi.target
        have h3 : ({ s with app_messages_enqueue := s.app_messages_enqueue + 1 }
          : RDMAAggregator).FLAGS_target_size = T := this
        rw [h3] at hf
        have h4 : ({ s with app_messages_enqueue := s.app_messages_enqueue + 1 }
          : RDMAAggregator).memory = s.memory := rfl
        rw [h4] at hf
        omega
      have hc : loc.count ≤ 65535 := by omega
      exact ⟨hc, hback hc⟩
    · intro hT2
      have hc : loc.count ≤ 65535 := by omega
      exact ⟨hc, hback hc⟩

/-- C15, an instance: after the example run with flushes, a message of 100 bytes for core
1 with `target_size = 1024`. -/
theorem resident_count_within_budget_witness :
    ∃ s, run 1 (RDMAAggregator.fresh 1024 2 (uniform_memory 1 100)) flushed_calls = some s
      ∧ (∀ (c : Core) (cd : CoreData), s.cores_[c]? = some cd →
          ∃ l, IsChain s.memory cd.messages_.pointer_ l ∧ cd.messages_.count_ = l.length
            ∧ (l.length : Int) ≤ 1024)
      ∧ ∃ dest s1 loc, s.cores_[(s.memory 6400).destination_]? = some dest
        ∧ enqueue_loop 1 { s with app_messages_enqueue := s.app_messages_enqueue + 1 }
            6400 (s.memory 6400).destination_ (MessageList.set_pointer ⟨0⟩ 6400)
              = some (s1, loc)
        ∧ loc.count = 1 + dest.messages_.count_
        ∧ (loc.count : Int) ≤ 1024 + 1
        ∧ (loc.spawn_send = false → loc.count ≤ 65535 ∧ loc.new_ml.count_ = loc.count)
        ∧ ((1024 : Int) ≤ 65534 → loc.count ≤ 65535 ∧ loc.new_ml.count_ = loc.count) :=
  resident_count_within_budget 0 1024 2 (uniform_memory 1 100) flushed_calls 6400
    (by decide) (by decide) (by decide) (by decide) (by decide) (by decide) (by decide)
    (by decide)

/-- C15 as stated fails: with `target_size = 65535` and 1-byte messages, after 65535
enqueues the count field of core 0 is 65535, which is at most `target_size`; the next
`enqueue` computes `count = 1 + 65535 = 65536`, which the 16-bit count field does not hold:
the count field of the `new_ml` it builds is 0. -/
theorem count_plus_one_wraps_at_budget :
    ∃ s dest s1 loc,
      run 1 (RDMAAggregator.fresh 65535 1 (uniform_memory 0 1)) (enqueue_calls 65535) = some s
      ∧ s.cores_[0]? = some dest
      ∧ dest.messages_.count_ = 65535
      ∧ enqueue_loop 1 { s with app_messages_enqueue := s.app_messages_enqueue + 1 }
          4194304 0 (MessageList.set_pointer ⟨0⟩ 4194304) = some (s1, loc)
      ∧ loc.count = 65536
      ∧ loc.new_ml.count_ = 0 := by
  obtain ⟨s, dest, l, hr, -, -, -, -, hd, htr, hlen⟩ := unit_run_tracks 65535 (by decide)
  have hcnt : dest.messages_.count_ = 65535 := by rw [htr.1, hlen]
  obtain ⟨s1, loc, hloop, -, hcount, -, hnew, -, -⟩ :=
    enqueue_loop_succ 0 { s with app_messages_enqueue := s.app_messages_enqueue + 1 } 4194304
      0 (MessageList.set_pointer ⟨0⟩ 4194304) dest hd
  refine ⟨s, dest, s1, loc, hr, hd, hcnt, hloop, by rw [hcount, hcnt], ?_⟩
  rw [hnew]
  show (stitched_word dest.messages_ 4194304).count_ = 0
  rw [stitched_word_count, hcnt]

/-! ## The prefetch ring -/

theorem stored_entry_pointer (mem : Ptr → MessageBase) (dest : CoreData) (m : Ptr)
    (hc : Canonical48 m) : (stored_entry mem dest m).pointer_ = m := by
  simp only [stored_entry, PrefetchEntry.pointer_, PrefetchEntry.set_pointer,
    high48_with_pointer48]
  exact signed48_of_canonical m hc

theorem linked_memory_prefetch (mem : Ptr → MessageBase) (dest : CoreData) (m : Ptr) :
    (linked_memory mem dest m m).prefetch_
      = (dest.prefetch_queue_ (ring_slot (1 + dest.messages_.count_))).pointer_ := by
  simp [linked_memory, PrefetchEntry.get_pointer]

theorem ring_slot_ne (c i : Nat) (hi : i < 4) (hc : i < c) :
    ring_slot (c - i) ≠ ring_slot (1 + c) := by
  intro h
  have := congrArg Fin.val h
  simp only [ring_slot] at this
  omega

theorem ring_slot_back (c : Nat) (hc : 4 ≤ c) : ring_slot (1 + c) = ring_slot (c - 4) := by
  apply Fin.ext
  simp only [ring_slot]
  omega

/-- Following `next_` along a chain reaches its entries one by one. -/
theorem follow_chain {mem : Ptr → MessageBase} :
    ∀ (l : List Ptr) (p : Ptr) (i : Nat) (q : Ptr), IsChain mem p l → l[i]? = some q →
      follow mem i p = q := by
  intro l
  induction l with
  | nil => intro p i q _ h; simp at h
  | cons a l ih =>
    intro p i q hch h
    obtain ⟨-, hpa, hrest⟩ := hch
    cases i with
    | zero =>
      simp only [List.getElem?_cons_zero, Option.some.injEq] at h
      rw [← h, hpa]; rfl
    | succ i =>
      simp only [List.getElem?_cons_succ] at h
      show follow mem i (mem p).next_ = q
      rw [hpa]
      exact ih _ i q hrest h

/-- The pointer a chain starts with. -/
theorem IsChain.head {mem : Ptr → MessageBase} {p : Ptr} {l : List Ptr}
    (h : IsChain mem p l) : p = l.head?.getD 0 := by
  cases l with
  | nil => exact h
  | cons a l => exact h.2.1

/-- An `enqueue` that does not flush keeps the chain of its destination and what the ring
remembers. -/
theorem remembered_step (s : RDMAAggregator) (dest : CoreData) (l : List Ptr) (m : Ptr)
    (hJ : IsChain s.memory dest.messages_.pointer_ l ∧ Remembered dest l)
    (hok : m ≠ 0 ∧ Canonical48 m) (hml : m ∉ l) :
    IsChain (stitched_state s dest m).memory
        (stitched_word dest.messages_ m).pointer_ (m :: l)
    ∧ Remembered
        { messages_ := stitched_word dest.messages_ m
          prefetch_queue_ := Function.update dest.prefetch_queue_
            (ring_slot (1 + dest.messages_.count_)) (stored_entry s.memory dest m) }
        (m :: l) := by
  obtain ⟨hch, hcnt, hring⟩ := hJ
  refine ⟨?_, ?_, ?_⟩
  · rw [stitched_word_pointer _ _ hok.2]
    exact IsChain.linked m hch hml hok.1
  · show (stitched_word dest.messages_ m).count_ = _
    rw [stitched_word_count, hcnt]
    simp only [List.length_cons]
    omega
  · intro i hi5 hic
    have hc2 : (stitched_word dest.messages_ m).count_ = (1 + dest.messages_.count_) % 65536 :=
      stitched_word_count _ _
    have hlt := low16_lt dest.messages_.raw_
    have hlt2 : dest.messages_.count_ < 65536 := hlt
    simp only at hic ⊢
    rw [hc2] at hic ⊢
    by_cases hw : 1 + dest.messages_.count_ = 65536
    · rw [hw] at hic
      simp at hic
    · have hmod : (1 + dest.messages_.count_) % 65536 = 1 + dest.messages_.count_ :=
        Nat.mod_eq_of_lt (by omega)
      rw [hmod] at hic ⊢
      cases i with
      | zero =>
        simp only [Nat.sub_zero, List.getElem?_cons_zero, Function.update_same]
        rw [stored_entry_pointer _ _ _ hok.2]
      | succ i =>
        have hne : ring_slot (1 + dest.messages_.count_ - (i + 1))
            ≠ ring_slot (1 + dest.messages_.count_) := by
          have h1 : 1 + dest.messages_.count_ - (i + 1) = dest.messages_.count_ - i := by omega
          rw [h1]
          exact ring_slot_ne _ i (by omega) (by omega)
        simp only [List.getElem?_cons_succ]
        rw [Function.update_noteq hne]
        have h1 : 1 + dest.messages_.count_ - (i + 1) = dest.messages_.count_ - i := by omega
        rw [h1]
        exact hring i (by omega) (by omega)

/-! ## The prefetch link -/

/-- C17: in a run of consecutive enqueues to a destination `d` that was empty, with no
flush before the last call (the messages distinct, not null and representable in the
48-bit pointer field): the calls return; the last call, of `m`, leaves `m.next_` equal to
the previous head of the list, the message enqueued just before (null if there is
none); it produces the count `1 + k mod 2^16`, where `k` messages were enqueued before;
and when that count `c` is greater than 5, `m.prefetch_` is the message enqueued five calls
earlier, whose call produced the count `c - 5`, and that message is the one reached from
`m` by following `next_` exactly 5 times. -/
theorem prefetch_is_fifth_back (fuel : Nat) (s : RDMAAggregator) (d : Core)
    (dest : CoreData) (pre : List Ptr) (m : Ptr) (hd : s.cores_[d]? = some dest)
    (hempty : dest.messages_.raw_ = 0)
    (hms : ∀ x ∈ pre ++ [m], x ≠ 0 ∧ Canonical48 x ∧ (s.memory x).destination_ = d)
    (hnd : (pre ++ [m]).Nodup) :
    ∃ tr x, enqueue_steps (fuel + 1) s (pre ++ [m]) = some tr
      ∧ tr[pre.length]? = some x
      ∧ ((∀ (j : Nat) (y : EnqueueLocals × RDMAAggregator), j < pre.length →
            tr[j]? = some y → y.1.spawn_send = false) →
          (x.2.memory m).next_ = pre.getLast?.getD 0
          ∧ x.1.count = 1 + pre.length % 65536
          ∧ (5 < x.1.count →
              ∃ p y, pre[pre.length - 5]? = some p ∧ tr[pre.length - 5]? = some y
                ∧ y.1.count + 5 = x.1.count
                ∧ (x.2.memory m).prefetch_ = p
                ∧ follow x.2.memory 5 m = p)) := by
  obtain ⟨tr, ht, htl, hpos⟩ := enqueue_steps_invariant fuel d (pre ++ [m]).length
    (fun sb destb lb => IsChain sb.memory destb.messages_.pointer_ lb ∧ Remembered destb lb)
    (fun x => x ≠ 0 ∧ Canonical48 x)
    (fun s dest l x _ hJ _ hok hxl _ _ => remembered_step s dest l x hJ hok hxl)
    (pre ++ [m]) s dest [] hd
    ⟨pointer_eq_zero_of_raw hempty, by rw [count_eq_zero_of_raw hempty]; rfl,
      fun i _ hi => by rw [count_eq_zero_of_raw hempty] at hi; omega⟩
    (fun x hx => ⟨(hms x hx).2.2, ⟨(hms x hx).1, (hms x hx).2.1⟩, by simp⟩)
    hnd (by simp)
  have hk : pre.length < (pre ++ [m]).length := by simp
  have hx : ∃ x, tr[pre.length]? = some x :=
    ⟨_, List.getElem?_eq_getElem (by rw [htl]; exact hk)⟩
  obtain ⟨x, hx⟩ := hx
  refine ⟨tr, x, ht, hx, ?_⟩
  intro hquiet
  obtain ⟨sb, destb, mb, xb, -, hmb, hxb, hdb, -, ⟨hch, hcnt, hring⟩, -, hcount, -, -, hx2⟩ :=
    hpos pre.length hk hquiet
  rw [hx] at hxb
  cases hxb
  have hmm : mb = m := by
    have : (pre ++ [m])[pre.length]? = some m := by simp
    rw [this] at hmb
    exact (Option.some.inj hmb).symm
  subst hmm
  have htake : ((pre ++ [mb]).take pre.length).reverse ++ [] = pre.reverse := by simp
  rw [htake] at hch hcnt hring
  have hmem : x.2.memory = linked_memory sb.memory destb mb := by
    rw [hx2]
    split <;> rfl
  have hmpre : mb ∉ pre := by
    intro h
    have := List.disjoint_of_nodup_append hnd h
    simp at this
  have hch2 : IsChain x.2.memory destb.messages_.pointer_ pre.reverse := by
    rw [hmem]
    exact IsChain.update mb _ hch (by simpa using hmpre)
  have hnext : (x.2.memory mb).next_ = destb.messages_.pointer_ := by
    rw [hmem, linked_memory_next]
  have hlen : pre.reverse.length = pre.length := List.length_reverse pre
  rw [hlen] at hcnt
  refine ⟨?_, by rw [hcount, hcnt], ?_⟩
  · rw [hnext, hch.head, List.head?_reverse]
  · intro h5
    rw [hcount] at h5
    have hc4 : 4 < destb.messages_.count_ := by omega
    have hk5 : 5 ≤ pre.length := by
      have := Nat.mod_le pre.length 65536
      omega
    have h4 := hring 4 (by omega) hc4
    have hprefetch : (x.2.memory mb).prefetch_
        = (destb.prefetch_queue_ (ring_slot (destb.messages_.count_ - 4))).pointer_ := by
      rw [hmem, linked_memory_prefetch, ring_slot_back _ (by omega)]
    have hidx : pre.reverse[4]? = pre[pre.length - 5]? := by
      rw [List.getElem?_reverse (by omega)]
      congr 1
    rw [hidx] at h4
    obtain ⟨sy, desty, my, y, -, -, hy, -, -, ⟨-, hcnty, -⟩, -, hcounty, -⟩ :=
      hpos (pre.length - 5) (by omega) (fun j z hj hz => hquiet j z (by omega) hz)
    have hleny : (((pre ++ [mb]).take (pre.length - 5)).reverse ++ []).length
        = pre.length - 5 := by
      simp
      omega
    rw [hleny] at hcnty
    refine ⟨_, y, h4, hy, ?_, hprefetch, ?_⟩
    · rw [hcounty, hcnty, hcount, hcnt]
      omega
    · show follow x.2.memory 4 (x.2.memory mb).next_ = _
      rw [hnext]
      have h4r : pre.reverse[4]? = some
          (destb.prefetch_queue_ (ring_slot (destb.messages_.count_ - 4))).pointer_ := by
        rw [hidx]; exact h4
      exact follow_chain _ _ 4 _ hch2 h4r

/-- C17, an instance: eight messages enqueued to the fresh core 0 with a budget that none
of them exceeds. -/
theorem prefetch_is_fifth_back_witness :
    ∃ tr x, enqueue_steps 1 (RDMAAggregator.fresh 4096 1 (uniform_memory 0 100))
        (message_addresses 7 ++ [512]) = some tr
      ∧ tr[(message_addresses 7).length]? = some x
      ∧ ((∀ (j : Nat) (y : EnqueueLocals × RDMAAggregator), j < (message_addresses 7).length →
            tr[j]? = some y → y.1.spawn_send = false) →
          (x.2.memory 512).next_ = (message_addresses 7).getLast?.getD 0
          ∧ x.1.count = 1 + (message_addresses 7).length % 65536
          ∧ (5 < x.1.count →
              ∃ p y, (message_addresses 7)[(message_addresses 7).length - 5]? = some p
                ∧ tr[(message_addresses 7).length - 5]? = some y
                ∧ y.1.count + 5 = x.1.count
                ∧ (x.2.memory 512).prefetch_ = p
                ∧ follow x.2.memory 5 512 = p)) :=
  prefetch_is_fifth_back 0 (RDMAAggregator.fresh 4096 1 (uniform_memory 0 100)) 0
    CoreData.zero (message_addresses 7) 512 rfl rfl (by decide) (by decide)

/-! ## The ring update rule -/

/-- A chain depends only on the records of its own messages. -/
theorem IsChain.congr_memory {mem1 mem2 : Ptr → MessageBase} :
    ∀ {p : Ptr} {l : List Ptr}, IsChain mem1 p l → (∀ q ∈ l, mem2 q = mem1 q) →
      IsChain mem2 p l := by
  intro p l
  induction l generalizing p with
  | nil => intro h _; exact h
  | cons a l ih =>
    intro h hq
    obtain ⟨h0, e, c⟩ := h
    refine ⟨h0, e, ?_⟩
    rw [hq a (by simp)]
    exact ih c (fun q hql => hq q (List.mem_cons_of_mem _ hql))

theorem linked_memory_other (mem : Ptr → MessageBase) (dest : CoreData) (m p : Ptr)
    (h : p ≠ m) : linked_memory mem dest m p = mem p := by
  unfold linked_memory
  rw [Function.update_noteq h]

/-- Messages of one size `z` enqueued to one destination under the budget `T`, with
`k = T / z + 1`: an `enqueue` flushes exactly when it brings the number of messages to a
multiple of `k`; the capacity-flush counter grows by the number of those calls; and every
list passed to `send_rdma` is a chain of `k` of the messages. -/
theorem uniform_run_flushes (fuel : Nat) (d : Core) (z T k : Nat) (hz : 1 ≤ z)
    (hzT : z ≤ T) (hT : T ≤ 65535) (hk : k = T / z + 1) (ms : List Ptr) :
    ∀ (s : RDMAAggregator) (dest : CoreData) (l : List Ptr),
      s.cores_[d]? = some dest →
      to_size_t s.FLAGS_target_size = T →
      (∀ p, p ∈ ms ∨ p ∈ l →
        (s.memory p).destination_ = d ∧ (s.memory p).serialized_size = z
        ∧ p ≠ 0 ∧ Canonical48 p) →
      Sized T s.memory dest l →
      IsChain s.memory dest.messages_.pointer_ l →
      l.length < k →
      (ms ++ l).Nodup →
      ∃ s2 tr new, run (fuel + 1) s (ms.map Call.enqueue) = some s2
        ∧ enqueue_steps (fuel + 1) s ms = some tr ∧ tr.length = ms.length
        ∧ (∀ (i : Nat) (x : EnqueueLocals × RDMAAggregator), tr[i]? = some x →
            (x.1.spawn_send = true ↔ (l.length + i + 1) % k = 0))
        ∧ s2.rdma_capacity_flushes = s.rdma_capacity_flushes + (l.length + ms.length) / k
        ∧ s2.send_rdma_calls = s.send_rdma_calls ++ new
        ∧ new.length = (l.length + ms.length) / k
        ∧ (∀ c ∈ new, c.1 = d ∧ ∃ lc, IsChain s2.memory c.2.pointer_ lc ∧ lc.length = k
            ∧ ∀ p ∈ lc, p ∈ ms ∨ p ∈ l)
        ∧ (∀ p, p ∉ ms → s2.memory p = s.memory p)
        ∧ (∀ p, (s2.memory p).serialized_size = (s.memory p).serialized_size) := by
  have hk0 : 0 < k := by rw [hk]; exact Nat.succ_pos _
  induction ms with
  | nil =>
    intro s dest l _ _ _ _ _ hlt _
    refine ⟨s, [], [], rfl, rfl, rfl, fun i x hx => by simp at hx, ?_, by simp, ?_,
      fun c hc => by simp at hc, fun _ _ => rfl, fun _ => rfl⟩
    · simp only [List.length_nil, Nat.add_zero]
      rw [Nat.div_eq_of_lt hlt]
      rfl
    · simp only [List.length_nil, Nat.add_zero]
      rw [Nat.div_eq_of_lt hlt]
  | cons m ms ih =>
    intro s dest l hd hTs hms hsized hchain hlt hnd
    obtain ⟨hdm, hzm, hm0, hcan⟩ := hms m (Or.inl (by simp))
    have hdst : s.cores_[(s.memory m).destination_]? = some dest := by rw [hdm]; exact hd
    have hest := estimated_size_of_sized hsized hT m (by rw [hzm]; omega)
    have hsum : sum_sizes s.memory l = z * l.length :=
      sum_sizes_const _ _ _ (fun p hp => (hms p (Or.inr hp)).2.1)
    rw [hsum, hzm] at hest
    have hest2 : estimated_size s.memory dest m = (l.length + 1) * z := by
      rw [hest, Nat.add_mul, Nat.one_mul, Nat.mul_comm]; omega
    have hnd1 : (m :: (ms ++ l)).Nodup := by simpa using hnd
    have hml : m ∉ l := fun h => (List.nodup_cons.1 hnd1).1 (List.mem_append_right _ h)
    have hmms : m ∉ ms := fun h => (List.nodup_cons.1 hnd1).1 (List.mem_append_left _ h)
    have hnd2 : (ms ++ l).Nodup := (List.nodup_cons.1 hnd1).2
    have hmem : ∀ p, p ∈ ms ∨ p ∈ m :: l →
        (linked_memory s.memory dest m p).destination_ = d
        ∧ (linked_memory s.memory dest m p).serialized_size = z ∧ p ≠ 0 ∧ Canonical48 p := by
      intro p hp
      rw [linked_memory_destination, linked_memory_size]
      rcases hp with h1 | h1
      · exact hms p (Or.inl (List.mem_cons_of_mem _ h1))
      · rcases List.mem_cons.1 h1 with h2 | h2
        · rw [h2]; exact ⟨hdm, hzm, hm0, hcan⟩
        · exact hms p (Or.inr h2)
    obtain ⟨loc, -, -, -, hspawn, hsteps⟩ := enqueue_steps_cons fuel s m ms dest hdst
    have hch1 : IsChain (linked_memory s.memory dest m)
        (stitched_word dest.messages_ m).pointer_ (m :: l) := by
      rw [stitched_word_pointer _ _ hcan]
      exact IsChain.linked m hchain hml hm0
    by_cases hle : estimated_size s.memory dest m ≤ to_size_t s.FLAGS_target_size
    · have he := enqueue_stitch fuel s m dest hdst hle
      rw [if_pos hle] at hsteps
      have hd1 : (stitched_state s dest m).cores_[d]?
          = some { messages_ := stitched_word dest.messages_ m
                   prefetch_queue_ := Function.update dest.prefetch_queue_
                     (ring_slot (1 + dest.messages_.count_))
                     (stored_entry s.memory dest m) } := by
        show (s.cores_.set (s.memory m).destination_ _)[d]? = _
        rw [hdm]
        exact getElem?_set_self_of_some _ _ _ _ hd
      have hle2 : estimated_size s.memory dest m ≤ T := by rw [← hTs]; exact hle
      have hlt2 : (m :: l).length < k := by
        have : l.length + 1 ≤ T / z := by
          rw [Nat.le_div_iff_mul_le (by omega)]
          rw [← hest2]; exact hle2
        simp only [List.length_cons]
        omega
      obtain ⟨s2, tr, new, hr, ht, htl, htime, hcap, hsend, hnew, hlists, hfr, hsz⟩ :=
        ih (stitched_state s dest m) _ (m :: l) hd1 hTs hmem
          (sized_stitched hsized hT m (by rw [hzm]; exact hz) (by rw [hzm]; omega) hle2)
          hch1 hlt2 (List.nodup_middle.2 hnd1)
      have hlen : (m :: l).length = l.length + 1 := rfl
      rw [hlen] at hcap hnew htime
      refine ⟨s2, (loc, stitched_state s dest m) :: tr, new, ?_, by rw [hsteps, ht]; rfl,
        by simp [htl], ?_, ?_, hsend, ?_, ?_, ?_, ?_⟩
      · rw [List.map_cons,
          run_cons _ _ _ _ _ (show (Call.enqueue m).exec (fuel + 1) s = some _ from he)]
        exact hr
      · intro i x hx
        cases i with
        | zero =>
          simp only [List.getElem?_cons_zero, Option.some.injEq] at hx
          subst hx
          simp only [hspawn, decide_eq_true_eq, Nat.add_zero]
          simp only [List.length_cons] at hlt2
          rw [Nat.mod_eq_of_lt hlt2]
          constructor
          · intro h; omega
          · intro h; omega
        | succ i =>
          simp only [List.getElem?_cons_succ] at hx
          rw [htime i x hx]
          rw [show l.length + 1 + i + 1 = l.length + (i + 1) + 1 by omega]
      · rw [hcap]
        show s.rdma_capacity_flushes + _ = _
        simp only [List.length_cons]
        rw [show l.length + 1 + ms.length = l.length + (ms.length + 1) by omega]
      · rw [hnew]
        simp only [List.length_cons]
        rw [show l.length + 1 + ms.length = l.length + (ms.length + 1) by omega]
      · intro c hc
        obtain ⟨h1, lc, h2, h3, h4⟩ := hlists c hc
        refine ⟨h1, lc, h2, h3, ?_⟩
        intro p hp
        rcases h4 p hp with h5 | h5
        · exact Or.inl (List.mem_cons_of_mem _ h5)
        · rcases List.mem_cons.1 h5 with h6 | h6
          · exact Or.inl (h6 ▸ List.mem_cons_self _ _)
          · exact Or.inr h6
      · intro p hp
        rw [hfr p (fun h => hp (List.mem_cons_of_mem _ h))]
        exact linked_memory_other _ _ _ _ (fun h => hp (h ▸ List.mem_cons_self _ _))
      · intro p
        rw [hsz p]
        exact linked_memory_size _ _ _ _
    · have he := enqueue_flush fuel s m dest hdst (by omega)
      rw [if_neg hle] at hsteps
      have hd1 : (flushed_state s dest m).cores_[d]? = some { dest with messages_ := ⟨0⟩ } := by
        show (s.cores_.set (s.memory m).destination_ _)[d]? = _
        rw [hdm]
        exact getElem?_set_self_of_some _ _ _ _ hd
      have hkl : l.length + 1 = k := by
        have : ¬ l.length + 1 ≤ T / z := by
          rw [Nat.le_div_iff_mul_le (by omega), ← hest2, ← hTs]
          exact hle
        omega
      obtain ⟨s2, tr, new, hr, ht, htl, htime, hcap, hsend, hnew, hlists, hfr, hsz⟩ :=
        ih (flushed_state s dest m) _ [] hd1 hTs
          (by
            intro p hp
            rcases hp with h1 | h1
            · exact hmem p (Or.inl h1)
            · simp at h1)
          (sized_linked dest m (sized_zero T s.memory dest)) zero_word_pointer hk0
          (by simpa using (List.nodup_append.1 hnd2).1)
      simp only [List.length_nil, Nat.zero_add] at hcap hnew htime
      have hdiv : (l.length + (ms.length + 1)) / k = 1 + ms.length / k := by
        rw [show l.length + (ms.length + 1) = k + ms.length by omega,
          Nat.add_div_left _ hk0]
        omega
      refine ⟨s2, (loc, flushed_state s dest m) :: tr,
        ((s.memory m).destination_, stitched_word dest.messages_ m) :: new, ?_,
        by rw [hsteps, ht]; rfl, by simp [htl], ?_, ?_, ?_, ?_, ?_, ?_, ?_⟩
      · rw [List.map_cons,
          run_cons _ _ _ _ _ (show (Call.enqueue m).exec (fuel + 1) s = some _ from he)]
        exact hr
      · intro i x hx
        cases i with
        | zero =>
          simp only [List.getElem?_cons_zero, Option.some.injEq] at hx
          subst hx
          simp only [hspawn, decide_eq_true_eq, Nat.add_zero]
          rw [hkl, Nat.mod_self]
          constructor
          · intro _; rfl
          · intro _; omega
        | succ i =>
          simp only [List.getElem?_cons_succ] at hx
          rw [htime i x hx]
          rw [show l.length + (i + 1) + 1 = k + (i + 1) by omega, Nat.add_mod_left]
      · rw [hcap]
        show s.rdma_capacity_flushes + 1 + _ = _
        simp only [List.length_cons]
        rw [hdiv]
        omega
      · rw [hsend]
        show s.send_rdma_calls ++ [_] ++ new = _
        simp
      · simp only [List.length_cons]
        rw [hdiv, hnew]
        omega
      · intro c hc
        rcases List.mem_cons.1 hc with h1 | h1
        · subst h1
          refine ⟨hdm, m :: l, ?_, by simp only [List.length_cons]; exact hkl, ?_⟩
          · refine IsChain.congr_memory hch1 ?_
            intro q hq
            apply hfr q
            intro hqms
            rcases List.mem_cons.1 hq with h2 | h2
            · exact hmms (h2 ▸ hqms)
            · exact (List.disjoint_of_nodup_append hnd2) hqms h2
          · intro p hp
            rcases List.mem_cons.1 hp with h2 | h2
            · exact Or.inl (h2 ▸ List.mem_cons_self _ _)
            · exact Or.inr h2
        · obtain ⟨h2, lc, h3, h4, h5⟩ := hlists c h1
          refine ⟨h2, lc, h3, h4, ?_⟩
          intro p hp
          rcases h5 p hp with h6 | h6
          · exact Or.inl (List.mem_cons_of_mem _ h6)
          · simp at h6
      · intro p hp
        rw [hfr p (fun h => hp (List.mem_cons_of_mem _ h))]
        exact linked_memory_other _ _ _ _ (fun h => hp (h ▸ List.mem_cons_self _ _))
      · intro p
        rw [hsz p]
        exact linked_memory_size _ _ _ _

/-- C8, as amended: for `1 ≤ s ≤ target_size ≤ 65535` and `k = target_size / s + 1`
(integer division), enqueuing `n` distinct messages of serialized size `s` (not null,
representable in the 48-bit pointer field) to one destination whose word is 0 runs to
completion; the `i`-th call flushes exactly when `i` is a multiple of `k`; so there are
exactly `n / k` capacity flushes, and as many `send_rdma` calls, all for that destination;
and every flushed list is a chain of `k` of the messages, `k * s` bytes, which is more than
`target_size`. -/
theorem capacity_flush_count (fuel : Nat) (s : RDMAAggregator) (d : Core) (dest : CoreData)
    (ms : List Ptr) (z : Nat) (hd : s.cores_[d]? = some dest)
    (hempty : dest.messages_.raw_ = 0)
    (hT0 : 0 ≤ s.FLAGS_target_size) (hT1 : s.FLAGS_target_size ≤ 65535)
    (hz : 1 ≤ z) (hzT : (z : Int) ≤ s.FLAGS_target_size)
    (hms : ∀ m ∈ ms, (s.memory m).destination_ = d ∧ (s.memory m).serialized_size = z
      ∧ m ≠ 0 ∧ Canonical48 m)
    (hnd : ms.Nodup) :
    ∃ s2 tr new, run (fuel + 1) s (ms.map Call.enqueue) = some s2
      ∧ enqueue_steps (fuel + 1) s ms = some tr ∧ tr.length = ms.length
      ∧ (∀ (i : Nat) (x : EnqueueLocals × RDMAAggregator), tr[i]? = some x →
          (x.1.spawn_send = true ↔ (i + 1) % (s.FLAGS_target_size.toNat / z + 1) = 0))
      ∧ s2.rdma_capacity_flushes
          = s.rdma_capacity_flushes + ms.length / (s.FLAGS_target_size.toNat / z + 1)
      ∧ s2.send_rdma_calls = s.send_rdma_calls ++ new
      ∧ new.length = ms.length / (s.FLAGS_target_size.toNat / z + 1)
      ∧ (∀ c ∈ new, c.1 = d ∧ ∃ lc, IsChain s2.memory c.2.pointer_ lc
          ∧ lc.length = s.FLAGS_target_size.toNat / z + 1
          ∧ (∀ p ∈ lc, p ∈ ms)
          ∧ sum_sizes s2.memory lc = (s.FLAGS_target_size.toNat / z + 1) * z
          ∧ s.FLAGS_target_size.toNat < (s.FLAGS_target_size.toNat / z + 1) * z) := by
  have hT : to_size_t s.FLAGS_target_size = s.FLAGS_target_size.toNat := by
    unfold to_size_t; omega
  obtain ⟨s2, tr, new, hr, ht, htl, htime, hcap, hsend, hnew, hlists, -, hsz⟩ :=
    uniform_run_flushes fuel d z s.FLAGS_target_size.toNat _ hz (by omega) (by omega) rfl ms
      s dest [] hd hT
      (by
        intro p hp
        rcases hp with h1 | h1
        · exact hms p h1
        · simp at h1)
      ⟨count_eq_zero_of_raw hempty, by simp [sum_sizes], by simp, by simp⟩
      (pointer_eq_zero_of_raw hempty) (Nat.succ_pos _) (by simpa using hnd)
  simp only [List.length_nil, Nat.zero_add] at htime hcap hnew
  refine ⟨s2, tr, new, hr, ht, htl, htime, hcap, hsend, hnew, ?_⟩
  intro c hc
  obtain ⟨h1, lc, h2, h3, h4⟩ := hlists c hc
  have h5 : ∀ p ∈ lc, p ∈ ms := by
    intro p hp
    rcases h4 p hp with h6 | h6
    · exact h6
    · simp at h6
  refine ⟨h1, lc, h2, h3, h5, ?_, ?_⟩
  · rw [sum_sizes_const s2.memory z lc (fun p hp => by rw [hsz p]; exact (hms p (h5 p hp)).2.1),
      h3, Nat.mul_comm]
  · have e1 := Nat.div_add_mod s.FLAGS_target_size.toNat z
    have e2 := Nat.mod_lt s.FLAGS_target_size.toNat (show z > 0 by omega)
    rw [Nat.add_mul, Nat.one_mul, Nat.mul_comm]
    omega

set_option maxRecDepth 20000 in
/-- C8, the scenario of the specification: 50 messages of 100 bytes with
`target_size = 1024`, so `k = 11`: the calls that flush are the 11th, 22nd, 33rd and 44th
(positions 10, 21, 32 and 43 counted from 0), there are exactly `50 / 11 = 4` capacity
flushes and `send_rdma` calls, and every flushed list is a chain of 11 messages, 1100
bytes. -/
theorem capacity_flush_count_witness :
    50 / ((1024 : Int).toNat / 100 + 1) = 4
    ∧ (∃ s2 tr new, run 1 (RDMAAggregator.fresh 1024 1 (uniform_memory 0 100))
        ((message_addresses 50).map Call.enqueue) = some s2
      ∧ enqueue_steps 1 (RDMAAggregator.fresh 1024 1 (uniform_memory 0 100))
          (message_addresses 50) = some tr
      ∧ tr.length = (message_addresses 50).length
      ∧ (∀ (i : Nat) (x : EnqueueLocals × RDMAAggregator), tr[i]? = some x →
          (x.1.spawn_send = true ↔ (i + 1) % ((1024 : Int).toNat / 100 + 1) = 0))
      ∧ s2.rdma_capacity_flushes
          = 0 + (message_addresses 50).length / ((1024 : Int).toNat / 100 + 1)
      ∧ s2.send_rdma_calls = [] ++ new
      ∧ new.length = (message_addresses 50).length / ((1024 : Int).toNat / 100 + 1)
      ∧ (∀ c ∈ new, c.1 = 0 ∧ ∃ lc, IsChain s2.memory c.2.pointer_ lc
          ∧ lc.length = (1024 : Int).toNat / 100 + 1
          ∧ (∀ p ∈ lc, p ∈ message_addresses 50)
          ∧ sum_sizes s2.memory lc = ((1024 : Int).toNat / 100 + 1) * 100
          ∧ (1024 : Int).toNat < ((1024 : Int).toNat / 100 + 1) * 100))
    ∧ (enqueue_steps 1 (RDMAAggregator.fresh 1024 1 (uniform_memory 0 100))
          (message_addresses 50)).map
        (fun tr => (List.range 50).filter
          (fun i => (tr[i]?.map (fun x => x.1.spawn_send)) == some true))
      = some [10, 21, 32, 43] :=
  ⟨by decide, capacity_flush_count 0 (RDMAAggregator.fresh 1024 1 (uniform_memory 0 100)) 0
    CoreData.zero (message_addresses 50) 100 rfl rfl (by decide) (by decide) (by decide)
    (by decide) (by decide) (by decide), by decide⟩

/-- C8 as stated fails: 50 messages of 100 bytes with `target_size = 1024` cause 4 capacity
flushes (during the 11th, 22nd, 33rd and 44th enqueue, each list holding 11 messages),
fewer than `⌈50 · 100 / 1024⌉ = 5`. -/
theorem fifty_messages_four_flushes :
    (run 1 (RDMAAggregator.fresh 1024 1 (uniform_memory 0 100)) (enqueue_calls 50)).map
        (fun s => (s.rdma_capacity_flushes, s.send_rdma_calls.map (fun c => c.2.count_)))
      = some (4, [11, 11, 11, 11])
    ∧ (50 * 100 + 1024 - 1) / 1024 = 5
    ∧ ¬ (5 ≤ 4) := by
  refine ⟨by decide, by decide, by decide⟩

end Grappa
